import Mathlib

/-!
Verification development for the decoding module of the pyturbo dependency
parser (`turboparser/parser/decoding.py`).

The Python code operates on numpy float arrays.  We embed scores as exact
numbers: a finite score is an integer, and the sentinel `-np.inf` used by the
code to mark forbidden arcs is `⊥` of `WithBot ℤ`.  The algorithms only use
the ordered additive structure of scores (comparisons, sums, argmax), so this
embedding reflects the control flow of the source exactly; `-inf + x = -inf`
corresponds to `⊥ + x = ⊥`.

Array-returning numpy operations are embedded as Lean functions over `Fin n`
or as lists; `np.argmax` returns the first index attaining the maximum, which
the embedding reproduces.
-/

/-- Scores: floats with `-np.inf` are modelled as `WithBot ℤ` (`⊥` = `-inf`). -/
abbrev S : Type := WithBot ℤ

/-- `x - y` for scores, used by `chu_liu_edmonds` when re-scoring a cycle's
potential heads (`score_matrix[cycle][:, noncycle] - cycle_scores[:, None]`).
In the source the subtrahend is a chosen greedy arc score of a cycle member,
which is never `-inf` (a row whose maximum is `-inf` argmaxes to column 0, and
node 0 is never part of a cycle), so the `⊥` subtrahend case is unreachable;
we map it to `⊥` (numpy would produce `nan` there). -/
def ssub : S → S → S
  | _, ⊥ => ⊥
  | ⊥, _ => ⊥
  | (a : ℤ), (b : ℤ) => ((a - b : ℤ) : S)

/-- `np.argmax` over a one-dimensional array: the first index attaining the
maximum; numpy breaks ties by the lowest index. -/
def npArgmax {α : Type} [LinearOrder α] (n : ℕ) (f : Fin n → α) (h : 0 < n) : Fin n :=
  (List.finRange n).foldl (fun best i => if f best < f i then i else best) ⟨0, h⟩

/-- `np.argmax` over a list (first position of the maximum, `0` if empty). -/
def argmaxIdxAux {α : Type} [LinearOrder α] (cur : ℕ) (curVal : α) (k : ℕ) : List α → ℕ
  | [] => cur
  | y :: ys => if curVal < y then argmaxIdxAux k y (k + 1) ys else argmaxIdxAux cur curVal (k + 1) ys

/-- First position of the maximum of a list; `0` for the empty list. -/
def argmaxIdx {α : Type} [LinearOrder α] : List α → ℕ
  | [] => 0
  | x :: xs => argmaxIdxAux 0 x 1 xs

/-- `np.fill_diagonal(score_matrix, -np.inf)`: no token is its own head. -/
def fill_diagonal (n : ℕ) (M : Fin n → Fin n → S) : Fin n → Fin n → S :=
  fun i j => if i = j then ⊥ else M i j

/-- `score_matrix[0] = -np.inf`: the root is not a modifier. -/
def setRow0 (n : ℕ) (M : Fin n → Fin n → S) : Fin n → Fin n → S :=
  fun i j => if i.val = 0 then ⊥ else M i j

/-- `score_matrix[0, 0] = 0`. -/
def setCell00 (n : ℕ) (M : Fin n → Fin n → S) : Fin n → Fin n → S :=
  fun i j => if i.val = 0 ∧ j.val = 0 then ((0 : ℤ) : S) else M i j

/-- The in-place preparation `chu_liu_edmonds` performs on its argument before
solving: diagonal to `-inf`, then row 0 to `-inf`, then cell `[0,0]` to `0`.
This is also the final state of the caller's matrix (see the frame theorems). -/
def clePrep (n : ℕ) (M : Fin n → Fin n → S) : Fin n → Fin n → S :=
  setCell00 n (setRow0 n (fill_diagonal n M))

/-! ## Tarjan's algorithm (`tarjan`, decoding.py lines 686-727)

The Python function uses mutable arrays `indices`, `lowlinks`, `onstack`, a
list used as a stack (append/pop at the end), a one-element list `_index` as a
mutable counter, and an output list `cycles`.  We thread an explicit state.
The Lean stack has its head as the top (Python's end of list). -/

structure TarjanState (n : ℕ) where
  indices : Fin n → ℤ
  lowlinks : Fin n → ℤ
  onstack : Fin n → Bool
  stack : List (Fin n)
  counter : ℕ
  cycles : List (Fin n → Bool)

/-- Initial state: `indices = lowlinks = -1`, `onstack = False`, empty stack,
counter `0`, no cycles. -/
def tarjanInit (n : ℕ) : TarjanState n :=
  { indices := fun _ => -1
    lowlinks := fun _ => -1
    onstack := fun _ => false
    stack := []
    counter := 0
    cycles := [] }

/-- Number of `True` entries of a boolean mask (`cycle.sum()` in numpy). -/
def countTrue (n : ℕ) (c : Fin n → Bool) : ℕ :=
  ((List.finRange n).filter (fun j => c j)).length

/-- Nodes not yet visited (index still `-1`); the DFS termination measure. -/
def unvisitedCount (n : ℕ) (st : TarjanState n) : ℕ :=
  ((List.finRange n).filter (fun j => st.indices j = -1)).length

/-- Visited-set monotonicity, threaded through the DFS for termination. -/
def TMono (n : ℕ) (st st' : TarjanState n) : Prop :=
  ∀ j, st.indices j ≠ -1 → st'.indices j ≠ -1

theorem tmono_refl (n : ℕ) (st : TarjanState n) : TMono n st st := fun _ h => h

theorem tmono_trans (n : ℕ) (st₁ st₂ st₃ : TarjanState n) (h₁ : TMono n st₁ st₂)
    (h₂ : TMono n st₂ st₃) : TMono n st₁ st₃ := fun j h => h₂ j (h₁ j h)

theorem unvisitedCount_le_of_tmono (n : ℕ) (st st' : TarjanState n)
    (h : TMono n st st') : unvisitedCount n st' ≤ unvisitedCount n st := by
  unfold unvisitedCount
  simp only [← List.countP_eq_length_filter]
  apply List.countP_mono_left
  intro j _ hj
  simp only [decide_eq_true_eq] at *
  by_contra hc
  exact absurd (h j hc) (by simpa using hj)

theorem unvisitedCount_lt_of_mark (n : ℕ) (st : TarjanState n) (i : Fin n)
    (hi : st.indices i = -1) (v : ℤ) (hv : v ≠ -1) (st' : TarjanState n)
    (hind : st'.indices = Function.update st.indices i v) :
    unvisitedCount n st' < unvisitedCount n st := by
  unfold unvisitedCount
  simp only [← List.countP_eq_length_filter, hind]
  have hmem : i ∈ List.finRange n := List.mem_finRange i
  rcases List.mem_iff_append.mp hmem with ⟨l₁, l₂, hsplit⟩
  have hnd : (l₁ ++ i :: l₂).Nodup := hsplit ▸ List.nodup_finRange n
  rw [hsplit, List.countP_append, List.countP_append, List.countP_cons, List.countP_cons]
  have h1 : (decide (Function.update st.indices i v i = -1)) = false := by
    simp [Function.update_same, hv]
  have h2 : (decide (st.indices i = -1)) = true := by simp [hi]
  have hil1 : i ∉ l₁ := by
    intro hmem1
    exact (List.disjoint_of_nodup_append hnd hmem1) (List.mem_cons_self i l₂)
  have hil2 : i ∉ l₂ := by
    have := (List.nodup_append.mp hnd).2.1
    exact fun hmem2 => (List.nodup_cons.mp this).1 hmem2
  have e1 : l₁.countP (fun j => decide (Function.update st.indices i v j = -1)) ≤
      l₁.countP (fun j => decide (st.indices j = -1)) := by
    apply List.countP_mono_left
    intro j hj hdec
    simp only [decide_eq_true_eq] at *
    rw [Function.update_noteq (fun hji => hil1 (by rw [← hji]; exact hj))] at hdec
    exact hdec
  have e2 : l₂.countP (fun j => decide (Function.update st.indices i v j = -1)) ≤
      l₂.countP (fun j => decide (st.indices j = -1)) := by
    apply List.countP_mono_left
    intro j hj hdec
    simp only [decide_eq_true_eq] at *
    rw [Function.update_noteq (fun hji => hil2 (by rw [← hji]; exact hj))] at hdec
    exact hdec
  rw [h1, h2]
  simp only [Bool.false_eq_true, if_false, if_true]
  omega

/-- The state change at the start of `strong_connect(i)` (lines 696-700):
assign the next DFS index and lowlink to `i`, push it, mark it on-stack. -/
def tjPush (n : ℕ) (st : TarjanState n) (i : Fin n) : TarjanState n :=
  { indices := Function.update st.indices i (st.counter : ℤ)
    lowlinks := Function.update st.lowlinks i (st.counter : ℤ)
    onstack := Function.update st.onstack i true
    stack := i :: st.stack
    counter := st.counter + 1
    cycles := st.cycles }

/-- `lowlinks[i] = min(lowlinks[i], v)` (lines 705 and 707). -/
def tjMinLow (n : ℕ) (st : TarjanState n) (i : Fin n) (v : ℤ) : TarjanState n :=
  { st with lowlinks := Function.update st.lowlinks i (min (st.lowlinks i) v) }

/-- The members popped together with `i` when its SCC is emitted: the stack
prefix strictly above `i` (`while stack[-1] != i: stack.pop()`). -/
def tjPopped (n : ℕ) (st : TarjanState n) (i : Fin n) : List (Fin n) :=
  st.stack.takeWhile (fun j => decide (j ≠ i))

/-- The boolean mask of the emitted component: `i` plus the popped prefix. -/
def tjMask (n : ℕ) (st : TarjanState n) (i : Fin n) : Fin n → Bool :=
  fun j => decide (j = i) || decide (j ∈ tjPopped n st i)

/-- The component-emission block of `strong_connect` (lines 710-720): pop the
stack down to and including `i`, clear `onstack` on the popped mask, and append
the mask to `cycles` when it has more than one member. -/
def tjPop (n : ℕ) (st : TarjanState n) (i : Fin n) : TarjanState n :=
  { indices := st.indices
    lowlinks := st.lowlinks
    onstack := fun j => if tjMask n st i j then false else st.onstack j
    stack := (st.stack.dropWhile (fun j => decide (j ≠ i))).tail
    counter := st.counter
    cycles := if 1 < countTrue n (tjMask n st i) then st.cycles ++ [tjMask n st i]
              else st.cycles }

/-- The dependents of `i`: `np.where(np.equal(heads, i))[0]`, in increasing
index order. -/
def tjDeps (n : ℕ) (heads : Fin n → Fin n) (i : Fin n) : List (Fin n) :=
  (List.finRange n).filter (fun j => heads j = i)

/-- Call tags for the big-step semantics of the DFS: a `strong_connect(i)`
call, or the dependents loop of `i` with a remaining dependents list. -/
inductive TTag (n : ℕ) where
  | sc (i : Fin n)
  | scan (i : Fin n) (deps : List (Fin n))

/-- Big-step semantics of `strong_connect` and of its dependents loop,
relating entry state to exit state.  Mirrors `strongConnect`/`scanDeps` below;
all invariant proofs are done by induction on these derivations. -/
inductive TRel (n : ℕ) (heads : Fin n → Fin n) : TTag n → TarjanState n → TarjanState n → Prop
  | emit (st : TarjanState n) (i : Fin n) (st2 : TarjanState n)
      (hvis : st.indices i = -1)
      (hscan : TRel n heads (.scan i (tjDeps n heads i)) (tjPush n st i) st2)
      (hlow : st2.lowlinks i = st2.indices i) :
      TRel n heads (.sc i) st (tjPop n st2 i)
  | noemit (st : TarjanState n) (i : Fin n) (st2 : TarjanState n)
      (hvis : st.indices i = -1)
      (hscan : TRel n heads (.scan i (tjDeps n heads i)) (tjPush n st i) st2)
      (hlow : ¬ st2.lowlinks i = st2.indices i) :
      TRel n heads (.sc i) st st2
  | nil (st : TarjanState n) (i : Fin n) : TRel n heads (.scan i []) st st
  | visit (st : TarjanState n) (i j : Fin n) (rest : List (Fin n))
      (stJ st' : TarjanState n) (hj : st.indices j = -1)
      (hrec : TRel n heads (.sc j) st stJ)
      (hrest : TRel n heads (.scan i rest) (tjMinLow n stJ i (stJ.lowlinks j)) st') :
      TRel n heads (.scan i (j :: rest)) st st'
  | back (st : TarjanState n) (i j : Fin n) (rest : List (Fin n))
      (st' : TarjanState n) (hj : ¬ st.indices j = -1) (hon : st.onstack j = true)
      (hrest : TRel n heads (.scan i rest) (tjMinLow n st i (st.indices j)) st') :
      TRel n heads (.scan i (j :: rest)) st st'
  | skip (st : TarjanState n) (i j : Fin n) (rest : List (Fin n))
      (st' : TarjanState n) (hj : ¬ st.indices j = -1) (hon : ¬ st.onstack j = true)
      (hrest : TRel n heads (.scan i rest) st st') :
      TRel n heads (.scan i (j :: rest)) st st'

/-- A node awaiting its first visit witnesses a positive unvisited count. -/
theorem one_le_unvisitedCount (n : ℕ) (st : TarjanState n) (i : Fin n)
    (hvis : st.indices i = -1) : 1 ≤ unvisitedCount n st := by
  have : i ∈ (List.finRange n).filter (fun j => st.indices j = -1) :=
    List.mem_filter.mpr ⟨List.mem_finRange i, by simp [hvis]⟩
  have := List.length_pos_of_mem this
  unfold unvisitedCount
  omega

/-- The unvisited count never exceeds the number of nodes. -/
theorem unvisitedCount_le_card (n : ℕ) (st : TarjanState n) :
    unvisitedCount n st ≤ n := by
  unfold unvisitedCount
  have := List.length_filter_le (fun j => decide (st.indices j = -1)) (List.finRange n)
  simpa [List.length_finRange] using this

/-- The dependents loop of `strong_connect` (decoding.py lines 701-707):
`for j in dependents`, threading the state.  The recursive visit of an
unvisited dependent is abstracted as `visitFn` so that the loop is
structurally recursive on the dependents list; `B` is the invariant
(`unvisitedCount ≤ fuel`) that `visitFn` requires. -/
def scanDeps (n : ℕ) (heads : Fin n → Fin n) (B : TarjanState n → Prop)
    (hB : ∀ st st', TMono n st st' → B st → B st')
    (visitFn : (st : TarjanState n) → (j : Fin n) → st.indices j = -1 → B st →
      { st' : TarjanState n // (TMono n st st' ∧ st'.indices j ≠ -1) ∧ TRel n heads (.sc j) st st' })
    (st : TarjanState n) (i : Fin n) (deps : List (Fin n)) (hBst : B st) :
    { st' : TarjanState n // TMono n st st' ∧ TRel n heads (.scan i deps) st st' } :=
  match deps with
  | [] => ⟨st, tmono_refl n st, TRel.nil st i⟩
  | j :: rest =>
    if hj : st.indices j = -1 then
      let rJ := visitFn st j hj hBst
      let stJ' := tjMinLow n rJ.val i (rJ.val.lowlinks j)
      have hmJ : TMono n st stJ' :=
        tmono_trans n st rJ.val stJ' rJ.property.1.1 (fun _ hk => hk)
      let rRest := scanDeps n heads B hB visitFn stJ' i rest (hB st stJ' hmJ hBst)
      ⟨rRest.val, tmono_trans n st stJ' rRest.val hmJ rRest.property.1,
        TRel.visit st i j rest rJ.val rRest.val hj rJ.property.2 rRest.property.2⟩
    else if hon : st.onstack j then
      let stE := tjMinLow n st i (st.indices j)
      have hmE : TMono n st stE := fun _ hk => hk
      let rRest := scanDeps n heads B hB visitFn stE i rest (hB st stE hmE hBst)
      ⟨rRest.val, tmono_trans n st stE rRest.val hmE rRest.property.1,
        TRel.back st i j rest rRest.val hj hon rRest.property.2⟩
    else
      let rRest := scanDeps n heads B hB visitFn st i rest hBst
      ⟨rRest.val, rRest.property.1,
        TRel.skip st i j rest rRest.val hj (by simpa using hon) rRest.property.2⟩

/-- `strong_connect(i)` (decoding.py lines 695-721).  Both call sites in the
source invoke it only on unvisited nodes (`indices[i] == -1`), which we record
as a hypothesis.  The `fuel` argument makes the recursion structural (so that
the function evaluates); marking a node strictly decreases the unvisited
count, so the bound `unvisitedCount ≤ fuel` shows fuel zero is unreachable.
The result carries visited-set monotonicity and its own big-step derivation
(used for invariant proofs). -/
def strongConnect (n : ℕ) (heads : Fin n → Fin n) :
    (fuel : ℕ) → (st : TarjanState n) → (i : Fin n) → st.indices i = -1 →
    unvisitedCount n st ≤ fuel →
    { st' : TarjanState n // (TMono n st st' ∧ st'.indices i ≠ -1) ∧ TRel n heads (.sc i) st st' }
  | 0, st, i, hvis, hfuel =>
    absurd hfuel (by have := one_le_unvisitedCount n st i hvis; omega)
  | fuel + 1, st, i, hvis, hfuel =>
    let st1 := tjPush n st i
    have hm1 : TMono n st st1 := by
      intro j hj
      show Function.update st.indices i (st.counter : ℤ) j ≠ -1
      by_cases hij : j = i
      · subst hij; rw [Function.update_same]; intro hc; omega
      · rwa [Function.update_noteq hij]
    have hu1 : unvisitedCount n st1 ≤ fuel := by
      have := unvisitedCount_lt_of_mark n st i hvis (st.counter : ℤ)
        (by intro hc; omega) st1 rfl
      omega
    let r2 := scanDeps n heads (fun s => unvisitedCount n s ≤ fuel)
      (fun s s' hm hb => le_trans (unvisitedCount_le_of_tmono n s s' hm) hb)
      (fun s j hj hb => strongConnect n heads fuel s j hj hb)
      st1 i (tjDeps n heads i) hu1
    have hi2 : r2.val.indices i ≠ -1 := by
      apply r2.property.1 i
      show Function.update st.indices i (st.counter : ℤ) i ≠ -1
      rw [Function.update_same]; intro hc; omega
    if hlow : r2.val.lowlinks i = r2.val.indices i then
      ⟨tjPop n r2.val i,
        ⟨⟨tmono_trans n st st1 (tjPop n r2.val i) hm1 r2.property.1, hi2⟩,
          TRel.emit st i r2.val hvis r2.property.2 hlow⟩⟩
    else
      ⟨r2.val,
        ⟨⟨tmono_trans n st st1 r2.val hm1 r2.property.1, hi2⟩,
          TRel.noemit st i r2.val hvis r2.property.2 hlow⟩⟩

/-- The main loop of `tarjan` (decoding.py lines 723-725): visit every node in
index order, starting a DFS at each unvisited one. -/
def tarjanLoop (n : ℕ) (heads : Fin n → Fin n) (st : TarjanState n) :
    List (Fin n) → TarjanState n
  | [] => st
  | i :: rest =>
    if h : st.indices i = -1 then
      tarjanLoop n heads
        (strongConnect n heads n st i h (unvisitedCount_le_card n st)).val rest
    else
      tarjanLoop n heads st rest

/-- `tarjan(heads)` (decoding.py lines 686-727): the list of non-trivial
strongly connected components (cycles) of the functional graph `heads`, as
boolean masks, in emission order. -/
def tarjan (n : ℕ) (heads : Fin n → Fin n) : List (Fin n → Bool) :=
  (tarjanLoop n heads (tarjanInit n) (List.finRange n)).cycles

/-- Along any DFS derivation, every cycle mask in the output state was either
already present or passed the `cycle.sum() > 1` guard. -/
theorem trel_cycles_popcount (n : ℕ) (heads : Fin n → Fin n) (tag : TTag n)
    (st st' : TarjanState n) (h : TRel n heads tag st st') :
    ∀ c ∈ st'.cycles, c ∈ st.cycles ∨ 2 ≤ countTrue n c := by
  induction h with
  | emit st i st2 hvis hscan hlow ih =>
    intro c hc
    simp only [tjPop] at hc
    by_cases hguard : 1 < countTrue n (tjMask n st2 i)
    · rw [if_pos hguard] at hc
      rcases List.mem_append.mp hc with hc' | hc'
      · exact ih c hc'
      · right
        rcases List.mem_singleton.mp hc' with rfl
        omega
    · rw [if_neg hguard] at hc
      exact ih c hc
  | noemit st i st2 hvis hscan hlow ih => exact ih
  | nil st i => intro c hc; exact Or.inl hc
  | visit st i j rest stJ st' hj hrec hrest ih1 ih2 =>
    intro c hc
    rcases ih2 c hc with hmem | hcnt
    · simp only [tjMinLow] at hmem
      exact ih1 c hmem
    · exact Or.inr hcnt
  | back st i j rest st' hj hon hrest ih =>
    intro c hc
    rcases ih c hc with hmem | hcnt
    · exact Or.inl hmem
    · exact Or.inr hcnt
  | skip st i j rest st' hj hon hrest ih => exact ih

/-- Every mask in the `cycles` output of `tarjan` has at least two members
(only components passing the `cycle.sum() > 1` guard are appended). -/
theorem tarjan_popcount (n : ℕ) (heads : Fin n → Fin n) :
    ∀ c ∈ tarjan n heads, 2 ≤ countTrue n c := by
  have loop : ∀ (is : List (Fin n)) (st : TarjanState n),
      (∀ c ∈ st.cycles, 2 ≤ countTrue n c) →
      ∀ c ∈ (tarjanLoop n heads st is).cycles, 2 ≤ countTrue n c := by
    intro is
    induction is with
    | nil => intro st hst c hc; exact hst c hc
    | cons i rest ih =>
      intro st hst c hc
      rw [tarjanLoop] at hc
      by_cases h : st.indices i = -1
      · rw [dif_pos h] at hc
        refine ih _ ?_ c hc
        intro c' hc'
        rcases trel_cycles_popcount n heads _ _ _
          (strongConnect n heads n st i h (unvisitedCount_le_card n st)).property.2
          c' hc' with hm | hk
        · exact hst c' hm
        · exact hk
      · rw [dif_neg h] at hc
        exact ih _ hst c hc
  intro c hc
  exact loop (List.finRange n) (tarjanInit n) (by intro c' hc'; simp [tarjanInit] at hc') c hc

/-- Forward reachability in the functional graph: following `heads` pointers
from `u` arrives at `x`. -/
def Reaches (n : ℕ) (heads : Fin n → Fin n) (u x : Fin n) : Prop :=
  ∃ k, heads^[k] u = x

/-- Membership of some cycle of the functional graph `heads`. -/
def OnCycleF (n : ℕ) (heads : Fin n → Fin n) (u : Fin n) : Prop :=
  ∃ p, 1 ≤ p ∧ heads^[p] u = u

theorem reaches_refl (n : ℕ) (heads : Fin n → Fin n) (u : Fin n) :
    Reaches n heads u u := ⟨0, rfl⟩

theorem reaches_trans (n : ℕ) (heads : Fin n → Fin n) (u v w : Fin n)
    (h1 : Reaches n heads u v) (h2 : Reaches n heads v w) :
    Reaches n heads u w := by
  obtain ⟨a, ha⟩ := h1
  obtain ⟨b, hb⟩ := h2
  exact ⟨b + a, by rw [Function.iterate_add_apply, ha, hb]⟩

theorem reaches_head (n : ℕ) (heads : Fin n → Fin n) (j : Fin n) :
    Reaches n heads j (heads j) := ⟨1, rfl⟩

theorem reaches_step (n : ℕ) (heads : Fin n → Fin n) (u j i : Fin n)
    (h : Reaches n heads u j) (hj : heads j = i) : Reaches n heads u i :=
  reaches_trans n heads u j i h (hj ▸ reaches_head n heads j)

/-- A node whose head is `i` and that is reached back from `i` is on a cycle. -/
theorem cycle_of_reach_back (n : ℕ) (heads : Fin n → Fin n) (j i : Fin n)
    (hj : heads j = i) (hr : Reaches n heads i j) : OnCycleF n heads j := by
  obtain ⟨k, hk⟩ := hr
  refine ⟨k + 1, by omega, ?_⟩
  rw [Function.iterate_succ_apply, hj, hk]

/-- A dependent of `i` that is not on a cycle is not reached from `i`. -/
theorem dep_not_reached (n : ℕ) (heads : Fin n → Fin n) (j i : Fin n)
    (hj : heads j = i) (hnc : ¬ OnCycleF n heads j) : ¬ Reaches n heads i j :=
  fun hr => hnc (cycle_of_reach_back n heads j i hj hr)

/-- Two distinct dependents of the same node with a common ancestor force a
cycle through one of them (the chains are deterministic, so one dependent's
chain would have to pass through `i` and come back). -/
theorem reach_both_cycle (n : ℕ) (heads : Fin n → Fin n) (i j j' u : Fin n)
    (hj : heads j = i) (hj' : heads j' = i) (hne : j ≠ j')
    (hu : Reaches n heads u j) (hu' : Reaches n heads u j') :
    OnCycleF n heads j ∨ OnCycleF n heads j' := by
  obtain ⟨a, ha⟩ := hu
  obtain ⟨b, hb⟩ := hu'
  have hab : a ≠ b := by
    intro h
    exact hne (by rw [← ha, ← hb, h])
  -- common sub-argument: the later-met dependent is reached from `i`
  have key : ∀ (x y : Fin n) (c d : ℕ), heads x = i → heads y = i → c < d →
      heads^[c] u = x → heads^[d] u = y → OnCycleF n heads y := by
    intro x y c d hx hy hcd hc hd
    have hreach : Reaches n heads i y := by
      refine ⟨d - (c + 1), ?_⟩
      have : heads^[c + 1] u = i := by
        rw [Function.iterate_succ_apply', hc, hx]
      rw [← this, ← Function.iterate_add_apply]
      rw [show d - (c + 1) + (c + 1) = d by omega, hd]
    exact cycle_of_reach_back n heads y i hy hreach
  rcases Nat.lt_or_ge a b with hlt | hge
  · exact Or.inr (key j j' a b hj hj' hlt ha hb)
  · exact Or.inl (key j' j b a hj' hj (by omega) hb ha)

/-- Anything that reaches a fixed point of `heads` and lies on a cycle is the
fixed point itself. -/
theorem reaches_fixed_on_cycle (n : ℕ) (heads : Fin n → Fin n) (x0 j : Fin n)
    (h0 : heads x0 = x0) (hr : Reaches n heads j x0) (hc : OnCycleF n heads j) :
    j = x0 := by
  obtain ⟨k, hk⟩ := hr
  obtain ⟨p, hp1, hp⟩ := hc
  have hcyc : ∀ m, heads^[p * m] j = j := by
    intro m
    induction m with
    | zero => simp
    | succ m ih =>
      rw [Nat.mul_succ, Function.iterate_add_apply, hp, ih]
  have habs : heads^[p * k] j = x0 := by
    have hle : k ≤ p * k := Nat.le_mul_of_pos_left k (by omega)
    rw [show p * k = (p * k - k) + k by omega, Function.iterate_add_apply, hk,
      Function.iterate_fixed h0]
  rw [hcyc k] at habs
  exact habs

/-- A non-trivial step of reachability passes through a last hop: a dependent
of the target. -/
theorem reaches_via_dep (n : ℕ) (heads : Fin n → Fin n) (u i : Fin n)
    (hr : Reaches n heads u i) (hne : u ≠ i) :
    ∃ j, heads j = i ∧ j ≠ i ∧ Reaches n heads u j := by
  obtain ⟨k, hk⟩ := hr
  have hex : ∃ k, heads^[k] u = i := ⟨k, hk⟩
  have hk₀ : heads^[Nat.find hex] u = i := Nat.find_spec hex
  have hkpos : Nat.find hex ≠ 0 := by
    intro h
    rw [h] at hk₀
    exact hne hk₀
  refine ⟨heads^[Nat.find hex - 1] u, ?_, ?_, ⟨Nat.find hex - 1, rfl⟩⟩
  · have h2 : heads^[Nat.find hex - 1 + 1] u = i := by
      rw [show Nat.find hex - 1 + 1 = Nat.find hex by omega]
      exact hk₀
    rw [Function.iterate_succ_apply'] at h2
    exact h2
  · intro h
    exact Nat.find_min hex (show Nat.find hex - 1 < Nat.find hex by omega) h

/-- Precondition of a tree-exploring `strong_connect(x)` call: `x` is
unvisited, any visited part of its basin (the nodes that reach it) is closed
(off the stack, with its own basin fully visited), the basin contains no
graph cycle off `x`, and unvisited nodes are off the stack. -/
structure SCPre (n : ℕ) (heads : Fin n → Fin n) (st : TarjanState n) (x : Fin n) : Prop where
  unvis : st.indices x = -1
  closed_vis : ∀ u, Reaches n heads u x → st.indices u ≠ -1 →
    st.onstack u = false ∧ ∀ w, Reaches n heads w u → st.indices w ≠ -1
  basin_acyclic : ∀ j, Reaches n heads j x → j ≠ x → ¬ OnCycleF n heads j
  global_off : ∀ j, st.indices j = -1 → st.onstack j = false

/-- Postcondition: the call returns with stack, on-stack flags and emitted
cycles untouched, marks exactly (part of) the basin visited, and leaves `x`
with `index = lowlink = ` the entry counter. -/
structure SCPost (n : ℕ) (heads : Fin n → Fin n) (st : TarjanState n) (x : Fin n)
    (st' : TarjanState n) : Prop where
  stack_eq : st'.stack = st.stack
  onstack_eq : ∀ j, st'.onstack j = st.onstack j
  cycles_eq : st'.cycles = st.cycles
  frame : ∀ j, ¬ Reaches n heads j x →
    st'.indices j = st.indices j ∧ st'.lowlinks j = st.lowlinks j
  growth : ∀ j, st'.indices j ≠ -1 → st.indices j ≠ -1 ∨ Reaches n heads j x
  at_x : st'.indices x = (st.counter : ℤ) ∧ st'.lowlinks x = (st.counter : ℤ)
  counter_lt : st.counter < st'.counter
  mono : ∀ j, st.indices j ≠ -1 → st'.indices j ≠ -1
  full : ∀ u, Reaches n heads u x → st'.indices u ≠ -1

/-- Precondition of the dependents loop of a tree-exploring call. -/
structure ScanPre (n : ℕ) (heads : Fin n → Fin n) (st : TarjanState n) (i : Fin n)
    (deps : List (Fin n)) : Prop where
  nodup : deps.Nodup
  dep_head : ∀ j ∈ deps, heads j = i
  closed_vis : ∀ j ∈ deps, j ≠ i → ∀ u, Reaches n heads u j → st.indices u ≠ -1 →
    st.onstack u = false ∧ ∀ w, Reaches n heads w u → st.indices w ≠ -1
  basin_acyclic : ∀ j ∈ deps, j ≠ i → ∀ u, Reaches n heads u j → ¬ OnCycleF n heads u
  global_off : ∀ j, st.indices j = -1 → st.onstack j = false
  low_eq : st.lowlinks i = st.indices i
  idx_lt : st.indices i < (st.counter : ℤ)
  on_i : st.onstack i = true
  vis_i : st.indices i ≠ -1

/-- Postcondition of the dependents loop of a tree-exploring call. -/
structure ScanPost (n : ℕ) (heads : Fin n → Fin n) (st : TarjanState n) (i : Fin n)
    (deps : List (Fin n)) (st' : TarjanState n) : Prop where
  stack_eq : st'.stack = st.stack
  onstack_eq : ∀ j, st'.onstack j = st.onstack j
  cycles_eq : st'.cycles = st.cycles
  frame : ∀ u, (∀ j ∈ deps, j = i ∨ ¬ Reaches n heads u j) →
    st'.indices u = st.indices u ∧ st'.lowlinks u = st.lowlinks u
  growth : ∀ u, st'.indices u ≠ -1 →
    st.indices u ≠ -1 ∨ ∃ j ∈ deps, j ≠ i ∧ Reaches n heads u j
  counter_le : st.counter ≤ st'.counter
  mono : ∀ j, st.indices j ≠ -1 → st'.indices j ≠ -1
  full : ∀ j ∈ deps, j ≠ i → ∀ u, Reaches n heads u j → st'.indices u ≠ -1

theorem tjDeps_head (n : ℕ) (heads : Fin n → Fin n) (i j : Fin n)
    (h : j ∈ tjDeps n heads i) : heads j = i := by
  have := (List.mem_filter.mp h).2
  simpa using this

theorem tjDeps_nodup (n : ℕ) (heads : Fin n → Fin n) (i : Fin n) :
    (tjDeps n heads i).Nodup :=
  (List.nodup_finRange n).filter _

/-- In a duplicate-free list, filtering for one of its members leaves exactly
that member. -/
theorem filter_eq_singleton {α : Type} [DecidableEq α] :
    ∀ (l : List α) (i : α), l.Nodup → i ∈ l →
      l.filter (fun u => decide (u = i)) = [i] := by
  intro l
  induction l with
  | nil => intro i _ hm; cases hm
  | cons a t ih =>
    intro i hnd hm
    by_cases hai : a = i
    · subst hai
      have hnil : t.filter (fun u => decide (u = a)) = [] := by
        rw [List.filter_eq_nil_iff]
        intro u hu
        simp only [decide_eq_true_eq]
        intro he
        exact (List.nodup_cons.mp hnd).1 (he ▸ hu)
      simp [List.filter_cons, hnil]
    · have hm' : i ∈ t := by
        rcases List.mem_cons.mp hm with h | h
        · exact absurd h.symm hai
        · exact h
      have hd : (decide (a = i)) = false := by simp [hai]
      rw [List.filter_cons, hd]
      simp only [Bool.false_eq_true, if_false]
      exact ih i (List.nodup_cons.mp hnd).2 hm'

/-- Entering `strong_connect(x)` under the tree precondition, the dependents
loop starts under the loop precondition. -/
theorem scanpre_push (n : ℕ) (heads : Fin n → Fin n) (st : TarjanState n) (i : Fin n)
    (pre : SCPre n heads st i) : ScanPre n heads (tjPush n st i) i (tjDeps n heads i) := by
  refine
    { nodup := tjDeps_nodup n heads i
      dep_head := fun j hj => tjDeps_head n heads i j hj
      closed_vis := ?_
      basin_acyclic := ?_
      global_off := ?_
      low_eq := ?_
      idx_lt := ?_
      on_i := ?_
      vis_i := ?_ }
  · intro j hj hne u hur hvis1
    have hji : Reaches n heads j i :=
      reaches_step n heads j j i (reaches_refl n heads j) (tjDeps_head n heads i j hj)
    have hnir : ¬ Reaches n heads i j :=
      dep_not_reached n heads j i (tjDeps_head n heads i j hj)
        (pre.basin_acyclic j hji hne)
    have hui : u ≠ i := fun h => hnir (h ▸ hur)
    have huri : Reaches n heads u i :=
      reaches_step n heads u j i hur (tjDeps_head n heads i j hj)
    have hvis : st.indices u ≠ -1 := by
      have h1 : Function.update st.indices i ((st.counter : ℤ)) u ≠ -1 := hvis1
      rwa [Function.update_noteq hui] at h1
    obtain ⟨hoff, hcl⟩ := pre.closed_vis u huri hvis
    constructor
    · show Function.update st.onstack i true u = false
      rw [Function.update_noteq hui]
      exact hoff
    · intro w hw
      show Function.update st.indices i ((st.counter : ℤ)) w ≠ -1
      by_cases hwi : w = i
      · subst hwi
        rw [Function.update_same]
        intro hc
        omega
      · rw [Function.update_noteq hwi]
        exact hcl w hw
  · intro j hj hne u hur
    have hji : Reaches n heads j i :=
      reaches_step n heads j j i (reaches_refl n heads j) (tjDeps_head n heads i j hj)
    have hnir : ¬ Reaches n heads i j :=
      dep_not_reached n heads j i (tjDeps_head n heads i j hj)
        (pre.basin_acyclic j hji hne)
    have hui : u ≠ i := fun h => hnir (h ▸ hur)
    have huri : Reaches n heads u i :=
      reaches_step n heads u j i hur (tjDeps_head n heads i j hj)
    exact pre.basin_acyclic u huri hui
  · intro u hu
    have hui : u ≠ i := by
      intro h
      subst h
      have h1 : Function.update st.indices u ((st.counter : ℤ)) u = -1 := hu
      rw [Function.update_same] at h1
      omega
    have hust : st.indices u = -1 := by
      have h1 : Function.update st.indices i ((st.counter : ℤ)) u = -1 := hu
      rwa [Function.update_noteq hui] at h1
    show Function.update st.onstack i true u = false
    rw [Function.update_noteq hui]
    exact pre.global_off u hust
  · show Function.update st.lowlinks i ((st.counter : ℤ)) i =
      Function.update st.indices i ((st.counter : ℤ)) i
    rw [Function.update_same, Function.update_same]
  · show Function.update st.indices i ((st.counter : ℤ)) i < ((st.counter + 1 : ℕ) : ℤ)
    rw [Function.update_same]
    push_cast
    omega
  · exact Function.update_same i true st.onstack
  · show Function.update st.indices i ((st.counter : ℤ)) i ≠ -1
    rw [Function.update_same]
    intro hc
    omega

/-- After the dependents loop of a tree-exploring call, `i` still carries the
entry counter as both index and lowlink (nothing in the loop lowered it). -/
theorem scanpost_at_i (n : ℕ) (heads : Fin n → Fin n) (st : TarjanState n) (i : Fin n)
    (st2 : TarjanState n) (pre : SCPre n heads st i)
    (post : ScanPost n heads (tjPush n st i) i (tjDeps n heads i) st2) :
    st2.indices i = (st.counter : ℤ) ∧ st2.lowlinks i = (st.counter : ℤ) := by
  have hcond : ∀ v ∈ tjDeps n heads i, v = i ∨ ¬ Reaches n heads i v := by
    intro v hv
    by_cases hvi : v = i
    · exact Or.inl hvi
    · right
      have hvr : Reaches n heads v i :=
        reaches_step n heads v v i (reaches_refl n heads v) (tjDeps_head n heads i v hv)
      exact dep_not_reached n heads v i (tjDeps_head n heads i v hv)
        (pre.basin_acyclic v hvr hvi)
  have h := post.frame i hcond
  constructor
  · rw [h.1]
    exact Function.update_same i ((st.counter : ℤ)) st.indices
  · rw [h.2]
    exact Function.update_same i ((st.counter : ℤ)) st.lowlinks

/-- Case split of the tree lemma by call tag. -/
def TreeMotive (n : ℕ) (heads : Fin n → Fin n) :
    TTag n → TarjanState n → TarjanState n → Prop
  | .sc i, st, st' => SCPre n heads st i → SCPost n heads st i st'
  | .scan i deps, st, st' => ScanPre n heads st i deps → ScanPost n heads st i deps st'

/-- Tree-exploration lemma: a `strong_connect` call whose basin is unvisited
and cycle-free explores a pure DFS tree - every descendant is popped as a
singleton component, so the call restores the stack and emits nothing. -/
theorem trel_tree (n : ℕ) (heads : Fin n → Fin n) (tag : TTag n)
    (st st' : TarjanState n) (h : TRel n heads tag st st') :
    TreeMotive n heads tag st st' := by
  induction h with
  | emit st i st2 hvis hscan hlow ih =>
    intro pre
    have post : ScanPost n heads (tjPush n st i) i (tjDeps n heads i) st2 :=
      ih (scanpre_push n heads st i pre)
    have hif : st2.indices i = (st.counter : ℤ) ∧ st2.lowlinks i = (st.counter : ℤ) :=
      scanpost_at_i n heads st i st2 pre post
    have hstack2 : st2.stack = i :: st.stack := by
      rw [post.stack_eq]; rfl
    have hpopped : tjPopped n st2 i = [] := by
      unfold tjPopped
      rw [hstack2]
      simp [List.takeWhile_cons]
    have hmask : ∀ u, tjMask n st2 i u = decide (u = i) := by
      intro u
      unfold tjMask
      rw [hpopped]
      simp
    have hct : countTrue n (tjMask n st2 i) = 1 := by
      unfold countTrue
      rw [List.filter_congr (fun u _ => hmask u)]
      rw [filter_eq_singleton (List.finRange n) i (List.nodup_finRange n)
        (List.mem_finRange i)]
      rfl
    have hcyc2 : (tjPop n st2 i).cycles = st2.cycles := by
      show (if 1 < countTrue n (tjMask n st2 i) then _ else st2.cycles) = st2.cycles
      rw [hct]
      simp
    refine
      { stack_eq := ?_
        onstack_eq := ?_
        cycles_eq := by rw [hcyc2, post.cycles_eq]; rfl
        frame := ?_
        growth := ?_
        at_x := hif
        counter_lt := by
          have := post.counter_le
          show st.counter < st2.counter
          have h1 : (tjPush n st i).counter = st.counter + 1 := rfl
          omega
        mono := ?_
        full := ?_ }
    · show (st2.stack.dropWhile (fun j => decide (j ≠ i))).tail = st.stack
      rw [hstack2]
      simp [List.dropWhile_cons]
    · intro u
      show (if tjMask n st2 i u then false else st2.onstack u) = st.onstack u
      rw [hmask u]
      by_cases hui : u = i
      · subst hui
        simp [pre.global_off u pre.unvis]
      · have hd : (decide (u = i)) = false := by simp [hui]
        rw [hd]
        simp only [Bool.false_eq_true, if_false]
        rw [post.onstack_eq u]
        show Function.update st.onstack i true u = st.onstack u
        rw [Function.update_noteq hui]
    · intro u hu
      have hui : u ≠ i := fun h => hu (h ▸ reaches_refl n heads u)
      have hcond : ∀ v ∈ tjDeps n heads i, v = i ∨ ¬ Reaches n heads u v := by
        intro v hv
        right
        intro hr
        exact hu (reaches_step n heads u v i hr (tjDeps_head n heads i v hv))
      have h2 := post.frame u hcond
      constructor
      · show st2.indices u = st.indices u
        rw [h2.1]
        show Function.update st.indices i ((st.counter : ℤ)) u = st.indices u
        rw [Function.update_noteq hui]
      · show st2.lowlinks u = st.lowlinks u
        rw [h2.2]
        show Function.update st.lowlinks i ((st.counter : ℤ)) u = st.lowlinks u
        rw [Function.update_noteq hui]
    · intro u hu
      have hu2 : st2.indices u ≠ -1 := hu
      rcases post.growth u hu2 with h1 | ⟨v, hv, hvne, hvr⟩
      · by_cases hui : u = i
        · exact Or.inr (hui ▸ reaches_refl n heads i)
        · left
          have h3 : Function.update st.indices i ((st.counter : ℤ)) u ≠ -1 := h1
          rwa [Function.update_noteq hui] at h3
      · exact Or.inr (reaches_step n heads u v i hvr (tjDeps_head n heads i v hv))
    · intro u hu
      have h1 : (tjPush n st i).indices u ≠ -1 := by
        by_cases hui : u = i
        · subst hui
          show Function.update st.indices u ((st.counter : ℤ)) u ≠ -1
          rw [Function.update_same]
          intro hc
          omega
        · show Function.update st.indices i ((st.counter : ℤ)) u ≠ -1
          rw [Function.update_noteq hui]
          exact hu
      exact post.mono u h1
    · intro u hur
      show st2.indices u ≠ -1
      by_cases hui : u = i
      · subst hui
        rw [hif.1]
        intro hc
        omega
      · obtain ⟨jd, hjdh, hjdne, hjdr⟩ := reaches_via_dep n heads u i hur hui
        have hjdmem : jd ∈ tjDeps n heads i := by
          unfold tjDeps
          exact List.mem_filter.mpr ⟨List.mem_finRange jd, by simp [hjdh]⟩
        exact post.full jd hjdmem hjdne u hjdr
  | noemit st i st2 hvis hscan hlow ih =>
    intro pre
    have post : ScanPost n heads (tjPush n st i) i (tjDeps n heads i) st2 :=
      ih (scanpre_push n heads st i pre)
    have hif : st2.indices i = (st.counter : ℤ) ∧ st2.lowlinks i = (st.counter : ℤ) :=
      scanpost_at_i n heads st i st2 pre post
    exact absurd (by rw [hif.1, hif.2]) hlow
  | nil st i =>
    intro pre
    exact ⟨rfl, fun _ => rfl, rfl, fun _ _ => ⟨rfl, rfl⟩,
      fun u hu => Or.inl hu, le_rfl, fun _ hj => hj,
      fun v hv => absurd hv (List.not_mem_nil v)⟩
  | visit st i j rest stJ st' hj hrec hrest ih1 ih2 =>
    intro pre
    have hmem : j ∈ j :: rest := List.mem_cons_self j rest
    have hne : j ≠ i := fun h => pre.vis_i (h ▸ hj)
    have hhead : heads j = i := pre.dep_head j hmem
    have hncj : ¬ OnCycleF n heads j :=
      pre.basin_acyclic j hmem hne j (reaches_refl n heads j)
    have post1 : SCPost n heads st j stJ := ih1
      { unvis := hj
        closed_vis := fun u hr hvis => pre.closed_vis j hmem hne u hr hvis
        basin_acyclic := fun u hr _ => pre.basin_acyclic j hmem hne u hr
        global_off := pre.global_off }
    have hnotri : ¬ Reaches n heads i j := dep_not_reached n heads j i hhead hncj
    have hframe_i := post1.frame i hnotri
    have hmin : min (stJ.lowlinks i) (stJ.lowlinks j) = stJ.lowlinks i := by
      rw [hframe_i.2, post1.at_x.2, pre.low_eq]
      exact min_eq_left (le_of_lt pre.idx_lt)
    have hst2 : tjMinLow n stJ i (stJ.lowlinks j) = stJ := by
      unfold tjMinLow
      rw [hmin, Function.update_eq_self]
    rw [hst2] at ih2
    have pre2 : ScanPre n heads stJ i rest :=
      { nodup := (List.nodup_cons.mp pre.nodup).2
        dep_head := fun u hu => pre.dep_head u (List.mem_cons_of_mem j hu)
        closed_vis := by
          intro v hv hvne u hur hvisJ
          rcases post1.growth u hvisJ with hold | hreach
          · obtain ⟨hoff, hcl⟩ := pre.closed_vis v (List.mem_cons_of_mem j hv) hvne u hur hold
            exact ⟨by rw [post1.onstack_eq u]; exact hoff,
              fun w hw => post1.mono w (hcl w hw)⟩
          · constructor
            · rw [post1.onstack_eq u]
              by_cases hold2 : st.indices u = -1
              · exact pre.global_off u hold2
              · exact (pre.closed_vis v (List.mem_cons_of_mem j hv) hvne u hur hold2).1
            · intro w hw
              exact post1.full w (reaches_trans n heads w u j hw hreach)
        basin_acyclic := fun u hu hvne v hv =>
          pre.basin_acyclic u (List.mem_cons_of_mem j hu) hvne v hv
        global_off := by
          intro u hu
          have hust : st.indices u = -1 := by
            by_contra hc
            exact (post1.mono u hc) hu
          rw [post1.onstack_eq u]
          exact pre.global_off u hust
        low_eq := by rw [hframe_i.1, hframe_i.2, pre.low_eq]
        idx_lt := by
          rw [hframe_i.1]
          have h1 := pre.idx_lt
          have h2 := post1.counter_lt
          have : (st.counter : ℤ) < (stJ.counter : ℤ) := by exact_mod_cast h2
          omega
        on_i := by rw [post1.onstack_eq i]; exact pre.on_i
        vis_i := by rw [hframe_i.1]; exact pre.vis_i }
    have post2 := ih2 pre2
    exact
      { stack_eq := by rw [post2.stack_eq, post1.stack_eq]
        onstack_eq := fun u => by rw [post2.onstack_eq u, post1.onstack_eq u]
        cycles_eq := by rw [post2.cycles_eq, post1.cycles_eq]
        frame := by
          intro u hu
          have huj : ¬ Reaches n heads u j := by
            rcases hu j hmem with h | h
            · exact absurd h hne
            · exact h
          have h1 := post1.frame u huj
          have h2 := post2.frame u (fun v hv => hu v (List.mem_cons_of_mem j hv))
          exact ⟨by rw [h2.1, h1.1], by rw [h2.2, h1.2]⟩
        growth := by
          intro u hu
          rcases post2.growth u hu with hJ | ⟨v, hv, hvne, hvr⟩
          · rcases post1.growth u hJ with hold | hreach
            · exact Or.inl hold
            · exact Or.inr ⟨j, hmem, hne, hreach⟩
          · exact Or.inr ⟨v, List.mem_cons_of_mem j hv, hvne, hvr⟩
        counter_le := le_trans (le_of_lt post1.counter_lt) post2.counter_le
        mono := fun u hu => post2.mono u (post1.mono u hu)
        full := by
          intro v hv hvne u hur
          rcases List.mem_cons.mp hv with rfl | hmem2
          · exact post2.mono u (post1.full u hur)
          · exact post2.full v hmem2 hvne u hur }
  | back st i j rest st' hj hon hrest ih =>
    intro pre
    have hmem : j ∈ j :: rest := List.mem_cons_self j rest
    have hji : j = i := by
      by_contra hne
      have hvisj : st.indices j ≠ -1 := hj
      have hoff := (pre.closed_vis j hmem hne j (reaches_refl n heads j) hvisj).1
      rw [hoff] at hon
      exact Bool.false_ne_true hon
    subst hji
    have hmin : min (st.lowlinks j) (st.indices j) = st.lowlinks j := by
      rw [pre.low_eq]
      exact min_self _
    have hst2 : tjMinLow n st j (st.indices j) = st := by
      unfold tjMinLow
      rw [hmin, Function.update_eq_self]
    rw [hst2] at ih
    have pre2 : ScanPre n heads st j rest :=
      { nodup := (List.nodup_cons.mp pre.nodup).2
        dep_head := fun u hu => pre.dep_head u (List.mem_cons_of_mem j hu)
        closed_vis := fun u hu hne v hv hvis =>
          pre.closed_vis u (List.mem_cons_of_mem j hu) hne v hv hvis
        basin_acyclic := fun u hu hne v hv =>
          pre.basin_acyclic u (List.mem_cons_of_mem j hu) hne v hv
        global_off := pre.global_off
        low_eq := pre.low_eq
        idx_lt := pre.idx_lt
        on_i := pre.on_i
        vis_i := pre.vis_i }
    have post := ih pre2
    exact
      { stack_eq := post.stack_eq
        onstack_eq := post.onstack_eq
        cycles_eq := post.cycles_eq
        frame := fun u hu => post.frame u (fun v hv => hu v (List.mem_cons_of_mem j hv))
        growth := fun u hu => by
          rcases post.growth u hu with h | ⟨v, hv, hvne, hvr⟩
          · exact Or.inl h
          · exact Or.inr ⟨v, List.mem_cons_of_mem j hv, hvne, hvr⟩
        counter_le := post.counter_le
        mono := post.mono
        full := fun v hv hvne u hur => by
          rcases List.mem_cons.mp hv with rfl | hmem
          · exact absurd rfl hvne
          · exact post.full v hmem hvne u hur }
  | skip st i j rest st' hj hon hrest ih =>
    intro pre
    have hji : j = i ∨ j ≠ i := em _
    rcases hji with rfl | hne
    · exact absurd pre.on_i (by simpa using hon)
    · have hvisj : st.indices j ≠ -1 := hj
      obtain ⟨hoffj, hclj⟩ := pre.closed_vis j (List.mem_cons_self j rest) hne j
        (reaches_refl n heads j) hvisj
      have pre2 : ScanPre n heads st i rest :=
        { nodup := (List.nodup_cons.mp pre.nodup).2
          dep_head := fun u hu => pre.dep_head u (List.mem_cons_of_mem j hu)
          closed_vis := fun u hu hne' v hv hvis =>
            pre.closed_vis u (List.mem_cons_of_mem j hu) hne' v hv hvis
          basin_acyclic := fun u hu hne' v hv =>
            pre.basin_acyclic u (List.mem_cons_of_mem j hu) hne' v hv
          global_off := pre.global_off
          low_eq := pre.low_eq
          idx_lt := pre.idx_lt
          on_i := pre.on_i
          vis_i := pre.vis_i }
      have post := ih pre2
      exact
        { stack_eq := post.stack_eq
          onstack_eq := post.onstack_eq
          cycles_eq := post.cycles_eq
          frame := fun u hu => post.frame u (fun v hv => hu v (List.mem_cons_of_mem j hv))
          growth := fun u hu => by
            rcases post.growth u hu with h | ⟨v, hv, hvne, hvr⟩
            · exact Or.inl h
            · exact Or.inr ⟨v, List.mem_cons_of_mem j hv, hvne, hvr⟩
          counter_le := post.counter_le
          mono := post.mono
          full := fun v hv hvne u hur => by
            rcases List.mem_cons.mp hv with rfl | hmem
            · exact post.mono u (hclj u hur)
            · exact post.full v hmem hvne u hur }

/-- Once `z` is visited and off the stack, no later DFS step puts it back on
the stack, and every newly emitted component mask excludes `z`. -/
theorem trel_avoid (n : ℕ) (heads : Fin n → Fin n) (z : Fin n) (tag : TTag n)
    (st st' : TarjanState n) (h : TRel n heads tag st st') :
    st.indices z ≠ -1 → z ∉ st.stack →
    st'.indices z ≠ -1 ∧ z ∉ st'.stack ∧
      ∀ c ∈ st'.cycles, c ∈ st.cycles ∨ c z = false := by
  induction h with
  | emit st i st2 hvis hscan hlow ih =>
    intro hvz hsz
    have hzi : z ≠ i := fun h => hvz (h ▸ hvis)
    have h1v : (tjPush n st i).indices z ≠ -1 := by
      show Function.update st.indices i ((st.counter : ℤ)) z ≠ -1
      rw [Function.update_noteq hzi]
      exact hvz
    have h1s : z ∉ (tjPush n st i).stack := by
      show z ∉ i :: st.stack
      intro hm
      rcases List.mem_cons.mp hm with h | h
      · exact hzi h
      · exact hsz h
    obtain ⟨h2v, h2s, h2c⟩ := ih h1v h1s
    refine ⟨h2v, ?_, ?_⟩
    · show z ∉ (st2.stack.dropWhile (fun j => decide (j ≠ i))).tail
      intro hm
      exact h2s ((List.dropWhile_sublist _).mem (List.mem_of_mem_tail hm))
    · intro c hc
      have hrw : (tjPop n st2 i).cycles =
          if 1 < countTrue n (tjMask n st2 i) then st2.cycles ++ [tjMask n st2 i]
          else st2.cycles := rfl
      by_cases hg : 1 < countTrue n (tjMask n st2 i)
      · rw [hrw, if_pos hg] at hc
        rcases List.mem_append.mp hc with h | h
        · exact h2c c h
        · right
          rcases List.mem_singleton.mp h with rfl
          show (decide (z = i) || decide (z ∈ tjPopped n st2 i)) = false
          have hz2 : z ∉ tjPopped n st2 i :=
            fun hmem => h2s ((List.takeWhile_sublist _).mem hmem)
          simp [hzi, hz2]
      · rw [hrw, if_neg hg] at hc
        exact h2c c hc
  | noemit st i st2 hvis hscan hlow ih =>
    intro hvz hsz
    have hzi : z ≠ i := fun h => hvz (h ▸ hvis)
    have h1v : (tjPush n st i).indices z ≠ -1 := by
      show Function.update st.indices i ((st.counter : ℤ)) z ≠ -1
      rw [Function.update_noteq hzi]
      exact hvz
    have h1s : z ∉ (tjPush n st i).stack := by
      show z ∉ i :: st.stack
      intro hm
      rcases List.mem_cons.mp hm with h | h
      · exact hzi h
      · exact hsz h
    exact ih h1v h1s
  | nil st i =>
    intro hvz hsz
    exact ⟨hvz, hsz, fun c hc => Or.inl hc⟩
  | visit st i j rest stJ st' hj hrec hrest ih1 ih2 =>
    intro hvz hsz
    obtain ⟨h1v, h1s, h1c⟩ := ih1 hvz hsz
    obtain ⟨h3v, h3s, h3c⟩ := ih2 h1v h1s
    refine ⟨h3v, h3s, fun c hc => ?_⟩
    rcases h3c c hc with h | h
    · exact h1c c h
    · exact Or.inr h
  | back st i j rest st' hj hon hrest ih =>
    intro hvz hsz
    exact ih hvz hsz
  | skip st i j rest st' hj hon hrest ih =>
    intro hvz hsz
    exact ih hvz hsz

/-- The avoidance invariant carried through the top-level loop of `tarjan`. -/
theorem tarjanLoop_avoid (n : ℕ) (heads : Fin n → Fin n) (z : Fin n) :
    ∀ (is : List (Fin n)) (st : TarjanState n),
      st.indices z ≠ -1 → z ∉ st.stack → (∀ c ∈ st.cycles, c z = false) →
      ∀ c ∈ (tarjanLoop n heads st is).cycles, c z = false := by
  intro is
  induction is with
  | nil => intro st h1 h2 h3 c hc; exact h3 c hc
  | cons i rest ih =>
    intro st h1 h2 h3 c hc
    rw [tarjanLoop] at hc
    by_cases h : st.indices i = -1
    · rw [dif_pos h] at hc
      obtain ⟨h1', h2', h3'⟩ := trel_avoid n heads z _ _ _
        (strongConnect n heads n st i h (unvisitedCount_le_card n st)).property.2 h1 h2
      refine ih _ h1' h2' ?_ c hc
      intro c' hc'
      rcases h3' c' hc' with hm | hf
      · exact h3 c' hm
      · exact hf
    · rw [dif_neg h] at hc
      exact ih st h1 h2 h3 c hc

/-- When token 0 is its own greedy head, it never appears in any cycle mask
emitted by `tarjan`: the first DFS starts at 0, explores a pure tree (its
basin is cycle-free), and pops 0 as a singleton; afterwards 0 is never pushed
again. -/
theorem tarjan_zero_free (N : ℕ) (heads : Fin (N + 1) → Fin (N + 1))
    (h0 : heads 0 = 0) : ∀ c ∈ tarjan (N + 1) heads, c 0 = false := by
  have hpre : SCPre (N + 1) heads (tarjanInit (N + 1)) 0 :=
    { unvis := rfl
      closed_vis := fun u _ hvis => absurd rfl hvis
      basin_acyclic := fun j hr hne hc =>
        hne (reaches_fixed_on_cycle (N + 1) heads 0 j h0 hr hc)
      global_off := fun _ _ => rfl }
  unfold tarjan
  rw [List.finRange_succ, tarjanLoop]
  have hinit : (tarjanInit (N + 1)).indices 0 = -1 := rfl
  rw [dif_pos hinit]
  have hpost : SCPost (N + 1) heads (tarjanInit (N + 1)) 0
      (strongConnect (N + 1) heads (N + 1) (tarjanInit (N + 1)) 0 hinit
        (unvisitedCount_le_card _ _)).val :=
    trel_tree (N + 1) heads (.sc 0) _ _
      (strongConnect (N + 1) heads (N + 1) (tarjanInit (N + 1)) 0 hinit
        (unvisitedCount_le_card _ _)).property.2 hpre
  apply tarjanLoop_avoid (N + 1) heads 0 _ _
  · rw [hpost.at_x.1]
    intro hc
    simp at hc
  · rw [hpost.stack_eq]
    exact List.not_mem_nil 0
  · intro c hc
    rw [hpost.cycles_eq] at hc
    exact absurd hc (List.not_mem_nil c)

/-- Splitting a list by a boolean predicate preserves total length. -/
theorem length_filter_add_length_filter_not {α : Type} (l : List α) (p : α → Bool) :
    (l.filter p).length + (l.filter (fun a => ¬ p a)).length = l.length := by
  induction l with
  | nil => rfl
  | cons a l ih =>
    by_cases h : p a
    · simp [List.filter_cons, h, ← ih]; omega
    · simp [List.filter_cons, h, ← ih]; omega

/-- `countTrue` of a mask is the length of its location list (`np.where`). -/
theorem countTrue_eq_length_filter (n : ℕ) (c : Fin n → Bool) :
    countTrue n c = ((List.finRange n).filter (fun j => c j)).length := rfl

/-- The contracted problem is strictly smaller: with `k ≥ 2` cycle members
out of `n`, the contraction has `n - k + 1 < n` nodes. -/
theorem contraction_shrinks (n : ℕ) (c : Fin n → Bool) (h2 : 2 ≤ countTrue n c) :
    ((List.finRange n).filter (fun j => ¬ c j)).length + 1 < n := by
  have hsplit := length_filter_add_length_filter_not (List.finRange n) (fun j => c j)
  have hlen : (List.finRange n).length = n := List.length_finRange n
  rw [countTrue_eq_length_filter] at h2
  omega

/-- Body of `chu_liu_edmonds`, structurally recursive on a fuel bounding the
matrix size (each contraction strictly shrinks the matrix, so `fuel = n`
suffices; fuel zero with a nonempty matrix is unreachable). -/
def cleAux : (fuel : ℕ) → (n : ℕ) → n ≤ fuel → (Fin n → Fin n → S) → (Fin n → Fin n)
  | _, 0, _, _ => fun m => m
  | 0, N + 1, hle, _ => absurd hle (Nat.not_succ_le_zero N)
  | fuel + 1, N + 1, hle, M =>
    -- lines 599-604: prepare the matrix in place
    let P := clePrep (N + 1) M
    -- line 607: heads = score_matrix.argmax(1)
    let heads : Fin (N + 1) → Fin (N + 1) :=
      fun m => npArgmax (N + 1) (P m) (Nat.succ_pos N)
    -- line 608: cycles = tarjan(heads)
    let cycles := tarjan (N + 1) heads
    -- lines 610/613: if cycles: cycle = cycles.pop() (the last one)
    match hcy : cycles.getLast? with
    | none => heads
    | some cycle =>
      let d0 : Fin (N + 1) := ⟨0, Nat.succ_pos N⟩
      -- line 615: cycle_locs = np.where(cycle)[0] (increasing order)
      let cycle_locs := (List.finRange (N + 1)).filter (fun j => cycle j)
      -- lines 617-621: cycle_scores = score_matrix[cycle, heads[cycle]];
      -- cycle_score = cycle_scores.sum()
      let cycle_score := (cycle_locs.map (fun c => P c (heads c))).sum
      -- lines 624-626: noncycle_locs = np.where(~cycle)[0]
      let noncycle_locs := (List.finRange (N + 1)).filter (fun j => ¬ cycle j)
      let nn := noncycle_locs.length
      let cyc : ℕ → Fin (N + 1) := fun k => cycle_locs.getD k d0
      let ncl : ℕ → Fin (N + 1) := fun k => noncycle_locs.getD k d0
      -- lines 629-630: metanode_head_scores[ci, mi] =
      --   score_matrix[cycle][:, noncycle] - cycle_scores[:, None] + cycle_score
      let metanode_head_scores : ℕ → ℕ → S :=
        fun ci mi =>
          ssub (P (cyc ci) (ncl mi)) (P (cyc ci) (heads (cyc ci))) + cycle_score
      -- line 634: metanode_heads = np.argmax(metanode_head_scores, axis=0)
      let metanode_heads : ℕ → ℕ :=
        fun mi => argmaxIdx
          ((List.range cycle_locs.length).map (fun ci => metanode_head_scores ci mi))
      -- lines 632/636: metanode_deps = np.argmax(score_matrix[noncycle][:, cycle], axis=1)
      let metanode_deps : ℕ → ℕ :=
        fun mi => argmaxIdx (cycle_locs.map (fun c => P (ncl mi) c))
      -- lines 639-649: the padded contracted matrix
      let subscores : Fin (nn + 1) → Fin (nn + 1) → S :=
        fun i j =>
          if i.val < nn then
            if j.val < nn then P (ncl i.val) (ncl j.val)
            else P (ncl i.val) (cyc (metanode_deps i.val))
          else
            if j.val < nn then metanode_head_scores (metanode_heads j.val) j.val
            else ((0 : ℤ) : S)
      -- line 652: recursive solve of the contracted problem
      let contracted_tree := cleAux fuel (nn + 1)
        (by
          have h2 : 2 ≤ countTrue (N + 1) cycle :=
            tarjan_popcount (N + 1) heads cycle (List.mem_of_mem_getLast? hcy)
          have := contraction_shrinks (N + 1) cycle h2
          have hnn : noncycle_locs.length =
            ((List.finRange (N + 1)).filter (fun j => ¬ cycle j)).length := rfl
          omega)
        subscores
      -- line 654: cycle_head = contracted_tree[-1]
      let cycle_head := contracted_tree ⟨nn, Nat.lt_succ_self nn⟩
      -- line 676: cycle_root = metanode_heads[cycle_head]
      let cycle_root := metanode_heads cycle_head.val
      -- lines 658-681: assemble new_heads
      fun t =>
        if hct : cycle t then
          -- line 674 gives cycle members their greedy heads; line 679
          -- overwrites the cycle root with the chosen external head
          if t = cyc cycle_root then ncl cycle_head.val else heads t
        else
          have htm : t ∈ noncycle_locs :=
            List.mem_filter.mpr ⟨List.mem_finRange t, by simp [hct]⟩
          let k := noncycle_locs.indexOf t
          let ct := contracted_tree ⟨k, Nat.lt_succ_of_lt (List.indexOf_lt_length.mpr htm)⟩
          -- lines 661-672: head inside the contracted tree vs from the cycle
          if ct.val < nn then ncl ct.val else cyc (metanode_deps k)

/-- `chu_liu_edmonds(score_matrix)` (decoding.py lines 590-683): maximum
spanning arborescence by greedy argmax selection, Tarjan cycle detection, and
recursive cycle contraction.  The input cell `[m, h]` holds the score of the
arc from head `h` to modifier `m`; the result maps each token to its head
(`heads[0] = 0` for the root).  The source mutates its argument in place
(lines 600-604); the pure embedding applies `clePrep` and uses the prepared
matrix throughout, exactly as the source uses the mutated array.  A size-0
matrix cannot occur (every instance has the root token); `np.argmax` would
raise on it, and we return the identity. -/
def chu_liu_edmonds (n : ℕ) (M : Fin n → Fin n → S) : Fin n → Fin n :=
  cleAux n n le_rfl M

/-! ## Frame behaviour of `chu_liu_edmonds` (lines 599-604, 755-756)

`chu_liu_edmonds` writes into its argument before solving; the recursion then
operates on freshly created sub-arrays (`subscores` is produced by fancy
indexing and `np.pad`, which copy), so the caller-visible effect is exactly
the three top-level writes.  `chu_liu_edmonds_one_root` first copies with
`astype(np.float64)` and passes only the copy, so its own caller's matrix is
untouched. -/

/-- State-passing view of `chu_liu_edmonds`: the pair of (caller's array after
the call, returned heads).  The first component is the composition of the
in-place writes of lines 600-604. -/
def chu_liu_edmondsRun (n : ℕ) (M : Fin n → Fin n → S) :
    (Fin n → Fin n → S) × (Fin n → Fin n) :=
  (setCell00 n (setRow0 n (fill_diagonal n M)), chu_liu_edmonds n M)

/-! ## `chu_liu_edmonds_one_root` (decoding.py lines 730-779) -/

/-- `set_root(scores, root)` (lines 740-753): returns the matrix in which
`root` is forced to be the unique root, and `root`'s original root-attachment
score.  The writes are, in order: `scores[1:, 0] = -inf`; `scores[root] =
-inf`; `scores[root, 0] = 0`. -/
def set_root (n : ℕ) (scores : Fin n → Fin n → S) (root : Fin n) :
    (Fin n → Fin n → S) × S :=
  let root_score := scores root ⟨0, root.pos⟩
  let s1 : Fin n → Fin n → S :=
    fun m h => if 1 ≤ m.val ∧ h.val = 0 then ⊥ else scores m h
  let s2 : Fin n → Fin n → S :=
    fun m h => if m = root then ⊥ else s1 m h
  let s3 : Fin n → Fin n → S :=
    fun m h => if m = root ∧ h.val = 0 then ((0 : ℤ) : S) else s2 m h
  (s3, root_score)

/-- The candidate roots `np.where(np.equal(tree[1:], 0))[0] + 1`: the tokens
other than the root currently attached to token 0. -/
def rootsToTry (n : ℕ) (tree : Fin n → Fin n) : List (Fin n) :=
  (List.finRange n).filter (fun m => 1 ≤ m.val ∧ (tree m).val = 0)

/-- One iteration of the root-candidate loop of `chu_liu_edmonds_one_root`
(lines 764-775).  `best` is the running `(best_score, best_tree)` pair.  The
matrix passed in is the one mutated by the first `chu_liu_edmonds` call, i.e.
`clePrep` of the caller's copy, exactly as in the source.  `new_scores` is
itself mutated by the nested `chu_liu_edmonds` call before `tree_log_probs`
reads it, so the probabilities are read from `clePrep new_scores`. -/
def oneRootStep (n : ℕ) (scores : Fin n → Fin n → S)
    (best : S × Option (Fin n → Fin n)) (root : Fin n) :
    S × Option (Fin n → Fin n) :=
  let sr := set_root n scores root
  let new_scores := sr.1
  let root_score := sr.2
  let new_tree := chu_liu_edmonds n new_scores
  let mutated := clePrep n new_scores
  let tree_log_probs : Fin n → S := fun m => mutated m (new_tree m)
  if (List.finRange n).all (fun m => decide (⊥ < tree_log_probs m)) then
    let tree_score := ((List.finRange n).map tree_log_probs).sum + root_score
    if best.1 < tree_score then (tree_score, some new_tree) else best
  else best

/-- `chu_liu_edmonds_one_root(score_matrix)` (lines 730-779): single-root
variant.  `none` models the `assert best_tree is not None` failing (an
`AssertionError` raised instead of returning).  The source first copies the
input (`astype(np.float64)`) and lets the base call mutate the copy; the
embedding applies the base algorithm to the input and uses `clePrep` for the
mutated copy where the source reads it. -/
def chu_liu_edmonds_one_root (n : ℕ) (M : Fin n → Fin n → S) :
    Option (Fin n → Fin n) :=
  let tree := chu_liu_edmonds n M
  let roots := rootsToTry n tree
  if roots.length = 1 then some tree
  else
    (roots.foldl (oneRootStep n (clePrep n M)) (⊥, none)).2

/-! ## `decode_labels` (decoding.py lines 51-70) -/

/-- `decode_labels(parts, scores)`: the relation scores, reshaped to
`(num_arcs, num_relations)`, are embedded as a matrix; the result pairs each
arc's argmax label (`ties to the lowest label id, as np.argmax`) with that
label's score. -/
def decode_labels (numArcs numRel : ℕ)
    (relation_scores : Fin numArcs → Fin numRel → ℤ) (h : 0 < numRel) :
    (Fin numArcs → Fin numRel) × (Fin numArcs → ℤ) :=
  (fun i => npArgmax numRel (relation_scores i) h,
   fun i => relation_scores i (npArgmax numRel (relation_scores i) h))

/-! ## `decode` output assembly (decoding.py lines 94-143)

The LP-MAP solver (`graph.solve_lp_map_ad3`) is an external library call; its
returned arc posteriors and extra posteriors, the index map
`additional_indices` accumulated during factor construction, and the
`best_labels` of `decode_labels` are inputs of the assembly.  Posterior values
are modelled as exact integers (only assignment is performed on them). -/

/-- `predicted_output[:len(vals)] = vals` over a list (line 126). -/
def writeSlice (out : List ℤ) (vals : List ℤ) : List ℤ :=
  vals.enum.foldl (fun acc p => acc.set p.1 p.2) out

/-- The writes of the labeled-arc loop (lines 136-141): the i-th arc writes
its posterior at `num_arcs + i * num_relations + best_labels[i]`; `offset`
starts at `num_arcs` and advances by `num_relations` per arc. -/
def labelWrites (numArcs numRel : ℕ) (posteriors : List ℤ) (bestLabels : List ℕ) :
    List (ℕ × ℤ) :=
  (bestLabels.zip posteriors).enum.map
    (fun p => (numArcs + p.1 * numRel + p.2.1, p.2.2))

/-- The output assembly of `decode` (lines 116-143): a zero vector of the
part-vocabulary length receives the arc posteriors in the Arc slice, each
extra posterior at its mapped index, and, for labeled parts, each arc's
posterior at its best label's LabeledArc slot. -/
def decode (numParts numArcs numRel : ℕ) (labeled : Bool)
    (posteriors : List ℤ) (additional_indices : List ℕ)
    (additional_posteriors : List ℤ) (bestLabels : List ℕ) : List ℤ :=
  let out0 := List.replicate numParts (0 : ℤ)
  let out1 := writeSlice out0 posteriors
  let out2 := (additional_indices.zip additional_posteriors).foldl
    (fun acc p => acc.set p.1 p.2) out1
  if labeled then
    (labelWrites numArcs numRel posteriors bestLabels).foldl
      (fun acc p => acc.set p.1 p.2) out2
  else out2

/-! ## `generate_arc_mask` (decoding.py lines 178-226) -/

/-- Marginal clamping of `decode_marginals` (line 173):
`marginals[marginals < 0] = 0`.  The raw marginals come from the external
`decode_matrix_tree`. -/
def clampMarginals (raw : List ℤ) : List ℤ := raw.map (fun x => max x 0)

/-- Stable insertion into a decreasingly sorted list: the element goes after
every earlier element of greater-or-equal probability. -/
def insertByProb (x : ℕ × ℤ) : List (ℕ × ℤ) → List (ℕ × ℤ)
  | [] => [x]
  | y :: ys => if y.2 < x.2 then x :: y :: ys else y :: insertByProb x ys

/-- Python's `list.sort(key=lambda x: x[1], reverse=True)` (line 211) is a
stable decreasing sort; stable insertion sort has the same input-output
behaviour. -/
def sortByProbDesc (l : List (ℕ × ℤ)) : List (ℕ × ℤ) :=
  l.foldl (fun acc x => insertByProb x acc) []

/-- `candidate_heads[m]` (lines 204-206): the (head, marginal) pairs whose arc
has modifier `m`, in arc order. -/
def candidateHeads (arcs : List (ℕ × ℕ)) (marginals : List ℤ) (m : ℕ) :
    List (ℕ × ℤ) :=
  ((arcs.zip marginals).filter (fun p => p.1.2 = m)).map (fun p => (p.1.1, p.2))

/-- The per-modifier body of the pruning loop (lines 208-224): sort by
decreasing marginal; if the best marginal is zero keep the whole candidate
list (a warning is logged), otherwise keep the top `max_heads`; with a
threshold, the `break` stops at the first candidate below
`threshold * max_score`. -/
def keptHeads (max_heads : ℕ) (threshold : Option ℤ) (cands : List (ℕ × ℤ)) :
    List (ℕ × ℤ) :=
  match sortByProbDesc cands with
  | [] => []
  | top :: rest =>
    let max_score := top.2
    let selected := if max_score = 0 then top :: rest else (top :: rest).take max_heads
    match threshold with
    | none => selected
    | some t => selected.takeWhile (fun p => ¬ (p.2 < t * max_score))

/-- The distinct modifiers in first-appearance order (the iteration order of
the `defaultdict` built on lines 204-206). -/
def modifierOrder (arcs : List (ℕ × ℕ)) : List ℕ :=
  (arcs.map (fun a => a.2)).foldl (fun acc m => if m ∈ acc then acc else acc ++ [m]) []

/-- `generate_arc_mask(parts, scores, max_heads, threshold)` (lines 178-226):
the set of retained (head, modifier) cells of the new mask, one group per
modifier.  `marginals` is the clamped marginal list parallel to `arcs`. -/
def generate_arc_mask (arcs : List (ℕ × ℕ)) (marginals : List ℤ) (max_heads : ℕ)
    (threshold : Option ℤ) : List (ℕ × ℕ) :=
  (modifierOrder arcs).flatMap
    (fun m => (keptHeads max_heads threshold (candidateHeads arcs marginals m)).map
      (fun p => (p.1, m)))

/-! ## Dependency parts and `_populate_structure_list` (lines 538-570) -/

/-- The part variants used by the decoder (dependency_parts module): arcs,
labeled arcs, and the higher-order parts. -/
inductive DependencyPart : Type
  | Arc (head modifier : ℕ)
  | LabeledArc (head modifier label : ℕ)
  | NextSibling (head modifier sibling : ℕ)
  | Grandparent (grandparent head modifier : ℕ)
  | GrandSibling (grandparent head modifier sibling : ℕ)

/-- `part.head`. -/
def DependencyPart.head : DependencyPart → ℕ
  | .Arc h _ => h
  | .LabeledArc h _ _ => h
  | .NextSibling h _ _ => h
  | .Grandparent _ h _ => h
  | .GrandSibling _ h _ _ => h

/-- `part.modifier`. -/
def DependencyPart.modifier : DependencyPart → ℕ
  | .Arc _ m => m
  | .LabeledArc _ m _ => m
  | .NextSibling _ m _ => m
  | .Grandparent _ _ m => m
  | .GrandSibling _ _ m _ => m

/-- The side test of `_populate_structure_list` (lines 558-563):
`isinstance(part, (NextSibling, GrandSibling))` parts use
`part.sibling > part.head`, all other parts use
`part.modifier > part.head`. -/
def is_right : DependencyPart → Bool
  | .NextSibling h _ s => decide (s > h)
  | .GrandSibling _ h _ s => decide (s > h)
  | p => decide (p.modifier > p.head)

/-- `_populate_structure_list(left_list, right_list, parts, scores, type_)`
(lines 538-570): route each part, with its score and global index
`i + offset`, into the left or right structure of its head according to
`is_right`.  An entry is `(head, part, score, global index)`. -/
def _populate_structure_list (parts : List DependencyPart) (scores : List ℤ)
    (offset : ℕ) :
    List (ℕ × DependencyPart × ℤ × ℕ) × List (ℕ × DependencyPart × ℤ × ℕ) :=
  (parts.zip scores).enum.foldl
    (fun acc p =>
      let entry := (p.2.1.head, p.2.1, p.2.2, p.1 + offset)
      if is_right p.2.1 then (acc.1, acc.2 ++ [entry])
      else (acc.1 ++ [entry], acc.2))
    ([], [])

/-! ## The grandparent head automata fallback (lines 361-451, 476-507) -/

/-- Number of parameters of `FactorGraph._create_head_automata` after `self`:
`(structures, variables, decreasing)` (line 476). -/
def create_head_automata_param_count : ℕ := 3

/-- Number of arguments (after `self`) passed at the fallback call inside
`create_gp_head_automaton` (lines 404-405):
`([siblings_structure], self.graph, variables, decreasing)`. -/
def gp_fallback_arg_count : ℕ := 4

/-- Python call semantics for a fixed-arity method: calling with a different
number of positional arguments raises a `TypeError`. -/
def pyCall (paramCount argCount : ℕ) : Except String Unit :=
  if argCount = paramCount then Except.ok () else Except.error "TypeError"

/-- One (head, side) step of `create_gp_head_automaton` (lines 375-435),
restricted to the factor-choice control flow: when candidate (g, h) incoming
arcs exist, a grandparent head automaton factor is created (external AD3
call); otherwise the code takes the fallback branch (lines 402-405) and calls
`self._create_head_automata` with `gp_fallback_arg_count` arguments. -/
def gpHeadAutomatonStep (hasIncomingArcs : Bool) : Except String Unit :=
  if hasIncomingArcs then Except.ok ()
  else pyCall create_head_automata_param_count gp_fallback_arg_count

/-- The loop over the per-head sibling structures (line 375); a raised
exception propagates, aborting the whole build. -/
def create_gp_head_automata (structures : List Bool) : Except String Unit :=
  structures.foldlM (fun _ s => gpHeadAutomatonStep s) ()

/-! ## First-maximum characterisation of `np.argmax` -/

/-- The argmax fold step. -/
def amStep {α : Type} [LinearOrder α] {n : ℕ} (f : Fin n → α) (best i : Fin n) : Fin n :=
  if f best < f i then i else best

theorem npArgmax_eq_fold {α : Type} [LinearOrder α] (n : ℕ) (f : Fin n → α) (h : 0 < n) :
    npArgmax n f h = (List.finRange n).foldl (amStep f) ⟨0, h⟩ := rfl

/-- The fold result dominates the seed and every scanned element. -/
theorem amFold_ge {α : Type} [LinearOrder α] {n : ℕ} (f : Fin n → α) :
    ∀ (l : List (Fin n)) (b : Fin n),
      f b ≤ f (l.foldl (amStep f) b) ∧ ∀ x ∈ l, f x ≤ f (l.foldl (amStep f) b) := by
  intro l
  induction l with
  | nil => intro b; exact ⟨le_rfl, by simp⟩
  | cons x xs ih =>
    intro b
    simp only [List.foldl_cons]
    rcases ih (amStep f b x) with ⟨h1, h2⟩
    have hb : f b ≤ f (amStep f b x) := by
      unfold amStep
      by_cases hc : f b < f x
      · rw [if_pos hc]; exact le_of_lt hc
      · rw [if_neg hc]
    have hx : f x ≤ f (amStep f b x) := by
      unfold amStep
      by_cases hc : f b < f x
      · rw [if_pos hc]
      · rw [if_neg hc]; exact le_of_not_lt hc
    refine ⟨le_trans hb h1, ?_⟩
    intro y hy
    rcases List.mem_cons.mp hy with rfl | hy'
    · exact le_trans hx h1
    · exact h2 y hy'

/-- Precise first-maximum characterisation of the fold: either the seed wins
(everything scanned is `≤` it), or the result is a strict improvement sitting
in the list, with everything before it strictly below it and everything after
it not above it. -/
theorem amFold_first {α : Type} [LinearOrder α] {n : ℕ} (f : Fin n → α) :
    ∀ (l : List (Fin n)) (b : Fin n),
      (l.foldl (amStep f) b = b ∧ ∀ x ∈ l, f x ≤ f b) ∨
      (∃ l₁ l₂, l = l₁ ++ (l.foldl (amStep f) b) :: l₂ ∧
        f b < f (l.foldl (amStep f) b) ∧
        (∀ x ∈ l₁, f x < f (l.foldl (amStep f) b)) ∧
        (∀ x ∈ l₂, f x ≤ f (l.foldl (amStep f) b))) := by
  intro l
  induction l with
  | nil => intro b; exact Or.inl ⟨rfl, by simp⟩
  | cons x xs ih =>
    intro b
    simp only [List.foldl_cons]
    by_cases hc : f b < f x
    · have hs : amStep f b x = x := if_pos hc
      rw [hs]
      rcases ih x with ⟨heq, hall⟩ | ⟨l₁, l₂, hsplit, hlt, h1, h2⟩
      · refine Or.inr ⟨[], xs, ?_, ?_, by simp, ?_⟩
        · rw [heq]; rfl
        · rw [heq]; exact hc
        · rw [heq]; exact hall
      · refine Or.inr ⟨x :: l₁, l₂, ?_, ?_, ?_, h2⟩
        · rw [List.cons_append, ← hsplit]
        · exact lt_trans hc hlt
        · intro y hy
          rcases List.mem_cons.mp hy with rfl | hy'
          · exact hlt
          · exact h1 y hy'
    · have hs : amStep f b x = b := if_neg hc
      rw [hs]
      rcases ih b with ⟨heq, hall⟩ | ⟨l₁, l₂, hsplit, hlt, h1, h2⟩
      · refine Or.inl ⟨heq, ?_⟩
        intro y hy
        rcases List.mem_cons.mp hy with rfl | hy'
        · exact le_of_not_lt hc
        · exact hall y hy'
      · refine Or.inr ⟨x :: l₁, l₂, ?_, hlt, ?_, h2⟩
        · rw [List.cons_append, ← hsplit]
        · intro y hy
          rcases List.mem_cons.mp hy with rfl | hy'
          · exact lt_of_le_of_lt (le_of_not_lt hc) hlt
          · exact h1 y hy'

/-- `np.argmax` attains the maximum of the row. -/
theorem npArgmax_is_max {α : Type} [LinearOrder α] (n : ℕ) (f : Fin n → α) (h : 0 < n) :
    ∀ j, f j ≤ f (npArgmax n f h) := by
  intro j
  exact (amFold_ge f (List.finRange n) ⟨0, h⟩).2 j (List.mem_finRange j)

/-- Ties are broken to the first (lowest) index: everything strictly before
the argmax is strictly below it. -/
theorem npArgmax_first {α : Type} [LinearOrder α] (n : ℕ) (f : Fin n → α) (h : 0 < n) :
    ∀ j, j < npArgmax n f h → f j < f (npArgmax n f h) := by
  intro j hj
  rcases amFold_first f (List.finRange n) ⟨0, h⟩ with ⟨heq, _⟩ | ⟨l₁, l₂, hsplit, _, h1, _⟩
  · rw [npArgmax_eq_fold, heq] at hj
    exact absurd hj (by simp [Fin.lt_def])
  · rw [npArgmax_eq_fold] at hj ⊢
    set r := (List.finRange n).foldl (amStep f) ⟨0, h⟩ with hr
    apply h1
    have hjmem : j ∈ List.finRange n := List.mem_finRange j
    rw [hsplit] at hjmem
    rcases List.mem_append.mp hjmem with hj1 | hj2
    · exact hj1
    · rcases List.mem_cons.mp hj2 with rfl | hj3
      · exact absurd hj (lt_irrefl _)
      · exfalso
        have hpw : (List.finRange n).Pairwise (· < ·) := List.pairwise_lt_finRange n
        rw [hsplit] at hpw
        have := (List.pairwise_append.mp hpw).2.1
        have hrj : r < j := (List.pairwise_cons.mp this).1 j hj3
        exact absurd (lt_trans hj hrj) (lt_irrefl _)

/-- The greedy head selection of `chu_liu_edmonds` (line 607): the argmax of
each modifier's prepared row. -/
def cleGreedy (n : ℕ) (M : Fin n → Fin n → S) (h : 0 < n) : Fin n → Fin n :=
  fun m => npArgmax n (clePrep n M m) h

/-- When Tarjan's scan finds no cycle, `chu_liu_edmonds` returns the greedy
assignment unchanged (lines 610/683). -/
theorem chu_liu_edmonds_no_cycle (N : ℕ) (M : Fin (N + 1) → Fin (N + 1) → S)
    (h : tarjan (N + 1) (cleGreedy (N + 1) M (Nat.succ_pos N)) = []) :
    chu_liu_edmonds (N + 1) M = cleGreedy (N + 1) M (Nat.succ_pos N) := by
  show cleAux (N + 1) (N + 1) le_rfl M = _
  rw [cleAux]
  split
  · rfl
  · rename_i cycle heq
    rw [show (fun m => npArgmax (N + 1) (clePrep (N + 1) M m) (Nat.succ_pos N)) =
      cleGreedy (N + 1) M (Nat.succ_pos N) from rfl, h] at heq
    simp at heq

/-- Row 0 of the prepared matrix: 0 at the root self-cell, `-inf` elsewhere. -/
theorem clePrep_row0 (N : ℕ) (M : Fin (N + 1) → Fin (N + 1) → S) (z j : Fin (N + 1))
    (hz : z.val = 0) :
    clePrep (N + 1) M z j = if j.val = 0 then ((0 : ℤ) : S) else ⊥ := by
  unfold clePrep setCell00 setRow0 fill_diagonal
  by_cases hj : j.val = 0
  · simp [hz, hj]
  · simp [hz, hj]

/-- The greedy head of token 0 is token 0 itself (after preparation, its row
is `-inf` except the self-cell, which holds 0). -/
theorem cleGreedy_zero (N : ℕ) (M : Fin (N + 1) → Fin (N + 1) → S) (z : Fin (N + 1))
    (hz : z.val = 0) :
    npArgmax (N + 1) (clePrep (N + 1) M z) (Nat.succ_pos N) = z := by
  by_contra hne
  have hmax := npArgmax_is_max (N + 1) (clePrep (N + 1) M z) (Nat.succ_pos N) z
  have hval : (npArgmax (N + 1) (clePrep (N + 1) M z) (Nat.succ_pos N)).val ≠ 0 := by
    intro h
    exact hne (Fin.ext (by rw [h, hz]))
  rw [clePrep_row0 N M z z hz, clePrep_row0 N M z _ hz] at hmax
  rw [if_pos hz, if_neg hval] at hmax
  exact absurd hmax (by simp)

/-- For a predicate true at 0, the filtered `finRange` starts with 0. -/
theorem filter_finRange_head_zero (N : ℕ) (p : Fin (N + 1) → Bool) (hp : p 0 = true) :
    ∃ tl, (List.finRange (N + 1)).filter p = (0 : Fin (N + 1)) :: tl := by
  refine ⟨((List.finRange N).map Fin.succ).filter p, ?_⟩
  rw [List.finRange_succ, List.filter_cons, hp]
  simp

theorem cleAux_zero : ∀ (fuel N : ℕ) (hle : N + 1 ≤ fuel)
    (M : Fin (N + 1) → Fin (N + 1) → S) (z : Fin (N + 1)), z.val = 0 →
    cleAux fuel (N + 1) hle M z = z := by
  intro fuel
  induction fuel with
  | zero => intro N hle M z hz; omega
  | succ fuel ih =>
    intro N hle M z hz
    have hz0 : z = 0 := Fin.ext (by simpa using hz)
    subst hz0
    suffices h : ∀ g, cleAux (fuel + 1) (N + 1) hle M = g → g 0 = 0 from h _ rfl
    intro g hg
    rw [cleAux] at hg
    split at hg
    · rw [← hg]
      exact cleGreedy_zero N M 0 hz
    · rename_i cycle heq
      rw [← hg]
      have h0 : (fun m => npArgmax (N + 1) (clePrep (N + 1) M m) (Nat.succ_pos N))
          (0 : Fin (N + 1)) = (0 : Fin (N + 1)) :=
        cleGreedy_zero N M 0 (by simp)
      have hmem : cycle ∈ tarjan (N + 1)
          (fun m => npArgmax (N + 1) (clePrep (N + 1) M m) (Nat.succ_pos N)) :=
        List.mem_of_mem_getLast? heq
      have hcz : cycle (0 : Fin (N + 1)) = false :=
        tarjan_zero_free N _ h0 cycle hmem
      dsimp only
      rw [dif_neg (by simp [hcz])]
      obtain ⟨tl, htl⟩ := filter_finRange_head_zero N
        (fun j => decide ¬cycle j = true) (by simp [hcz])
      have hidx : List.indexOf (0 : Fin (N + 1))
          (List.filter (fun j => decide ¬cycle j = true) (List.finRange (N + 1))) = 0 := by
        rw [htl]
        exact List.indexOf_cons_self _ _
      simp only [hidx]
      rw [ih]
      · simp only [htl]
        rw [if_pos (by simp)]
        simp
      · rfl

/-- The base algorithm reports the root as its own head. -/
theorem chu_liu_edmonds_zero (N : ℕ) (M : Fin (N + 1) → Fin (N + 1) → S) :
    chu_liu_edmonds (N + 1) M 0 = 0 :=
  cleAux_zero (N + 1) N le_rfl M 0 rfl

/-- State-passing view of `chu_liu_edmonds_one_root`: the caller's matrix
after the call, and the result.  The source copies the input with
`astype(np.float64)` (line 755) and hands only the copy to the mutating base
algorithm, so the caller's matrix comes back unchanged. -/
def chu_liu_edmonds_one_rootRun (n : ℕ) (M : Fin n → Fin n → S) :
    (Fin n → Fin n → S) × Option (Fin n → Fin n) :=
  (M, chu_liu_edmonds_one_root n M)

/-- Entries appended to a side list by `_populate_structure_list` satisfy the
side predicate (right side) or its negation (left side). -/
theorem populate_mem_aux (l : List (ℕ × (DependencyPart × ℤ))) (offset : ℕ) :
    ∀ acc : List (ℕ × DependencyPart × ℤ × ℕ) × List (ℕ × DependencyPart × ℤ × ℕ),
      (∀ e ∈ (l.foldl
          (fun acc p =>
            let entry := (p.2.1.head, p.2.1, p.2.2, p.1 + offset)
            if is_right p.2.1 then (acc.1, acc.2 ++ [entry])
            else (acc.1 ++ [entry], acc.2)) acc).2,
        e ∈ acc.2 ∨ is_right e.2.1 = true) ∧
      (∀ e ∈ (l.foldl
          (fun acc p =>
            let entry := (p.2.1.head, p.2.1, p.2.2, p.1 + offset)
            if is_right p.2.1 then (acc.1, acc.2 ++ [entry])
            else (acc.1 ++ [entry], acc.2)) acc).1,
        e ∈ acc.1 ∨ is_right e.2.1 = false) := by
  induction l with
  | nil => intro acc; exact ⟨fun e he => Or.inl he, fun e he => Or.inl he⟩
  | cons p rest ih =>
    intro acc
    simp only [List.foldl_cons]
    by_cases hp : is_right p.2.1
    · rw [if_pos hp]
      rcases ih (acc.1, acc.2 ++ [(p.2.1.head, p.2.1, p.2.2, p.1 + offset)]) with ⟨h2, h1⟩
      constructor
      · intro e he
        rcases h2 e he with hin | hr
        · rcases List.mem_append.mp hin with hin' | hin'
          · exact Or.inl hin'
          · right
            rcases List.mem_singleton.mp hin' with rfl
            exact hp
        · exact Or.inr hr
      · intro e he
        exact h1 e he
    · rw [if_neg hp]
      rcases ih (acc.1 ++ [(p.2.1.head, p.2.1, p.2.2, p.1 + offset)], acc.2) with ⟨h2, h1⟩
      constructor
      · intro e he
        exact h2 e he
      · intro e he
        rcases h1 e he with hin | hr
        · rcases List.mem_append.mp hin with hin' | hin'
          · exact Or.inl hin'
          · right
            rcases List.mem_singleton.mp hin' with rfl
            simpa using hp
        · exact Or.inr hr

/-- C3: during factor-graph construction with grandparent head automata, a
(head, side) with a non-empty sibling structure but no candidate (g, h) arcs
is claimed to fall back to a plain head automaton and complete.  The fallback
call (lines 404-405) passes four positional arguments to the three-parameter
method `_create_head_automata` (line 476), so Python raises a `TypeError` and
the build aborts instead; with candidate arcs present the build succeeds. -/
theorem C3_gp_fallback_raises_type_error :
    create_gp_head_automata [false] = Except.error "TypeError" ∧
    gpHeadAutomatonStep false = Except.error "TypeError" ∧
    create_gp_head_automata [true, true] = Except.ok () := ⟨rfl, rfl, rfl⟩

/-- C6: when bucketing higher-order parts into per-head left/right structures,
`NextSibling` and `GrandSibling` parts go right iff their sibling index
exceeds their head index — the modifier is not consulted — while every other
part type goes right iff its modifier exceeds its head; the right list holds
exactly the parts passing the side test. -/
theorem C6_side_assignment_uses_sibling_field :
    (∀ head modifier sibling : ℕ,
      is_right (DependencyPart.NextSibling head modifier sibling) =
        decide (head < sibling)) ∧
    (∀ g head modifier sibling : ℕ,
      is_right (DependencyPart.GrandSibling g head modifier sibling) =
        decide (head < sibling)) ∧
    (∀ g head modifier : ℕ,
      is_right (DependencyPart.Grandparent g head modifier) =
        decide (head < modifier)) ∧
    (∀ head modifier : ℕ,
      is_right (DependencyPart.Arc head modifier) = decide (head < modifier)) ∧
    (∀ (parts : List DependencyPart) (scores : List ℤ) (offset : ℕ),
      (∀ e ∈ (_populate_structure_list parts scores offset).2, is_right e.2.1 = true) ∧
      (∀ e ∈ (_populate_structure_list parts scores offset).1, is_right e.2.1 = false)) := by
  refine ⟨fun _ _ _ => rfl, fun _ _ _ _ => rfl, fun _ _ _ => rfl, fun _ _ => rfl, ?_⟩
  intro parts scores offset
  have h := populate_mem_aux ((parts.zip scores).enum) offset ([], [])
  constructor
  · intro e he
    rcases h.1 e he with hin | hr
    · simp at hin
    · exact hr
  · intro e he
    rcases h.2 e he with hin | hr
    · simp at hin
    · exact hr

/-- C9: `chu_liu_edmonds` mutates its input in place before solving — the
caller's matrix afterwards has `-inf` on the diagonal and on row 0 except
cell [0,0] which is 0, all other cells unchanged; the mutation is observable
(cell [0,0] of an all-5 matrix comes back 0); `chu_liu_edmonds_one_root`
shields its own caller because it passes only the `astype` copy to the
mutating call. -/
theorem C9_in_place_mutation :
    (∀ (n : ℕ) (M : Fin n → Fin n → S) (i j : Fin n),
      (chu_liu_edmondsRun n M).1 i j =
        if i.val = 0 then (if j.val = 0 then ((0 : ℤ) : S) else ⊥)
        else if i = j then ⊥ else M i j) ∧
    (chu_liu_edmondsRun 2 (fun _ _ => ((5 : ℤ) : S))).1 0 0 ≠ ((5 : ℤ) : S) ∧
    (∀ (n : ℕ) (M : Fin n → Fin n → S), (chu_liu_edmonds_one_rootRun n M).1 = M) := by
  refine ⟨?_, by decide, fun _ _ => rfl⟩
  intro n M i j
  show setCell00 n (setRow0 n (fill_diagonal n M)) i j = _
  unfold setCell00 setRow0 fill_diagonal
  by_cases hi : i.val = 0
  · by_cases hj : j.val = 0
    · simp [hi, hj]
    · simp [hi, hj]
  · have hij : ¬ (i.val = 0 ∧ j.val = 0) := fun hc => hi hc.1
    by_cases heq : i = j
    · subst heq
      simp [hij, hi]
    · simp [hij, hi, heq]

/-- C7: each recursive call of `chu_liu_edmonds` is on a strictly smaller
matrix: every cycle delivered by `tarjan` has at least 2 members, and the
contracted matrix has `n - |cycle| + 1 < n` rows, so the recursion depth is
bounded by the token count (the embedding is total by structural recursion on
exactly this bound). -/
theorem C7_contraction_strictly_shrinks (n : ℕ) (heads : Fin n → Fin n)
    (c : Fin n → Bool) (hc : c ∈ tarjan n heads) :
    2 ≤ countTrue n c ∧
    ((List.finRange n).filter (fun j => ¬ c j)).length + 1 = n - countTrue n c + 1 ∧
    ((List.finRange n).filter (fun j => ¬ c j)).length + 1 < n := by
  have h2 := tarjan_popcount n heads c hc
  have hsplit := length_filter_add_length_filter_not (List.finRange n) (fun j => c j)
  have hlen : (List.finRange n).length = n := List.length_finRange n
  have hshr := contraction_shrinks n c h2
  refine ⟨h2, ?_, hshr⟩
  rw [countTrue_eq_length_filter] at *
  omega

/-- Witness for C7 at a concrete cycle: `heads = [1, 0]` on two nodes gives
the full mask, which shrinks the contraction to a single node. -/
theorem C7_contraction_strictly_shrinks_witness :
    2 ≤ countTrue 2 (fun _ : Fin 2 => true) ∧
    ((List.finRange 2).filter (fun j => ¬ (fun _ : Fin 2 => true) j)).length + 1 =
      2 - countTrue 2 (fun _ : Fin 2 => true) + 1 ∧
    ((List.finRange 2).filter (fun j => ¬ (fun _ : Fin 2 => true) j)).length + 1 < 2 :=
  C7_contraction_strictly_shrinks 2 ![1, 0] (fun _ => true) (by decide)

/-- C8: decoding is deterministic — the embedding is a pure function of its
inputs, so equal inputs give equal outputs — and every equal-score tie is
resolved to the first candidate in index order: the label chosen by
`decode_labels` attains its arc's maximum and strictly beats every lower
label id; the greedy head chosen by `chu_liu_edmonds` attains its row's
maximum and strictly beats every lower head index; and in the cycle-free case
`chu_liu_edmonds` returns exactly this greedy assignment. -/
theorem C8_deterministic_first_index_ties :
    (∀ (numArcs numRel : ℕ) (relation_scores : Fin numArcs → Fin numRel → ℤ)
        (h : 0 < numRel) (i : Fin numArcs),
      (∀ l, relation_scores i l ≤
        relation_scores i ((decode_labels numArcs numRel relation_scores h).1 i)) ∧
      (∀ l, l < (decode_labels numArcs numRel relation_scores h).1 i →
        relation_scores i l <
          relation_scores i ((decode_labels numArcs numRel relation_scores h).1 i)) ∧
      (decode_labels numArcs numRel relation_scores h).2 i =
        relation_scores i ((decode_labels numArcs numRel relation_scores h).1 i)) ∧
    (∀ (n : ℕ) (M : Fin n → Fin n → S) (h : 0 < n) (m : Fin n),
      (∀ j, clePrep n M m j ≤ clePrep n M m (cleGreedy n M h m)) ∧
      (∀ j, j < cleGreedy n M h m →
        clePrep n M m j < clePrep n M m (cleGreedy n M h m))) ∧
    (∀ (N : ℕ) (M : Fin (N + 1) → Fin (N + 1) → S),
      tarjan (N + 1) (cleGreedy (N + 1) M (Nat.succ_pos N)) = [] →
      chu_liu_edmonds (N + 1) M = cleGreedy (N + 1) M (Nat.succ_pos N)) := by
  refine ⟨?_, ?_, ?_⟩
  · intro numArcs numRel relation_scores h i
    exact ⟨npArgmax_is_max numRel (relation_scores i) h,
      npArgmax_first numRel (relation_scores i) h, rfl⟩
  · intro n M h m
    exact ⟨npArgmax_is_max n (clePrep n M m) h,
      npArgmax_first n (clePrep n M m) h⟩
  · intro N M h
    exact chu_liu_edmonds_no_cycle N M h

/-- Witness for C8 at concrete inputs: a two-way label tie resolves to label
0, and a cycle-free 2-token matrix decodes to its greedy assignment. -/
theorem C8_deterministic_first_index_ties_witness :
    (decode_labels 1 2 (fun _ _ => (3 : ℤ)) (by norm_num)).2 0 = 3 ∧
    chu_liu_edmonds 2 (fun _ _ => ((1 : ℤ) : S)) =
      cleGreedy 2 (fun _ _ => ((1 : ℤ) : S)) (by norm_num) := by
  constructor
  · have h := (C8_deterministic_first_index_ties.1 1 2 (fun _ _ => (3 : ℤ))
      (by norm_num) 0).2.2
    exact h.trans rfl
  · exact C8_deterministic_first_index_ties.2.2 1 (fun _ _ => ((1 : ℤ) : S)) (by decide)

/-! ## Lemmas for `generate_arc_mask` (C4) -/

/-- Decreasing-by-probability sortedness. -/
def SortedDesc (l : List (ℕ × ℤ)) : Prop :=
  List.Chain' (fun a b : ℕ × ℤ => b.2 ≤ a.2) l

theorem mem_insertByProb (x y : ℕ × ℤ) :
    ∀ l, (y ∈ insertByProb x l ↔ y = x ∨ y ∈ l) := by
  intro l
  induction l with
  | nil => simp [insertByProb]
  | cons z zs ih =>
    unfold insertByProb
    by_cases h : z.2 < x.2
    · rw [if_pos h]
      simp only [List.mem_cons]
    · rw [if_neg h]
      simp only [List.mem_cons, ih]
      tauto

theorem sortedDesc_insertByProb (x : ℕ × ℤ) :
    ∀ l, SortedDesc l → SortedDesc (insertByProb x l) := by
  intro l
  induction l with
  | nil => intro _; simp [insertByProb, SortedDesc]
  | cons y ys ih =>
    intro hs
    unfold insertByProb
    by_cases h : y.2 < x.2
    · rw [if_pos h]
      exact List.Chain'.cons (le_of_lt h) hs
    · rw [if_neg h]
      have hys : SortedDesc ys := (List.chain'_cons'.mp hs).2
      have hins := ih hys
      apply List.chain'_cons'.mpr
      refine ⟨?_, hins⟩
      intro b hb
      cases ys with
      | nil =>
        simp [insertByProb] at hb
        rw [← hb]
        exact le_of_not_lt h
      | cons z zs =>
        rw [show insertByProb x (z :: zs) =
          if z.2 < x.2 then x :: z :: zs else z :: insertByProb x zs from rfl] at hb
        by_cases hz : z.2 < x.2
        · rw [if_pos hz] at hb
          simp at hb
          rw [← hb]
          exact le_of_not_lt h
        · rw [if_neg hz] at hb
          simp at hb
          rw [← hb]
          exact (List.chain'_cons'.mp hs).1 z rfl

theorem sortByProbDesc_sorted (l : List (ℕ × ℤ)) : SortedDesc (sortByProbDesc l) := by
  have gen : ∀ (l acc : List (ℕ × ℤ)), SortedDesc acc →
      SortedDesc (l.foldl (fun acc x => insertByProb x acc) acc) := by
    intro l
    induction l with
    | nil => intro acc h; exact h
    | cons x xs ih =>
      intro acc h
      exact ih (insertByProb x acc) (sortedDesc_insertByProb x acc h)
  exact gen l [] (by simp [SortedDesc])

theorem mem_sortByProbDesc (l : List (ℕ × ℤ)) (y : ℕ × ℤ) :
    y ∈ sortByProbDesc l ↔ y ∈ l := by
  have gen : ∀ (l acc : List (ℕ × ℤ)),
      (y ∈ l.foldl (fun acc x => insertByProb x acc) acc ↔ y ∈ acc ∨ y ∈ l) := by
    intro l
    induction l with
    | nil => intro acc; simp
    | cons x xs ih =>
      intro acc
      simp only [List.foldl_cons, ih, mem_insertByProb, List.mem_cons]
      tauto
  simpa using gen l []

theorem sortedDesc_head_max (a : ℕ × ℤ) :
    ∀ l, SortedDesc (a :: l) → ∀ p ∈ a :: l, p.2 ≤ a.2 := by
  intro l
  induction l generalizing a with
  | nil => intro _ p hp; rcases List.mem_singleton.mp hp with rfl; exact le_rfl
  | cons b bs ih =>
    intro hs p hp
    have hba : b.2 ≤ a.2 := (List.chain'_cons'.mp hs).1 b rfl
    have hbs : SortedDesc (b :: bs) := (List.chain'_cons'.mp hs).2
    rcases List.mem_cons.mp hp with rfl | hp'
    · exact le_rfl
    · exact le_trans (ih b hbs p hp') hba

theorem mem_takeWhile {α : Type} (p : α → Bool) :
    ∀ (l : List α) (a : α), a ∈ l.takeWhile p → a ∈ l := by
  intro l
  induction l with
  | nil => intro a ha; simpa using ha
  | cons x xs ih =>
    intro a ha
    rw [List.takeWhile_cons] at ha
    by_cases hx : p x
    · rw [if_pos hx] at ha
      rcases List.mem_cons.mp ha with rfl | ha'
      · exact List.mem_cons_self a xs
      · exact List.mem_cons_of_mem x (ih a ha')
    · rw [if_neg hx] at ha
      simp at ha

theorem pred_of_mem_takeWhile {α : Type} (p : α → Bool) :
    ∀ (l : List α) (a : α), a ∈ l.takeWhile p → p a = true := by
  intro l
  induction l with
  | nil => intro a ha; simpa using ha
  | cons x xs ih =>
    intro a ha
    rw [List.takeWhile_cons] at ha
    by_cases hx : p x
    · rw [if_pos hx] at ha
      rcases List.mem_cons.mp ha with rfl | ha'
      · exact hx
      · exact ih a ha'
    · rw [if_neg hx] at ha
      simp at ha

/-- Everything `keptHeads` retains is one of the modifier's candidates. -/
theorem keptHeads_subset (max_heads : ℕ) (threshold : Option ℤ)
    (cands : List (ℕ × ℤ)) :
    ∀ p ∈ keptHeads max_heads threshold cands, p ∈ cands := by
  intro p hp
  unfold keptHeads at hp
  rcases hsort : sortByProbDesc cands with _ | ⟨top, rest⟩
  · rw [hsort] at hp; simp at hp
  · rw [hsort] at hp
    have hsub : ∀ q ∈ (if top.2 = 0 then top :: rest
        else (top :: rest).take max_heads), q ∈ top :: rest := by
      intro q hq
      by_cases h0 : top.2 = 0
      · rwa [if_pos h0] at hq
      · rw [if_neg h0] at hq
        exact List.take_subset max_heads (top :: rest) hq
    have hmem : p ∈ top :: rest := by
      rcases threshold with _ | t
      · exact hsub p hp
      · exact hsub p (mem_takeWhile _ _ p hp)
    rw [← hsort] at hmem
    exact (mem_sortByProbDesc cands p).mp hmem

theorem sortByProbDesc_ne_nil (cands : List (ℕ × ℤ)) (h : cands ≠ []) :
    sortByProbDesc cands ≠ [] := by
  intro hc
  rcases List.exists_mem_of_ne_nil cands h with ⟨p, hp⟩
  have := (mem_sortByProbDesc cands p).mpr hp
  rw [hc] at this
  simp at this

/-- Unfolding of `keptHeads` once the sorted candidate list is known. -/
theorem keptHeads_eq (max_heads : ℕ) (threshold : Option ℤ)
    (cands : List (ℕ × ℤ)) (top : ℕ × ℤ) (rest : List (ℕ × ℤ))
    (hsort : sortByProbDesc cands = top :: rest) :
    keptHeads max_heads threshold cands =
      (match threshold with
       | none => if top.2 = 0 then top :: rest else (top :: rest).take max_heads
       | some t => (if top.2 = 0 then top :: rest
            else (top :: rest).take max_heads).takeWhile
              (fun p => decide (¬ p.2 < t * top.2))) := by
  unfold keptHeads
  rw [hsort]

/-- With at least one candidate, a threshold factor at most 1 and
`max_heads ≥ 1`, at least one head survives the pruning. -/
theorem keptHeads_ne_nil (max_heads : ℕ) (threshold : Option ℤ)
    (cands : List (ℕ × ℤ)) (hmh : 1 ≤ max_heads)
    (hthr : ∀ t, threshold = some t → t ≤ 1)
    (hnn : cands ≠ []) (hpos : ∀ p ∈ cands, 0 ≤ p.2) :
    keptHeads max_heads threshold cands ≠ [] := by
  rcases hsort : sortByProbDesc cands with _ | ⟨top, rest⟩
  · exact absurd hsort (sortByProbDesc_ne_nil cands hnn)
  · rw [keptHeads_eq max_heads threshold cands top rest hsort]
    have htop : 0 ≤ top.2 := by
      apply hpos
      apply (mem_sortByProbDesc cands top).mp
      rw [hsort]
      exact List.mem_cons_self top rest
    have hsel : ∃ l, (if top.2 = 0 then top :: rest
        else (top :: rest).take max_heads) = top :: l := by
      by_cases h0 : top.2 = 0
      · exact ⟨rest, if_pos h0⟩
      · rw [if_neg h0]
        rcases max_heads with _ | k
        · omega
        · exact ⟨rest.take k, rfl⟩
    rcases hsel with ⟨l, hl⟩
    rcases threshold with _ | t
    · rw [hl]; simp
    · dsimp only
      rw [hl]
      have ht : t ≤ 1 := hthr t rfl
      have hpred : ¬ (top.2 < t * top.2) :=
        not_lt_of_le (mul_le_of_le_one_left htop ht)
      rw [List.takeWhile_cons, if_pos (by simpa using hpred)]
      simp

/-- When the top marginal is nonzero, at most `max_heads` heads survive. -/
theorem keptHeads_length_le (max_heads : ℕ) (threshold : Option ℤ)
    (cands : List (ℕ × ℤ)) (h0 : (sortByProbDesc cands).headI.2 ≠ 0) :
    (keptHeads max_heads threshold cands).length ≤ max_heads := by
  rcases hsort : sortByProbDesc cands with _ | ⟨top, rest⟩
  · unfold keptHeads
    rw [hsort]
    simp
  · rw [keptHeads_eq max_heads threshold cands top rest hsort]
    have htop : top.2 ≠ 0 := by rw [hsort] at h0; simpa using h0
    rcases threshold with _ | t
    · dsimp only
      rw [if_neg htop]
      exact le_trans (le_of_eq (List.length_take _ _)) (min_le_left _ _)
    · dsimp only
      rw [if_neg htop]
      exact le_trans (List.Sublist.length_le (List.takeWhile_sublist _))
        (le_trans (le_of_eq (List.length_take _ _)) (min_le_left _ _))

/-- With a threshold `t`, every survivor's marginal is at least
`t * max_score`. -/
theorem keptHeads_threshold (max_heads : ℕ) (t : ℤ) (cands : List (ℕ × ℤ)) :
    ∀ p ∈ keptHeads max_heads (some t) cands,
      t * (sortByProbDesc cands).headI.2 ≤ p.2 := by
  intro p hp
  rcases hsort : sortByProbDesc cands with _ | ⟨top, rest⟩
  · unfold keptHeads at hp
    rw [hsort] at hp
    simp at hp
  · rw [keptHeads_eq max_heads (some t) cands top rest hsort] at hp
    have := pred_of_mem_takeWhile _ _ p hp
    simp only [List.headI]
    simpa [not_lt] using this

/-- Candidates built from clamped marginals have nonnegative marginals. -/
theorem candidateHeads_nonneg (arcs : List (ℕ × ℕ)) (raw : List ℤ) (m : ℕ) :
    ∀ p ∈ candidateHeads arcs (clampMarginals raw) m, 0 ≤ p.2 := by
  intro p hp
  unfold candidateHeads at hp
  rcases List.mem_map.mp hp with ⟨q, hq, rfl⟩
  have hzip := List.of_mem_zip (List.mem_of_mem_filter hq)
  rcases List.mem_map.mp hzip.2 with ⟨r, _, hr⟩
  rw [← hr]
  exact le_max_right r 0

/-- Every modifier of an arc appears in the grouping order. -/
theorem mem_modifierOrder (arcs : List (ℕ × ℕ)) (a : ℕ × ℕ) (ha : a ∈ arcs) :
    a.2 ∈ modifierOrder arcs := by
  have step : ∀ (l acc : List ℕ) (x : ℕ), x ∈ acc →
      x ∈ l.foldl (fun acc m => if m ∈ acc then acc else acc ++ [m]) acc := by
    intro l
    induction l with
    | nil => intro acc x hx; exact hx
    | cons y ys ih =>
      intro acc x hx
      simp only [List.foldl_cons]
      by_cases hy : y ∈ acc
      · rw [if_pos hy]; exact ih acc x hx
      · rw [if_neg hy]
        exact ih _ x (List.mem_append_left _ hx)
  have main : ∀ (l acc : List ℕ) (x : ℕ), x ∈ l →
      x ∈ l.foldl (fun acc m => if m ∈ acc then acc else acc ++ [m]) acc := by
    intro l
    induction l with
    | nil => intro acc x hx; simp at hx
    | cons y ys ih =>
      intro acc x hx
      simp only [List.foldl_cons]
      rcases List.mem_cons.mp hx with rfl | hx'
      · by_cases hy : x ∈ acc
        · rw [if_pos hy]; exact step ys acc x hy
        · rw [if_neg hy]
          exact step ys _ x (List.mem_append_right _ (List.mem_singleton_self x))
      · by_cases hy : y ∈ acc
        · rw [if_pos hy]; exact ih acc x hx'
        · rw [if_neg hy]; exact ih _ x hx'
  exact main (arcs.map (fun a => a.2)) [] a.2 (List.mem_map_of_mem _ ha)

/-- Kept heads of a grouped modifier appear in the assembled mask. -/
theorem keptHeads_mem_mask (arcs : List (ℕ × ℕ)) (marginals : List ℤ)
    (max_heads : ℕ) (threshold : Option ℤ) (m : ℕ) (hm : m ∈ modifierOrder arcs) :
    ∀ p ∈ keptHeads max_heads threshold (candidateHeads arcs marginals m),
      (p.1, m) ∈ generate_arc_mask arcs marginals max_heads threshold := by
  intro p hp
  unfold generate_arc_mask
  exact List.mem_flatMap.mpr ⟨m, hm, List.mem_map.mpr ⟨p, hp, rfl⟩⟩

/-- C4 counterexample: with a threshold factor greater than 1 (here 2), a
modifier with a single positive-marginal candidate head retains nothing: the
first sorted candidate already falls below `threshold * max_score`, so the
`break` fires immediately and the whole mask row is empty, contradicting
"every modifier retains at least one head candidate". -/
theorem C4_counterexample_threshold_above_one :
    candidateHeads [(0, 1)] (clampMarginals [5]) 1 = [(0, 5)] ∧
    generate_arc_mask [(0, 1)] (clampMarginals [5]) 1 (some 2) = [] := by
  constructor
  · rfl
  · rfl

/-- C4 (amended): for clamped marginals, `max_heads ≥ 1` and a threshold
factor of at most 1 (when given), the pruning groups arcs by modifier, and
for every modifier with at least one candidate: at least one head is
retained; every retained marginal is nonnegative; when the modifier's best
marginal is nonzero at most `max_heads` heads are retained (a zero best
marginal keeps the whole candidate list); retained heads are candidates of
this modifier; with a threshold every retained marginal is at least
`threshold * best marginal`; and every retained head appears in the returned
mask paired with its modifier. -/
theorem C4_arc_mask_pruning (arcs : List (ℕ × ℕ)) (raw : List ℤ)
    (max_heads : ℕ) (threshold : Option ℤ) (m : ℕ)
    (hmh : 1 ≤ max_heads) (hthr : ∀ t, threshold = some t → t ≤ 1)
    (hnn : candidateHeads arcs (clampMarginals raw) m ≠ []) :
    keptHeads max_heads threshold (candidateHeads arcs (clampMarginals raw) m) ≠ [] ∧
    (∀ p ∈ keptHeads max_heads threshold (candidateHeads arcs (clampMarginals raw) m),
      0 ≤ p.2 ∧ p ∈ candidateHeads arcs (clampMarginals raw) m) ∧
    ((sortByProbDesc (candidateHeads arcs (clampMarginals raw) m)).headI.2 ≠ 0 →
      (keptHeads max_heads threshold
        (candidateHeads arcs (clampMarginals raw) m)).length ≤ max_heads) ∧
    (∀ t, threshold = some t →
      ∀ p ∈ keptHeads max_heads threshold (candidateHeads arcs (clampMarginals raw) m),
        t * (sortByProbDesc (candidateHeads arcs (clampMarginals raw) m)).headI.2 ≤ p.2) ∧
    ((m ∈ modifierOrder arcs) →
      ∀ p ∈ keptHeads max_heads threshold (candidateHeads arcs (clampMarginals raw) m),
        (p.1, m) ∈ generate_arc_mask arcs (clampMarginals raw) max_heads threshold) := by
  have hpos := candidateHeads_nonneg arcs raw m
  refine ⟨keptHeads_ne_nil _ _ _ hmh hthr hnn hpos, ?_, ?_, ?_, ?_⟩
  · intro p hp
    exact ⟨hpos p (keptHeads_subset _ _ _ p hp), keptHeads_subset _ _ _ p hp⟩
  · intro h0
    exact keptHeads_length_le _ _ _ h0
  · intro t ht p hp
    rw [ht] at hp
    exact keptHeads_threshold max_heads t _ p hp
  · intro hm p hp
    exact keptHeads_mem_mask arcs (clampMarginals raw) max_heads threshold m hm p hp

/-- Witness for the amended C4 at a concrete input: one arc (head 0,
modifier 1) with raw marginal 5, `max_heads = 1`, threshold 1. -/
theorem C4_arc_mask_pruning_witness :
    keptHeads 1 (some 1) (candidateHeads [(0, 1)] (clampMarginals [5]) 1) ≠ [] :=
  (C4_arc_mask_pruning [(0, 1)] [5] 1 (some 1) 1 (by norm_num)
    (by intro t ht; cases ht; norm_num) (by decide)).1

/-! ## Lemmas for the `decode` output assembly (C5) -/

/-- A sequence of indexed writes into a list (numpy fancy assignment). -/
def setAll (out : List ℤ) (ws : List (ℕ × ℤ)) : List ℤ :=
  ws.foldl (fun acc p => acc.set p.1 p.2) out

theorem setAll_length (ws : List (ℕ × ℤ)) :
    ∀ out : List ℤ, (setAll out ws).length = out.length := by
  induction ws with
  | nil => intro out; rfl
  | cons w rest ih =>
    intro out
    show (setAll (out.set w.1 w.2) rest).length = _
    rw [ih, List.length_set]

theorem setAll_get?_untouched (ws : List (ℕ × ℤ)) (k : ℕ)
    (hk : ∀ p ∈ ws, p.1 ≠ k) :
    ∀ out : List ℤ, (setAll out ws).get? k = out.get? k := by
  induction ws with
  | nil => intro out; rfl
  | cons w rest ih =>
    intro out
    show (setAll (out.set w.1 w.2) rest).get? k = _
    rw [ih (fun p hp => hk p (List.mem_cons_of_mem w hp)),
      List.get?_set_ne _ _ (hk w (List.mem_cons_self w rest))]

theorem setAll_get?_written (ws : List (ℕ × ℤ)) (k : ℕ) (v : ℤ)
    (hnd : (ws.map Prod.fst).Nodup) (hkv : (k, v) ∈ ws) :
    ∀ out : List ℤ, k < out.length → (setAll out ws).get? k = some v := by
  induction ws with
  | nil => intro out _; simp at hkv
  | cons w rest ih =>
    intro out hlen
    show (setAll (out.set w.1 w.2) rest).get? k = some v
    rcases List.mem_cons.mp hkv with rfl | hmem
    · have hrest : ∀ p ∈ rest, p.1 ≠ k := by
        intro p hp hpk
        have hmm : p.1 ∈ rest.map Prod.fst := List.mem_map_of_mem Prod.fst hp
        rw [hpk] at hmm
        exact (List.nodup_cons.mp hnd).1 hmm
      rw [setAll_get?_untouched rest k hrest]
      exact List.get?_set_eq_of_lt v hlen
    · exact ih (List.nodup_cons.mp hnd).2 hmem (out.set w.1 w.2)
        (by rw [List.length_set]; exact hlen)

theorem getD_replicate (n k : ℕ) : (List.replicate n (0 : ℤ)).getD k 0 = 0 := by
  induction n generalizing k with
  | zero => simp
  | succ m ih =>
    cases k with
    | zero => rfl
    | succ j => exact ih j

/-- `decode` as three write batches over the zero vector. -/
theorem decode_eq_setAll (numParts numArcs numRel : ℕ)
    (posteriors : List ℤ) (additional_indices : List ℕ)
    (additional_posteriors : List ℤ) (bestLabels : List ℕ) :
    decode numParts numArcs numRel true posteriors additional_indices
        additional_posteriors bestLabels =
      setAll (setAll (setAll (List.replicate numParts (0 : ℤ)) posteriors.enum)
        (additional_indices.zip additional_posteriors))
        (labelWrites numArcs numRel posteriors bestLabels) := rfl

theorem zip_get?_some {α β : Type} (l1 : List α) (l2 : List β) (i : ℕ) (a : α) (b : β)
    (h1 : l1.get? i = some a) (h2 : l2.get? i = some b) :
    (l1.zip l2).get? i = some (a, b) := by
  rw [List.zip, List.get?_zipWith', h1, h2]
  rfl

theorem setAll_getD_untouched (ws : List (ℕ × ℤ)) (k : ℕ)
    (hk : ∀ p ∈ ws, p.1 ≠ k) (out : List ℤ) :
    (setAll out ws).getD k 0 = out.getD k 0 := by
  show ((setAll out ws).get? k).getD 0 = (out.get? k).getD 0
  rw [setAll_get?_untouched ws k hk out]

theorem setAll_getD_written (ws : List (ℕ × ℤ)) (k : ℕ) (v : ℤ)
    (hnd : (ws.map Prod.fst).Nodup) (hkv : (k, v) ∈ ws)
    (out : List ℤ) (hlen : k < out.length) :
    (setAll out ws).getD k 0 = v := by
  show ((setAll out ws).get? k).getD 0 = v
  rw [setAll_get?_written ws k v hnd hkv out hlen]
  rfl

/-- Unique decomposition of a labeled-arc slot offset. -/
theorem labeled_slot_inj (numRel i i' lab l : ℕ) (hlab : lab < numRel)
    (hl : l < numRel) (h : i' * numRel + lab = i * numRel + l) :
    i' = i ∧ lab = l := by
  have hii : i' = i := by
    rcases lt_trichotomy i' i with hlt | heq | hgt
    · exfalso
      have : (i' + 1) * numRel ≤ i * numRel := Nat.mul_le_mul_right numRel hlt
      have : i' * numRel + lab < i * numRel + l := by
        calc i' * numRel + lab < i' * numRel + numRel := by omega
        _ = (i' + 1) * numRel := by ring
        _ ≤ i * numRel := this
        _ ≤ i * numRel + l := by omega
      omega
    · exact heq
    · exfalso
      have : (i + 1) * numRel ≤ i' * numRel := Nat.mul_le_mul_right numRel hgt
      have : i * numRel + l < i' * numRel + lab := by
        calc i * numRel + l < i * numRel + numRel := by omega
        _ = (i + 1) * numRel := by ring
        _ ≤ i' * numRel := this
        _ ≤ i' * numRel + lab := by omega
      omega
  subst hii
  omega

/-- Bounds for the labeled-arc slots: a slot of arc `i < numArcs` with a label
below `numRel` lies inside the LabeledArc block. -/
theorem labeled_slot_lt (numArcs numRel i lab : ℕ) (hi : i < numArcs)
    (hlab : lab < numRel) :
    numArcs + i * numRel + lab < numArcs + numArcs * numRel := by
  have : (i + 1) * numRel ≤ numArcs * numRel := Nat.mul_le_mul_right numRel hi
  calc numArcs + i * numRel + lab < numArcs + i * numRel + numRel := by omega
  _ = numArcs + (i + 1) * numRel := by ring
  _ ≤ numArcs + numArcs * numRel := by omega

/-- Membership description of the labeled-arc write batch. -/
theorem mem_labelWrites (numArcs numRel : ℕ) (posteriors : List ℤ)
    (bestLabels : List ℕ) (p : ℕ × ℤ) :
    p ∈ labelWrites numArcs numRel posteriors bestLabels ↔
      ∃ i lab post, bestLabels.get? i = some lab ∧ posteriors.get? i = some post ∧
        p = (numArcs + i * numRel + lab, post) := by
  unfold labelWrites
  constructor
  · intro hp
    rcases List.mem_map.mp hp with ⟨q, hq, rfl⟩
    rcases q with ⟨i, lab, post⟩
    have hget : (bestLabels.zip posteriors).get? i = some (lab, post) :=
      List.mk_mem_enum_iff_get?.mp hq
    rcases List.get?_eq_some.mp hget with ⟨hilen, hgeti⟩
    have hgz : (bestLabels.zip posteriors).get ⟨i, hilen⟩ =
        (bestLabels.get ⟨i, List.lt_length_left_of_zip hilen⟩,
         posteriors.get ⟨i, List.lt_length_right_of_zip hilen⟩) := List.get_zip
    have h1 : bestLabels.get? i = some lab := by
      rw [hgz] at hgeti
      have hfst := congrArg Prod.fst hgeti
      simp at hfst
      rw [← hfst]
      apply List.get?_eq_get
    have h2 : posteriors.get? i = some post := by
      rw [hgz] at hgeti
      have hsnd := congrArg Prod.snd hgeti
      simp at hsnd
      rw [← hsnd]
      apply List.get?_eq_get
    exact ⟨i, lab, post, h1, h2, rfl⟩
  · rintro ⟨i, lab, post, h1, h2, rfl⟩
    apply List.mem_map.mpr
    refine ⟨(i, lab, post), ?_, rfl⟩
    exact List.mk_mem_enum_iff_get?.mpr (zip_get?_some bestLabels posteriors i lab post h1 h2)

/-- The labeled-arc write batch writes each slot at most once. -/
theorem labelWrites_nodup (numArcs numRel : ℕ) (posteriors : List ℤ)
    (bestLabels : List ℕ) (hlab : ∀ l ∈ bestLabels, l < numRel) :
    ((labelWrites numArcs numRel posteriors bestLabels).map Prod.fst).Nodup := by
  unfold labelWrites
  rw [List.map_map]
  apply List.Nodup.map_on
  · rintro ⟨i, lab, post⟩ hx ⟨i', lab', post'⟩ hy hfeq
    simp only [Function.comp] at hfeq
    have hgx : (bestLabels.zip posteriors).get? i = some (lab, post) :=
      List.mk_mem_enum_iff_get?.mp hx
    have hgy : (bestLabels.zip posteriors).get? i' = some (lab', post') :=
      List.mk_mem_enum_iff_get?.mp hy
    have hlabx : lab < numRel := by
      apply hlab
      exact (List.of_mem_zip (List.get?_mem hgx)).1
    have hlaby : lab' < numRel := by
      apply hlab
      exact (List.of_mem_zip (List.get?_mem hgy)).1
    have heq : i * numRel + lab = i' * numRel + lab' := by omega
    rcases labeled_slot_inj numRel i' i lab lab' hlabx hlaby heq with ⟨rfl, rfl⟩
    rw [hgx] at hgy
    cases hgy
    rfl
  · apply List.Nodup.of_map Prod.fst
    rw [List.enum_map_fst]
    exact List.nodup_range _

/-- C5: the assembled labeled-decode output vector has the part-vocabulary
length; the Arc slice holds the solver's arc posteriors; extra posterior `j`
sits at `index_map[j]`; each arc's posterior is propagated to exactly its
best label's LabeledArc slot, the other label slots of that arc being 0; and
every slot not covered by the arcs, the index map, or best-label propagation
is exactly 0. -/
theorem C5_decode_output_assembly (numParts numArcs numRel : ℕ)
    (posteriors : List ℤ) (additional_indices : List ℕ)
    (additional_posteriors : List ℤ) (bestLabels : List ℕ)
    (hp : posteriors.length = numArcs)
    (hbl : bestLabels.length = numArcs)
    (hlab : ∀ l ∈ bestLabels, l < numRel)
    (hparts : numArcs + numArcs * numRel ≤ numParts)
    (hextra : ∀ idx ∈ additional_indices,
      numArcs + numArcs * numRel ≤ idx ∧ idx < numParts)
    (hnodup : additional_indices.Nodup)
    (hzlen : additional_indices.length = additional_posteriors.length) :
    (decode numParts numArcs numRel true posteriors additional_indices
        additional_posteriors bestLabels).length = numParts ∧
    (∀ i : ℕ, i < numArcs →
      (decode numParts numArcs numRel true posteriors additional_indices
        additional_posteriors bestLabels).getD i 0 = posteriors.getD i 0) ∧
    (∀ j : ℕ, j < additional_indices.length →
      (decode numParts numArcs numRel true posteriors additional_indices
        additional_posteriors bestLabels).getD (additional_indices.getD j 0) 0 =
        additional_posteriors.getD j 0) ∧
    (∀ i : ℕ, i < numArcs →
      (decode numParts numArcs numRel true posteriors additional_indices
        additional_posteriors bestLabels).getD
          (numArcs + i * numRel + bestLabels.getD i 0) 0 = posteriors.getD i 0) ∧
    (∀ i l : ℕ, i < numArcs → l < numRel → l ≠ bestLabels.getD i 0 →
      (decode numParts numArcs numRel true posteriors additional_indices
        additional_posteriors bestLabels).getD (numArcs + i * numRel + l) 0 = 0) ∧
    (∀ k : ℕ, numArcs + numArcs * numRel ≤ k → k ∉ additional_indices →
      (decode numParts numArcs numRel true posteriors additional_indices
        additional_posteriors bestLabels).getD k 0 = 0) := by
  have hLWnd := labelWrites_nodup numArcs numRel posteriors bestLabels hlab
  have hLWb : ∀ p ∈ labelWrites numArcs numRel posteriors bestLabels,
      numArcs ≤ p.1 ∧ p.1 < numArcs + numArcs * numRel := by
    intro p hp'
    rcases (mem_labelWrites numArcs numRel posteriors bestLabels p).mp hp' with
      ⟨i, lab, post, h1, h2, rfl⟩
    have hi : i < numArcs := by
      have := List.get?_eq_some.mp h2
      rcases this with ⟨hl, _⟩
      omega
    have hlab' : lab < numRel := hlab lab (List.get?_mem h1)
    exact ⟨by omega, labeled_slot_lt numArcs numRel i lab hi hlab'⟩
  have hW2b : ∀ p ∈ additional_indices.zip additional_posteriors,
      numArcs + numArcs * numRel ≤ p.1 ∧ p.1 < numParts := by
    intro p hp'
    exact hextra p.1 (List.of_mem_zip hp').1
  have hW2nd : ((additional_indices.zip additional_posteriors).map Prod.fst).Nodup := by
    rw [List.map_fst_zip additional_indices additional_posteriors (le_of_eq hzlen)]
    exact hnodup
  have hW1b : ∀ p ∈ posteriors.enum, p.1 < numArcs := by
    intro p hp'
    rcases p with ⟨i, x⟩
    have := List.mk_mem_enum_iff_get?.mp hp'
    rcases List.get?_eq_some.mp this with ⟨hl, _⟩
    omega
  have hW1nd : (posteriors.enum.map Prod.fst).Nodup := by
    rw [List.enum_map_fst]
    exact List.nodup_range _
  have hlen0 : (setAll (setAll (List.replicate numParts (0 : ℤ)) posteriors.enum)
      (additional_indices.zip additional_posteriors)).length = numParts := by
    rw [setAll_length, setAll_length, List.length_replicate]
  have hlen1 : (setAll (List.replicate numParts (0 : ℤ)) posteriors.enum).length
      = numParts := by
    rw [setAll_length, List.length_replicate]
  refine ⟨?_, ?_, ?_, ?_, ?_, ?_⟩
  · rw [decode_eq_setAll, setAll_length, hlen0]
  · intro i hi
    rw [decode_eq_setAll]
    rw [setAll_getD_untouched _ i
      (fun p hp' hpk => by have := (hLWb p hp').1; omega)]
    rw [setAll_getD_untouched _ i
      (fun p hp' hpk => by have := (hW2b p hp').1; omega)]
    apply setAll_getD_written _ i _ hW1nd
    · apply List.mk_mem_enum_iff_get?.mpr
      have hi' : i < posteriors.length := by omega
      rw [List.get?_eq_get hi', List.getD_eq_get posteriors 0 hi']
    · rw [List.length_replicate]; omega
  · intro j hj
    rw [decode_eq_setAll]
    have hj' : j < additional_posteriors.length := by omega
    have hgi : additional_indices.get? j = some (additional_indices.getD j 0) := by
      rw [List.get?_eq_get hj, List.getD_eq_get additional_indices 0 hj]
    have hgp : additional_posteriors.get? j =
        some (additional_posteriors.getD j 0) := by
      rw [List.get?_eq_get hj', List.getD_eq_get additional_posteriors 0 hj']
    have hidx := hextra (additional_indices.getD j 0) (List.get?_mem hgi)
    rw [setAll_getD_untouched _ _
      (fun p hp' hpk => by have := (hLWb p hp').2; omega)]
    apply setAll_getD_written _ _ _ hW2nd
    · exact List.get?_mem (zip_get?_some additional_indices additional_posteriors j _ _ hgi hgp)
    · rw [hlen1]; omega
  · intro i hi
    rw [decode_eq_setAll]
    have hi' : i < bestLabels.length := by omega
    have hip : i < posteriors.length := by omega
    have hg1 : bestLabels.get? i = some (bestLabels.getD i 0) := by
      rw [List.get?_eq_get hi', List.getD_eq_get bestLabels 0 hi']
    have hg2 : posteriors.get? i = some (posteriors.getD i 0) := by
      rw [List.get?_eq_get hip, List.getD_eq_get posteriors 0 hip]
    have hlabi : bestLabels.getD i 0 < numRel := hlab _ (List.get?_mem hg1)
    apply setAll_getD_written _ _ _ hLWnd
    · apply (mem_labelWrites numArcs numRel posteriors bestLabels _).mpr
      exact ⟨i, _, _, hg1, hg2, rfl⟩
    · rw [hlen0]
      have := labeled_slot_lt numArcs numRel i (bestLabels.getD i 0) hi hlabi
      omega
  · intro i l hi hl hlne
    rw [decode_eq_setAll]
    rw [setAll_getD_untouched]
    · rw [setAll_getD_untouched _ _
        (fun p hp' hpk => by
          have := (hW2b p hp').1
          have := labeled_slot_lt numArcs numRel i l hi hl
          omega)]
      rw [setAll_getD_untouched _ _
        (fun p hp' hpk => by have := hW1b p hp'; omega)]
      exact getD_replicate numParts _
    · intro p hp' hpk
      rcases (mem_labelWrites numArcs numRel posteriors bestLabels p).mp hp' with
        ⟨i', lab', post', h1, h2, rfl⟩
      simp only at hpk
      have hlab' : lab' < numRel := hlab lab' (List.get?_mem h1)
      have heq : i' * numRel + lab' = i * numRel + l := by omega
      rcases labeled_slot_inj numRel i i' lab' l hlab' hl heq with ⟨rfl, rfl⟩
      have : bestLabels.getD i' 0 = lab' := by
        rcases List.get?_eq_some.mp h1 with ⟨hb, hg⟩
        rw [List.getD_eq_get bestLabels 0 hb, hg]
      omega
  · intro k hk hkmem
    rw [decode_eq_setAll]
    rw [setAll_getD_untouched _ _
      (fun p hp' hpk => by have := (hLWb p hp').2; omega)]
    rw [setAll_getD_untouched _ _
      (fun p hp' hpk => by
        have := List.of_mem_zip hp'
        exact hkmem (hpk ▸ this.1))]
    rw [setAll_getD_untouched _ _
      (fun p hp' hpk => by have := hW1b p hp'; omega)]
    exact getD_replicate numParts k

/-- Witness for C5 at a concrete labeled instance: 2 arcs, 2 relations,
2 extra parts, part-vocabulary length 8. -/
theorem C5_decode_output_assembly_witness :
    (decode 8 2 2 true [10, 20] [6, 7] [100, 200] [1, 0]).length = 8 :=
  (C5_decode_output_assembly 8 2 2 [10, 20] [6, 7] [100, 200] [1, 0]
    (by decide) (by decide) (by decide) (by decide) (by decide) (by decide)
    (by decide)).1

/-! ## Characterisation of `chu_liu_edmonds_one_root` (C2) -/

/-- The tree produced for a forced root candidate (line 766). -/
def oneRootCandidate (n : ℕ) (M : Fin n → Fin n → S) (root : Fin n) : Fin n → Fin n :=
  chu_liu_edmonds n (set_root n (clePrep n M) root).1

/-- `tree_log_probs` of a forced root candidate (line 769), read from the
matrix as mutated by the nested `chu_liu_edmonds` call. -/
def oneRootProbs (n : ℕ) (M : Fin n → Fin n → S) (root : Fin n) : Fin n → S :=
  fun m => clePrep n (set_root n (clePrep n M) root).1 m (oneRootCandidate n M root m)

/-- Feasibility of a forced root candidate:
`(tree_log_probs > -np.inf).all()` (line 771). -/
def oneRootFeasible (n : ℕ) (M : Fin n → Fin n → S) (root : Fin n) : Bool :=
  (List.finRange n).all (fun m => decide (⊥ < oneRootProbs n M root m))

/-- `tree_score` of a forced root candidate (line 772): the sum of its
selected edge scores plus the forced root's original root-attachment score. -/
def oneRootScore (n : ℕ) (M : Fin n → Fin n → S) (root : Fin n) : S :=
  ((List.finRange n).map (oneRootProbs n M root)).sum + (set_root n (clePrep n M) root).2

theorem oneRootStep_eq (n : ℕ) (M : Fin n → Fin n → S)
    (best : S × Option (Fin n → Fin n)) (root : Fin n) :
    oneRootStep n (clePrep n M) best root =
      if oneRootFeasible n M root = true then
        (if best.1 < oneRootScore n M root then
          (oneRootScore n M root, some (oneRootCandidate n M root))
        else best)
      else best := rfl

/-- Invariant of the root-candidate loop: the running best is `none` only
while every feasible processed candidate scored `-inf`; otherwise it is a
feasible processed candidate of positive score dominating all feasible
processed candidates. -/
def OneRootInv (n : ℕ) (M : Fin n → Fin n → S) (processed : List (Fin n))
    (b : S × Option (Fin n → Fin n)) : Prop :=
  (b.2 = none → b.1 = ⊥ ∧ ∀ r ∈ processed, oneRootFeasible n M r = true →
    oneRootScore n M r = ⊥) ∧
  (∀ t, b.2 = some t → ∃ r ∈ processed, oneRootFeasible n M r = true ∧
    b.1 = oneRootScore n M r ∧ ⊥ < b.1 ∧ t = oneRootCandidate n M r ∧
    ∀ r' ∈ processed, oneRootFeasible n M r' = true → oneRootScore n M r' ≤ b.1)

theorem oneRootFold_spec (n : ℕ) (M : Fin n → Fin n → S) :
    ∀ (roots : List (Fin n)) (processed : List (Fin n))
      (b : S × Option (Fin n → Fin n)),
      OneRootInv n M processed b →
      OneRootInv n M (processed ++ roots)
        (roots.foldl (oneRootStep n (clePrep n M)) b) := by
  intro roots
  induction roots with
  | nil => intro processed b hb; simpa using hb
  | cons r rest ih =>
    intro processed b hb
    have hstep : OneRootInv n M (processed ++ [r])
        (oneRootStep n (clePrep n M) b r) := by
      rw [oneRootStep_eq]
      by_cases hfeas : oneRootFeasible n M r = true
      · rw [if_pos hfeas]
        by_cases hlt : b.1 < oneRootScore n M r
        · rw [if_pos hlt]
          constructor
          · intro hc; simp at hc
          · intro t ht
            simp only [Option.some_inj] at ht
            refine ⟨r, List.mem_append_right processed (List.mem_singleton_self r),
              hfeas, rfl, lt_of_le_of_lt bot_le hlt, ht.symm, ?_⟩
            intro r' hr' hf'
            rcases List.mem_append.mp hr' with hr'' | hr''
            · rcases hb with ⟨hnone, hsome⟩
              rcases hbo : b.2 with _ | t0
              · have := (hnone hbo).2 r' hr'' hf'
                rw [this]; exact bot_le
              · rcases hsome t0 hbo with ⟨_, _, _, _, _, _, hmax⟩
                exact le_trans (hmax r' hr'' hf') (le_of_lt hlt)
            · rcases List.mem_singleton.mp hr'' with rfl
              exact le_rfl
        · rw [if_neg hlt]
          constructor
          · intro hbo
            rcases hb with ⟨hnone, _⟩
            rcases hnone hbo with ⟨hbot, hall⟩
            refine ⟨hbot, ?_⟩
            intro r' hr' hf'
            rcases List.mem_append.mp hr' with hr'' | hr''
            · exact hall r' hr'' hf'
            · rcases List.mem_singleton.mp hr'' with rfl
              rw [hbot] at hlt
              exact WithBot.le_bot_iff.mp (le_of_not_lt hlt)
          · intro t ht
            rcases hb with ⟨_, hsome⟩
            rcases hsome t ht with ⟨r0, hr0, hf0, hs0, hpos0, ht0, hmax0⟩
            refine ⟨r0, List.mem_append_left _ hr0, hf0, hs0, hpos0, ht0, ?_⟩
            intro r' hr' hf'
            rcases List.mem_append.mp hr' with hr'' | hr''
            · exact hmax0 r' hr'' hf'
            · rcases List.mem_singleton.mp hr'' with rfl
              exact le_of_not_lt hlt
      · rw [if_neg hfeas]
        constructor
        · intro hbo
          rcases hb with ⟨hnone, _⟩
          rcases hnone hbo with ⟨hbot, hall⟩
          refine ⟨hbot, ?_⟩
          intro r' hr' hf'
          rcases List.mem_append.mp hr' with hr'' | hr''
          · exact hall r' hr'' hf'
          · rcases List.mem_singleton.mp hr'' with rfl
            exact absurd hf' hfeas
        · intro t ht
          rcases hb with ⟨_, hsome⟩
          rcases hsome t ht with ⟨r0, hr0, hf0, hs0, hpos0, ht0, hmax0⟩
          refine ⟨r0, List.mem_append_left _ hr0, hf0, hs0, hpos0, ht0, ?_⟩
          intro r' hr' hf'
          rcases List.mem_append.mp hr' with hr'' | hr''
          · exact hmax0 r' hr'' hf'
          · rcases List.mem_singleton.mp hr'' with rfl
            exact absurd hf' hfeas
    have := ih (processed ++ [r]) (oneRootStep n (clePrep n M) b r) hstep
    simpa [List.append_assoc] using this

/-- Concrete 3-token matrix: token 1 has no finite head score at all (its row
is all `-inf`), token 2 prefers the root; both tokens attach to the root in
the base tree. -/
def C2cexM : Fin 3 → Fin 3 → S :=
  fun m h =>
    if m = 1 then ⊥
    else (![![0, 0, 0], ![0, 0, 0], ![5, 3, 0]] : Fin 3 → Fin 3 → ℤ) m h

/-- C2 counterexample: on `C2cexM` the base tree has two root attachments, the
forced-root candidate for token 1 yields a feasible tree (its re-decoded tree
has no `-inf` edge), yet `chu_liu_edmonds_one_root` hits the failing assert
(returns no value): the feasible candidate's total score is `-inf` because the
forced root's original root-attachment score is `-inf`, and `-inf > -inf` is
false, so `best_tree` is never set.  The claim as stated says a feasible
candidate is returned. -/
theorem C2_counterexample_feasible_but_raises :
    (rootsToTry 3 (chu_liu_edmonds 3 C2cexM)).length = 2 ∧
    oneRootFeasible 3 C2cexM 1 = true ∧
    (chu_liu_edmonds_one_root 3 C2cexM).isNone = true :=
  ⟨by decide, by decide, by decide⟩

/-- C2 (amended): `chu_liu_edmonds_one_root` returns the base tree unchanged
when exactly one token has head 0; otherwise, for each token attached to 0 it
forbids all other tokens from attaching to 0 (`set_root`, whose behaviour is
stated exactly below), re-runs the base algorithm, discards trees containing
a `-inf` edge, and returns the candidate maximizing the sum of selected edge
scores plus the forced root's original root-attachment score — provided that
maximum is itself above `-inf`; it raises (returns no value) when no
candidate is both feasible and of finite total score. -/
theorem C2_one_root_selection (n : ℕ) (M : Fin n → Fin n → S) :
    ((rootsToTry n (chu_liu_edmonds n M)).length = 1 →
      chu_liu_edmonds_one_root n M = some (chu_liu_edmonds n M)) ∧
    ((rootsToTry n (chu_liu_edmonds n M)).length ≠ 1 →
      ∀ t, chu_liu_edmonds_one_root n M = some t →
      ∃ r ∈ rootsToTry n (chu_liu_edmonds n M),
        oneRootFeasible n M r = true ∧ ⊥ < oneRootScore n M r ∧
        t = oneRootCandidate n M r ∧
        ∀ r' ∈ rootsToTry n (chu_liu_edmonds n M),
          oneRootFeasible n M r' = true →
            oneRootScore n M r' ≤ oneRootScore n M r) ∧
    (chu_liu_edmonds_one_root n M = none →
      ∀ r ∈ rootsToTry n (chu_liu_edmonds n M),
        oneRootFeasible n M r = true → oneRootScore n M r = ⊥) ∧
    (∀ (scores : Fin n → Fin n → S) (root : Fin n) (m h : Fin n),
      (set_root n scores root).1 m h =
        (if m = root then (if h.val = 0 then ((0 : ℤ) : S) else ⊥)
         else if 1 ≤ m.val ∧ h.val = 0 then ⊥ else scores m h) ∧
      (set_root n scores root).2 = scores root ⟨0, root.pos⟩) := by
  have hinv0 : OneRootInv n M [] (⊥, none) := by
    constructor
    · intro _
      exact ⟨rfl, by simp⟩
    · intro t ht
      simp at ht
  have hinv := oneRootFold_spec n M (rootsToTry n (chu_liu_edmonds n M)) [] (⊥, none) hinv0
  have hunf : (rootsToTry n (chu_liu_edmonds n M)).length ≠ 1 →
      chu_liu_edmonds_one_root n M =
        ((rootsToTry n (chu_liu_edmonds n M)).foldl
          (oneRootStep n (clePrep n M)) (⊥, none)).2 := by
    intro hne
    show (if (rootsToTry n (chu_liu_edmonds n M)).length = 1
        then some (chu_liu_edmonds n M)
        else ((rootsToTry n (chu_liu_edmonds n M)).foldl
          (oneRootStep n (clePrep n M)) (⊥, none)).2) = _
    rw [if_neg hne]
  refine ⟨?_, ?_, ?_, ?_⟩
  · intro h1
    show (if (rootsToTry n (chu_liu_edmonds n M)).length = 1
        then some (chu_liu_edmonds n M)
        else ((rootsToTry n (chu_liu_edmonds n M)).foldl
          (oneRootStep n (clePrep n M)) (⊥, none)).2) = _
    rw [if_pos h1]
  · intro hlen t ht
    rw [hunf hlen] at ht
    have hinv' : OneRootInv n M (rootsToTry n (chu_liu_edmonds n M))
        ((rootsToTry n (chu_liu_edmonds n M)).foldl
          (oneRootStep n (clePrep n M)) (⊥, none)) := by
      simpa using hinv
    rcases hinv'.2 t ht with ⟨r, hr, hf, hs, hpos, htc, hmax⟩
    exact ⟨r, hr, hf, hs ▸ hpos, htc, fun r' hr' hf' => hs ▸ hmax r' hr' hf'⟩
  · intro hnone
    by_cases hlen : (rootsToTry n (chu_liu_edmonds n M)).length = 1
    · intro r hr hf
      exfalso
      have := hunf
      have hsome : chu_liu_edmonds n M = chu_liu_edmonds n M := rfl
      have : chu_liu_edmonds_one_root n M = some (chu_liu_edmonds n M) := by
        show (if (rootsToTry n (chu_liu_edmonds n M)).length = 1
            then some (chu_liu_edmonds n M)
            else ((rootsToTry n (chu_liu_edmonds n M)).foldl
              (oneRootStep n (clePrep n M)) (⊥, none)).2) = _
        rw [if_pos hlen]
      rw [this] at hnone
      simp at hnone
    · rw [hunf hlen] at hnone
      intro r hr hf
      have hinv' : OneRootInv n M (rootsToTry n (chu_liu_edmonds n M))
          ((rootsToTry n (chu_liu_edmonds n M)).foldl
            (oneRootStep n (clePrep n M)) (⊥, none)) := by
        simpa using hinv
      exact (hinv'.1 hnone).2 r hr hf
  · intro scores root m h
    constructor
    · show (if m = root ∧ h.val = 0 then ((0 : ℤ) : S)
        else if m = root then ⊥
        else if 1 ≤ m.val ∧ h.val = 0 then ⊥ else scores m h) = _
      by_cases hm : m = root
      · by_cases hh : h.val = 0
        · simp [hm, hh]
        · simp [hm, hh]
      · have : ¬ (m = root ∧ h.val = 0) := fun hc => hm hc.1
        simp [this, hm]
    · rfl

/-- A 3-token matrix whose base tree already has a unique root attachment. -/
def C2uniqueM : Fin 3 → Fin 3 → S :=
  fun m h => (![![0, 0, 0], ![7, 0, 3], ![1, 5, 0]] : Fin 3 → Fin 3 → ℤ) m h

/-- Witness for C2 at a concrete matrix with a unique base root: the
single-root variant returns the base tree unchanged. -/
theorem C2_one_root_selection_witness :
    chu_liu_edmonds_one_root 3 C2uniqueM = some (chu_liu_edmonds 3 C2uniqueM) :=
  (C2_one_root_selection 3 C2uniqueM).1 (by decide)

/-- Every tree `chu_liu_edmonds_one_root` can return also reports the root as
its own head (it is either the base tree or a forced-root re-decode). -/
theorem chu_liu_edmonds_one_root_zero (N : ℕ) (M : Fin (N + 1) → Fin (N + 1) → S)
    (t : Fin (N + 1) → Fin (N + 1)) (h : chu_liu_edmonds_one_root (N + 1) M = some t) :
    t 0 = 0 := by
  unfold chu_liu_edmonds_one_root at h
  by_cases hlen : (rootsToTry (N + 1) (chu_liu_edmonds (N + 1) M)).length = 1
  · rw [if_pos hlen] at h
    have ht : t = chu_liu_edmonds (N + 1) M := (Option.some_inj.mp h).symm
    rw [ht]
    exact chu_liu_edmonds_zero N M
  · rw [if_neg hlen] at h
    have hbase : OneRootInv (N + 1) M [] ((⊥ : S), (none : Option (Fin (N + 1) → Fin (N + 1)))) := by
      constructor
      · intro _
        exact ⟨rfl, fun r hr => absurd hr (List.not_mem_nil r)⟩
      · intro t' ht'
        simp at ht'
    have hinv := oneRootFold_spec (N + 1) M
      (rootsToTry (N + 1) (chu_liu_edmonds (N + 1) M)) [] _ hbase
    rcases hinv.2 t h with ⟨r, _, _, _, _, ht, _⟩
    rw [ht]
    exact cleAux_zero (N + 1) N le_rfl _ 0 rfl

def W10M : Fin 2 → Fin 2 → S :=
  fun m h => ((![![0, 0], ![5, 1]] : Fin 2 → Fin 2 → ℤ) m h : S)

/-- C10: for every score matrix with `n = N + 1 ≥ 1` tokens, the head array
returned by `chu_liu_edmonds` has entry 0 equal to 0 (the root token is
reported as its own head, not `-1`), every entry is an index in `[0, n)`, and
any tree returned by `chu_liu_edmonds_one_root` satisfies the same; callers
strip position 0 to obtain the per-token heads. -/
theorem C10_root_self_head (N : ℕ) (M : Fin (N + 1) → Fin (N + 1) → S) :
    chu_liu_edmonds (N + 1) M 0 = 0 ∧
    (∀ m, (chu_liu_edmonds (N + 1) M m).val < N + 1) ∧
    (∀ t, chu_liu_edmonds_one_root (N + 1) M = some t →
      t 0 = 0 ∧ ∀ m, (t m).val < N + 1) :=
  ⟨chu_liu_edmonds_zero N M,
   fun m => (chu_liu_edmonds (N + 1) M m).isLt,
   fun t ht => ⟨chu_liu_edmonds_one_root_zero N M t ht, fun m => (t m).isLt⟩⟩

theorem C10_root_self_head_witness :
    (chu_liu_edmonds_one_root 2 W10M).map (fun f => (f 0).val) = some 0 := by
  obtain ⟨t, ht⟩ : ∃ t, chu_liu_edmonds_one_root 2 W10M = some t := ⟨_, rfl⟩
  rw [ht, Option.map_some']
  have h := (C10_root_self_head 1 W10M).2.2 t ht
  rw [h.1]
  rfl

/-! ## Tarjan soundness and completeness (C1) -/

/-- Powers of the cycle length fix the anchor. -/
theorem orb_pow (n : ℕ) (heads : Fin n → Fin n) (a : Fin n) (p : ℕ)
    (hcyc : heads^[p] a = a) : ∀ m, heads^[p * m] a = a := by
  intro m
  induction m with
  | zero => simp
  | succ m ih => rw [Nat.mul_succ, Function.iterate_add_apply, hcyc, ih]

/-- Iterates of an anchor reduce modulo the cycle length. -/
theorem orb_mod (n : ℕ) (heads : Fin n → Fin n) (a : Fin n) (p : ℕ) (hp : 1 ≤ p)
    (hcyc : heads^[p] a = a) : ∀ t, heads^[t] a = heads^[t % p] a := by
  intro t
  conv_lhs => rw [show t = t % p + p * (t / p) from (Nat.mod_add_div t p).symm]
  rw [Function.iterate_add_apply, orb_pow n heads a p hcyc]

/-- On a minimal cycle, iterates below the period are pairwise distinct. -/
theorem orb_inj (n : ℕ) (heads : Fin n → Fin n) (a : Fin n) (p : ℕ)
    (hcyc : heads^[p] a = a) (hmin : ∀ q, 1 ≤ q → q < p → heads^[q] a ≠ a) :
    ∀ s t, s < p → t < p → heads^[s] a = heads^[t] a → s = t := by
  have key : ∀ s t, s < t → t < p → heads^[s] a = heads^[t] a → False := by
    intro s t hst htp heq
    have h1 : heads^[p - t + s] a = a := by
      have h2 : heads^[p - t] (heads^[s] a) = heads^[p - t] (heads^[t] a) := by rw [heq]
      rw [← Function.iterate_add_apply, ← Function.iterate_add_apply,
        show p - t + t = p by omega, hcyc] at h2
      exact h2
    exact hmin (p - t + s) (by omega) (by omega) h1
  intro s t hs ht heq
  rcases Nat.lt_trichotomy s t with h | h | h
  · exact absurd heq (fun he => key s t h ht he)
  · exact h
  · exact absurd heq.symm (fun he => key t s h hs he)

/-- Iterate equality on a minimal cycle is congruence modulo the period. -/
theorem orb_eq_iff (n : ℕ) (heads : Fin n → Fin n) (a : Fin n) (p : ℕ) (hp : 1 ≤ p)
    (hcyc : heads^[p] a = a) (hmin : ∀ q, 1 ≤ q → q < p → heads^[q] a ≠ a)
    (s t : ℕ) : heads^[s] a = heads^[t] a ↔ s % p = t % p := by
  constructor
  · intro h
    rw [orb_mod n heads a p hp hcyc s, orb_mod n heads a p hp hcyc t] at h
    exact orb_inj n heads a p hcyc hmin (s % p) (t % p)
      (Nat.mod_lt s (by omega)) (Nat.mod_lt t (by omega)) h
  · intro h
    rw [orb_mod n heads a p hp hcyc s, orb_mod n heads a p hp hcyc t, h]

/-- Membership of the (minimal) cycle of an anchor. -/
def MemOrbit (n : ℕ) (heads : Fin n → Fin n) (a : Fin n) (p : ℕ) (u : Fin n) : Prop :=
  ∃ t, t < p ∧ heads^[t] a = u

/-- Everything reachable from a cycle node stays on the cycle. -/
theorem orbit_reach_closed (n : ℕ) (heads : Fin n → Fin n) (a : Fin n) (p : ℕ)
    (hp : 1 ≤ p) (hcyc : heads^[p] a = a) (u w : Fin n)
    (hu : MemOrbit n heads a p u) (hr : Reaches n heads u w) :
    MemOrbit n heads a p w := by
  obtain ⟨t, htp, ht⟩ := hu
  obtain ⟨k, hk⟩ := hr
  refine ⟨(k + t) % p, Nat.mod_lt _ (by omega), ?_⟩
  rw [← orb_mod n heads a p hp hcyc, Function.iterate_add_apply, ht, hk]

/-- A node of its own cycle is mutually reachable with everything it reaches. -/
theorem oncycle_reach_symm (n : ℕ) (heads : Fin n → Fin n) (u w : Fin n)
    (hc : OnCycleF n heads u) (hr : Reaches n heads u w) :
    Reaches n heads w u := by
  obtain ⟨q, hq1, hq⟩ := hc
  obtain ⟨k, hk⟩ := hr
  refine ⟨q * (k + 1) - k, ?_⟩
  rw [← hk, ← Function.iterate_add_apply,
    show q * (k + 1) - k + k = q * (k + 1) by
      have : k ≤ q * (k + 1) := by nlinarith
      omega]
  exact orb_pow n heads u q hq (k + 1)

/-- Reachability with the anchor avoided strictly before arrival: the region a
nested orbit call still has to explore. -/
def RAvoid (n : ℕ) (heads : Fin n → Fin n) (u i a : Fin n) : Prop :=
  ∃ k, heads^[k] u = i ∧ ∀ k', k' < k → heads^[k'] u ≠ a

theorem ravoid_self (n : ℕ) (heads : Fin n → Fin n) (i a : Fin n) :
    RAvoid n heads i i a := ⟨0, rfl, fun k' hk' => absurd hk' (Nat.not_lt_zero k')⟩

theorem ravoid_reaches (n : ℕ) (heads : Fin n → Fin n) (u i a : Fin n)
    (h : RAvoid n heads u i a) : Reaches n heads u i := by
  obtain ⟨k, hk, _⟩ := h
  exact ⟨k, hk⟩

/-- Stepping one arc along the cycle extends an avoiding reach: used to lift
the nested call's exploration region to the caller's. -/
theorem ravoid_step_orbit (n : ℕ) (heads : Fin n → Fin n) (a : Fin n) (p : ℕ)
    (hcyc : heads^[p] a = a) (hmin : ∀ q, 1 ≤ q → q < p → heads^[q] a ≠ a)
    (u : Fin n) (d : ℕ) (hd : 2 ≤ d) (hdp : d ≤ p)
    (h : RAvoid n heads u (heads^[d - 1] a) a) :
    RAvoid n heads u (heads^[d] a) a := by
  obtain ⟨k, hk, havoid⟩ := h
  refine ⟨k + 1, ?_, ?_⟩
  · rw [Function.iterate_succ_apply', hk,
      ← Function.iterate_succ_apply' heads (d - 1) a, show (d - 1).succ = d by omega]
  · intro k' hk'
    rcases Nat.lt_or_ge k' k with h' | h'
    · exact havoid k' h'
    · have hke : k' = k := by omega
      subst hke
      rw [hk]
      intro hca
      have h0 : heads^[d - 1] a = heads^[0] a := by simpa using hca
      have := orb_inj n heads a p hcyc hmin (d - 1) 0 (by omega) (by omega) h0
      omega

/-- A chain into a non-cycle dependent of an arc node avoids the anchor:
every node strictly before the dependent is off the cycle. -/
theorem reach_tree_ravoid (n : ℕ) (heads : Fin n → Fin n) (a : Fin n) (p : ℕ)
    (hp : 1 ≤ p) (hcyc : heads^[p] a = a)
    (u j : Fin n) (d : ℕ) (hd : 1 ≤ d) (hdp : d ≤ p)
    (hjn : ¬ MemOrbit n heads a p j) (hji : heads j = heads^[d] a)
    (hr : Reaches n heads u j) :
    RAvoid n heads u (heads^[d] a) a := by
  obtain ⟨k, hk⟩ := hr
  refine ⟨k + 1, by rw [Function.iterate_succ_apply', hk, hji], ?_⟩
  intro k' hk' hca
  have hle : k' ≤ k := by omega
  have hreach : Reaches n heads (heads^[k'] u) j :=
    ⟨k - k', by rw [← Function.iterate_add_apply, show k - k' + k' = k by omega, hk]⟩
  rw [hca] at hreach
  exact hjn (orbit_reach_closed n heads a p hp hcyc a j ⟨0, by omega, rfl⟩ hreach)

/-- The key separation fact: a node that reaches a non-cycle dependent of the
arc node `heads^[d] a` cannot reach an earlier arc node `heads^[e] a`
(`1 ≤ e < d`) while avoiding the anchor - its chain wraps past the anchor
first. -/
theorem tree_basin_not_ravoid (n : ℕ) (heads : Fin n → Fin n) (a : Fin n) (p : ℕ)
    (hp2 : 2 ≤ p) (hcyc : heads^[p] a = a)
    (hmin : ∀ q, 1 ≤ q → q < p → heads^[q] a ≠ a)
    (u j : Fin n) (d e : ℕ) (hd : 1 ≤ d) (hdp : d ≤ p) (he : 1 ≤ e) (hed : e < d)
    (hjn : ¬ MemOrbit n heads a p j) (hji : heads j = heads^[d] a)
    (hr : Reaches n heads u j) :
    ¬ RAvoid n heads u (heads^[e] a) a := by
  intro hra
  obtain ⟨k₁, hk₁⟩ := hr
  obtain ⟨k, hk, havoid⟩ := hra
  -- the avoiding witness lands after the chain has entered the cycle
  have hk_gt : k₁ + 1 ≤ k := by
    by_contra hlt
    have hle : k ≤ k₁ := by omega
    have hreach : Reaches n heads (heads^[k] u) j :=
      ⟨k₁ - k, by rw [← Function.iterate_add_apply, show k₁ - k + k = k₁ by omega, hk₁]⟩
    rw [hk] at hreach
    exact hjn (orbit_reach_closed n heads a p (by omega) hcyc (heads^[e] a) j
      ⟨e % p, Nat.mod_lt _ (by omega), (orb_mod n heads a p (by omega) hcyc e).symm⟩ hreach)
  set t := k - (k₁ + 1) with ht
  have hchain : ∀ r, heads^[k₁ + 1 + r] u = heads^[d + r] a := by
    intro r
    have h1 : heads^[k₁ + 1] u = heads^[d] a := by
      rw [Function.iterate_succ_apply', hk₁, hji]
    rw [show k₁ + 1 + r = r + (k₁ + 1) by omega, Function.iterate_add_apply, h1,
      ← Function.iterate_add_apply, Nat.add_comm r d]
  have hkt : heads^[d + t] a = heads^[e] a := by
    rw [← hchain t, show k₁ + 1 + t = k by omega, hk]
  have hmod : (d + t) % p = e % p :=
    (orb_eq_iff n heads a p (by omega) hcyc hmin (d + t) e).mp hkt
  have hemod : e % p = e := Nat.mod_eq_of_lt (by omega)
  -- the smallest solution of (d + t) ≡ e (mod p) is t = p + e - d
  have ht_ge : p + e - d ≤ t := by
    by_contra hlt
    have h1 : d + t < p + e := by omega
    rcases Nat.lt_or_ge (d + t) p with h2 | h2
    · have : (d + t) % p = d + t := Nat.mod_eq_of_lt h2
      omega
    · have h3 : (d + t) % p = d + t - p := by
        rw [Nat.mod_eq_sub_mod h2, Nat.mod_eq_of_lt (by omega)]
      omega
  -- the anchor occurs earlier on the same chain
  have hafirst : heads^[k₁ + 1 + (p - d)] u = a := by
    rw [hchain (p - d), show d + (p - d) = p by omega, hcyc]
  exact havoid (k₁ + 1 + (p - d)) (by omega) hafirst

/-- Reachability from a cycle node keeps the cycle property. -/
theorem oncycle_reach (n : ℕ) (heads : Fin n → Fin n) (u w : Fin n)
    (hc : OnCycleF n heads u) (hr : Reaches n heads u w) :
    OnCycleF n heads w := by
  obtain ⟨k2, hk2⟩ := oncycle_reach_symm n heads u w hc hr
  obtain ⟨k1, hk1⟩ := hr
  rcases Nat.eq_zero_or_pos (k1 + k2) with h0 | hpos
  · have hk10 : k1 = 0 := by omega
    rw [hk10] at hk1
    rw [← hk1]
    exact hc
  · refine ⟨k1 + k2, by omega, ?_⟩
    rw [Function.iterate_add_apply, hk2, hk1]

/-- The on-cycle dependent of an arc node is unique: it is the previous node
of the cycle. -/
theorem orbit_dep_unique (n : ℕ) (heads : Fin n → Fin n) (a : Fin n) (p d : ℕ)
    (hp2 : 2 ≤ p) (hcyc : heads^[p] a = a)
    (hmin : ∀ q, 1 ≤ q → q < p → heads^[q] a ≠ a)
    (hd1 : 1 ≤ d) (hdp : d ≤ p) (v : Fin n)
    (hv : MemOrbit n heads a p v) (hvd : heads v = heads^[d] a) :
    v = heads^[d - 1] a := by
  obtain ⟨t, htp, ht⟩ := hv
  have h1 : heads^[t + 1] a = heads^[d] a := by
    rw [Function.iterate_succ_apply', ht, hvd]
  have hmod : (t + 1) % p = d % p :=
    (orb_eq_iff n heads a p (by omega) hcyc hmin (t + 1) d).mp h1
  rcases Nat.lt_or_ge d p with hdlt | hdge
  · have : (t + 1) % p = d := by rw [hmod]; exact Nat.mod_eq_of_lt hdlt
    rcases Nat.lt_or_ge (t + 1) p with h2 | h2
    · have ht1 : t + 1 = d := by rw [← this]; exact (Nat.mod_eq_of_lt h2).symm
      rw [← ht, show d - 1 = t by omega]
    · have ht1 : t + 1 = p := by omega
      have : (0 : ℕ) = d := by
        rw [← this, ht1]
        simp
      omega
  · have hdp' : d = p := by omega
    have hd0 : d % p = 0 := by rw [hdp']; simp
    rw [hd0] at hmod
    rcases Nat.lt_or_ge (t + 1) p with h2 | h2
    · have : t + 1 = 0 := by rw [← Nat.mod_eq_of_lt h2, hmod]
      omega
    · have ht1 : t + 1 = p := by omega
      rw [← ht, show t = d - 1 by omega]

/-- A non-cycle dependent of an arc node is off every cycle. -/
theorem dep_not_oncycle (n : ℕ) (heads : Fin n → Fin n) (a : Fin n) (p d : ℕ)
    (hp2 : 2 ≤ p) (hcyc : heads^[p] a = a) (hd1 : 1 ≤ d) (v : Fin n)
    (hvn : ¬ MemOrbit n heads a p v) (hvd : heads v = heads^[d] a) :
    ¬ OnCycleF n heads v := by
  rintro ⟨q, hq1, hq⟩
  have hiv : Reaches n heads (heads^[d] a) v := by
    refine ⟨q - 1, ?_⟩
    rw [← hvd, ← Function.iterate_succ_apply, show (q - 1).succ = q by omega, hq]
  have hav : Reaches n heads a v :=
    reaches_trans n heads a (heads^[d] a) v ⟨d, rfl⟩ hiv
  exact hvn (orbit_reach_closed n heads a p (by omega) hcyc a v ⟨0, by omega, rfl⟩ hav)

/-- No arc node can re-reach the previous arc node while avoiding the anchor. -/
theorem arc_not_ravoid (n : ℕ) (heads : Fin n → Fin n) (a : Fin n) (p d : ℕ)
    (hp2 : 2 ≤ p) (hcyc : heads^[p] a = a)
    (hmin : ∀ q, 1 ≤ q → q < p → heads^[q] a ≠ a)
    (hd2 : 2 ≤ d) (hdp : d ≤ p) :
    ¬ RAvoid n heads (heads^[d] a) (heads^[d - 1] a) a := by
  rintro ⟨k, hk, hav⟩
  rw [← Function.iterate_add_apply] at hk
  have hmod : (k + d) % p = (d - 1) % p :=
    (orb_eq_iff n heads a p (by omega) hcyc hmin (k + d) (d - 1)).mp hk
  have hd1m : (d - 1) % p = d - 1 := Nat.mod_eq_of_lt (by omega)
  have hk_ge : p - 1 ≤ k := by
    rcases Nat.lt_or_ge (k + d) p with h2 | h2
    · have : k + d = d - 1 := by rw [← Nat.mod_eq_of_lt h2, hmod, hd1m]
      omega
    · rcases Nat.lt_or_ge (k + d) (2 * p) with h3 | h3
      · have h4 : (k + d) % p = k + d - p := by
          rw [Nat.mod_eq_sub_mod h2, Nat.mod_eq_of_lt (by omega)]
        have : k + d - p = d - 1 := by rw [← h4, hmod, hd1m]
        omega
      · omega
  refine hav (p - d) (by omega) ?_
  rw [← Function.iterate_add_apply, show p - d + d = p by omega, hcyc]

/-- The anchor itself is outside every proper avoiding region. -/
theorem anchor_not_ravoid (n : ℕ) (heads : Fin n → Fin n) (x a : Fin n)
    (hne : x ≠ a) : ¬ RAvoid n heads a x a := by
  rintro ⟨k, hk, hav⟩
  rcases Nat.eq_zero_or_pos k with h0 | hpos
  · rw [h0] at hk
    exact hne (hk.symm)
  · exact hav 0 (by omega) rfl

/-- Arc nodes below the current one lie in the remaining avoiding region. -/
theorem arc_mem_ravoid (n : ℕ) (heads : Fin n → Fin n) (a : Fin n) (p d t : ℕ)
    (hcyc : heads^[p] a = a) (hmin : ∀ q, 1 ≤ q → q < p → heads^[q] a ≠ a)
    (hd : d ≤ p) (ht1 : 1 ≤ t) (htd : t ≤ d - 1) :
    RAvoid n heads (heads^[t] a) (heads^[d - 1] a) a := by
  refine ⟨d - 1 - t, ?_, ?_⟩
  · rw [← Function.iterate_add_apply, show d - 1 - t + t = d - 1 by omega]
  · intro k' hk'
    rw [← Function.iterate_add_apply]
    intro hca
    exact hmin (k' + t) (by omega) (by omega) hca

/-- The arc of cycle nodes pushed by a nested orbit call, top of stack first:
`[heads a, heads^2 a, ..., heads^d a]`. -/
def arcList (n : ℕ) (heads : Fin n → Fin n) (a : Fin n) (d : ℕ) : List (Fin n) :=
  (List.range d).map (fun t => heads^[t + 1] a)

theorem arcList_succ (n : ℕ) (heads : Fin n → Fin n) (a : Fin n) (d : ℕ) (hd : 1 ≤ d) :
    arcList n heads a d = arcList n heads a (d - 1) ++ [heads^[d] a] := by
  unfold arcList
  rw [show d = (d - 1) + 1 by omega, List.range_succ, List.map_append]
  simp

theorem mem_arcList (n : ℕ) (heads : Fin n → Fin n) (a : Fin n) (d : ℕ) (u : Fin n) :
    u ∈ arcList n heads a d ↔ ∃ t, 1 ≤ t ∧ t ≤ d ∧ heads^[t] a = u := by
  unfold arcList
  simp only [List.mem_map, List.mem_range]
  constructor
  · rintro ⟨t, htd, ht⟩
    exact ⟨t + 1, by omega, by omega, ht⟩
  · rintro ⟨t, ht1, htd, ht⟩
    exact ⟨t - 1, by omega, by rw [show t - 1 + 1 = t by omega]; exact ht⟩

theorem a_not_mem_arcList (n : ℕ) (heads : Fin n → Fin n) (a : Fin n) (p d : ℕ)
    (hcyc : heads^[p] a = a) (hmin : ∀ q, 1 ≤ q → q < p → heads^[q] a ≠ a)
    (hdp : d ≤ p - 1) : a ∉ arcList n heads a d := by
  rw [mem_arcList]
  rintro ⟨t, ht1, htd, ht⟩
  exact hmin t ht1 (by omega) ht

/-- The current arc node is not among the ones still to be pushed below it. -/
theorem i_not_mem_arcList (n : ℕ) (heads : Fin n → Fin n) (a : Fin n) (p d : ℕ)
    (hcyc : heads^[p] a = a) (hmin : ∀ q, 1 ≤ q → q < p → heads^[q] a ≠ a)
    (hd1 : 1 ≤ d) (hdp : d ≤ p) :
    heads^[d] a ∉ arcList n heads a (d - 1) := by
  rw [mem_arcList]
  rintro ⟨t, ht1, htd, ht⟩
  have hmod : t % p = d % p :=
    (orb_eq_iff n heads a p (by omega) hcyc hmin t d).mp ht
  have htm : t % p = t := Nat.mod_eq_of_lt (by omega)
  rcases Nat.lt_or_ge d p with h | h
  · rw [htm, Nat.mod_eq_of_lt h] at hmod
    omega
  · have hdp' : d = p := by omega
    rw [htm, hdp'] at hmod
    simp at hmod
    omega

/-- Precondition of a nested orbit-arc `strong_connect` call at
`i = heads^[d] a`, whose ancestor chain holds the rest of the cycle back to
the anchor `a`. -/
structure OrbArcPre (n : ℕ) (heads : Fin n → Fin n) (a : Fin n) (p d : ℕ)
    (st : TarjanState n) (i : Fin n) : Prop where
  hp2 : 2 ≤ p
  hcyc : heads^[p] a = a
  hmin : ∀ q, 1 ≤ q → q < p → heads^[q] a ≠ a
  hi : heads^[d] a = i
  hd1 : 1 ≤ d
  hdp : d ≤ p - 1
  arc_unvis : ∀ t, 1 ≤ t → t ≤ d → st.indices (heads^[t] a) = -1
  ra_closed : ∀ u, RAvoid n heads u i a → st.indices u ≠ -1 →
    st.onstack u = false ∧ ∀ w, Reaches n heads w u → st.indices w ≠ -1
  a_on : st.onstack a = true
  a_idx : st.indices a ≠ -1
  a_lt : st.indices a < (st.counter : ℤ)
  global_off : ∀ j, st.indices j = -1 → st.onstack j = false

/-- Postcondition of a nested orbit-arc call: the remaining arc is pushed and
kept on the stack, nothing is emitted, and the call's lowlink has been pulled
down to the anchor's index by the closing back edge. -/
structure OrbArcPost (n : ℕ) (heads : Fin n → Fin n) (a : Fin n) (p d : ℕ)
    (st : TarjanState n) (i : Fin n) (st' : TarjanState n) : Prop where
  stack_eq : st'.stack = arcList n heads a d ++ st.stack
  on_arc : ∀ u ∈ arcList n heads a d, st'.onstack u = true
  on_frame : ∀ u, u ∉ arcList n heads a d → st'.onstack u = st.onstack u
  cycles_eq : st'.cycles = st.cycles
  low_i : st'.lowlinks i = st.indices a
  frame : ∀ u, ¬ RAvoid n heads u i a →
    st'.indices u = st.indices u ∧ st'.lowlinks u = st.lowlinks u
  growth : ∀ u, st'.indices u ≠ -1 → st.indices u ≠ -1 ∨ RAvoid n heads u i a
  counter_lt : st.counter < st'.counter
  mono : ∀ j, st.indices j ≠ -1 → st'.indices j ≠ -1
  full : ∀ u, RAvoid n heads u i a → st'.indices u ≠ -1

/-- Precondition of the dependents loop of an orbit call (arc calls have
`d ≤ p - 1`; the anchor's own loop is the instance `d = p`).  The loop is in
phase 1 while the unique on-cycle dependent `heads^[d-1] a` is still pending,
phase 2 after it was processed. -/
structure OrbScanPre (n : ℕ) (heads : Fin n → Fin n) (a : Fin n) (p d : ℕ)
    (st : TarjanState n) (i : Fin n) (deps : List (Fin n)) : Prop where
  hp2 : 2 ≤ p
  hcyc : heads^[p] a = a
  hmin : ∀ q, 1 ≤ q → q < p → heads^[q] a ≠ a
  hi : heads^[d] a = i
  hd1 : 1 ≤ d
  hdp : d ≤ p
  nodup : deps.Nodup
  dep_head : ∀ j ∈ deps, heads j = i
  tree_closed : ∀ j ∈ deps, j ≠ heads^[d - 1] a → ∀ u, Reaches n heads u j →
    st.indices u ≠ -1 →
    st.onstack u = false ∧ ∀ w, Reaches n heads w u → st.indices w ≠ -1
  vis_i : st.indices i ≠ -1
  on_i : st.onstack i = true
  idx_lt_i : st.indices i < (st.counter : ℤ)
  a_on : st.onstack a = true
  a_idx : st.indices a ≠ -1
  a_lt : st.indices a < (st.counter : ℤ)
  a_le_i : st.indices a ≤ st.indices i
  global_off : ∀ j, st.indices j = -1 → st.onstack j = false
  phase :
    (heads^[d - 1] a ∈ deps ∧ st.lowlinks i = st.indices i ∧
      (∀ t, 1 ≤ t → t ≤ d - 1 → st.indices (heads^[t] a) = -1) ∧
      (2 ≤ d → ∀ u, RAvoid n heads u (heads^[d - 1] a) a → st.indices u ≠ -1 →
        st.onstack u = false ∧ ∀ w, Reaches n heads w u → st.indices w ≠ -1)) ∨
    (heads^[d - 1] a ∉ deps ∧ st.lowlinks i = st.indices a)

/-- Postcondition of the dependents loop of an orbit call. -/
structure OrbScanPost (n : ℕ) (heads : Fin n → Fin n) (a : Fin n) (p d : ℕ)
    (st : TarjanState n) (i : Fin n) (deps : List (Fin n))
    (st' : TarjanState n) : Prop where
  stack1 : heads^[d - 1] a ∈ deps →
    st'.stack = arcList n heads a (d - 1) ++ st.stack
  stack2 : heads^[d - 1] a ∉ deps → st'.stack = st.stack
  on1 : heads^[d - 1] a ∈ deps →
    (∀ u ∈ arcList n heads a (d - 1), st'.onstack u = true) ∧
    (∀ u, u ∉ arcList n heads a (d - 1) → st'.onstack u = st.onstack u)
  on2 : heads^[d - 1] a ∉ deps → ∀ u, st'.onstack u = st.onstack u
  cycles_eq : st'.cycles = st.cycles
  low_final : st'.lowlinks i = st.indices a
  idx_i_eq : st'.indices i = st.indices i
  frame : ∀ u, ¬ RAvoid n heads u i a →
    st'.indices u = st.indices u ∧ st'.lowlinks u = st.lowlinks u
  growth : ∀ u, st'.indices u ≠ -1 → st.indices u ≠ -1 ∨ RAvoid n heads u i a
  counter_le : st.counter ≤ st'.counter
  mono : ∀ j, st.indices j ≠ -1 → st'.indices j ≠ -1
  fullT : ∀ j ∈ deps, j ≠ heads^[d - 1] a → ∀ u, Reaches n heads u j →
    st'.indices u ≠ -1
  fullS : 2 ≤ d → heads^[d - 1] a ∈ deps →
    ∀ u, RAvoid n heads u (heads^[d - 1] a) a → st'.indices u ≠ -1

/-- Case split of the orbit lemma by call tag. -/
def OrbMotive (n : ℕ) (heads : Fin n → Fin n) :
    TTag n → TarjanState n → TarjanState n → Prop
  | .sc i, st, st' => ∀ a p d, OrbArcPre n heads a p d st i →
      OrbArcPost n heads a p d st i st'
  | .scan i deps, st, st' => ∀ a p d, OrbScanPre n heads a p d st i deps →
      OrbScanPost n heads a p d st i deps st'

/-- Orbit-exploration lemma: a nested call on a cycle node pushes the rest of
the arc, takes the closing back edge at the anchor, emits nothing, and
returns with its lowlink equal to the anchor's index. -/
theorem trel_orbit (n : ℕ) (heads : Fin n → Fin n) (tag : TTag n)
    (st st' : TarjanState n) (h : TRel n heads tag st st') :
    OrbMotive n heads tag st st' := by
  induction h with
  | emit st i st2 hvis hscan hlow ih =>
    intro a p d pre
    exfalso
    have hp1 : 1 ≤ p := by have := pre.hp2; omega
    have hia : i ≠ a := by
      intro h
      have : heads^[d] a = a := by rw [pre.hi, h]
      exact pre.hmin d pre.hd1 (by have := pre.hdp; omega) this
    have hs_in : heads^[d - 1] a ∈ tjDeps n heads i := by
      unfold tjDeps
      refine List.mem_filter.mpr ⟨List.mem_finRange _, ?_⟩
      simp only [decide_eq_true_eq]
      rw [← Function.iterate_succ_apply' heads (d - 1) a,
        show (d - 1).succ = d from by have := pre.hd1; omega, pre.hi]
    have hi_not_ra : 2 ≤ d → ¬ RAvoid n heads i (heads^[d - 1] a) a := by
      intro hd2
      have h1 := arc_not_ravoid n heads a p d pre.hp2 pre.hcyc pre.hmin hd2
        (by have := pre.hdp; omega)
      rw [pre.hi] at h1
      exact h1
    have pre1 : OrbScanPre n heads a p d (tjPush n st i) i (tjDeps n heads i) :=
      { hp2 := pre.hp2, hcyc := pre.hcyc, hmin := pre.hmin, hi := pre.hi
        hd1 := pre.hd1
        hdp := by have := pre.hdp; omega
        nodup := tjDeps_nodup n heads i
        dep_head := fun j hj => tjDeps_head n heads i j hj
        tree_closed := by
          intro j hj hne u hur hvis1
          have hjhead : heads j = i := tjDeps_head n heads i j hj
          have hjn : ¬ MemOrbit n heads a p j := fun hv =>
            hne (orbit_dep_unique n heads a p d pre.hp2 pre.hcyc pre.hmin
              pre.hd1 (by have := pre.hdp; omega) j hv (hjhead.trans pre.hi.symm))
          have hnc : ¬ OnCycleF n heads j :=
            dep_not_oncycle n heads a p d pre.hp2 pre.hcyc pre.hd1 j hjn
              (hjhead.trans pre.hi.symm)
          have hnir : ¬ Reaches n heads i j := dep_not_reached n heads j i hjhead hnc
          have hui : u ≠ i := fun h => hnir (h ▸ hur)
          have hvis : st.indices u ≠ -1 := by
            have h1 : Function.update st.indices i ((st.counter : ℤ)) u ≠ -1 := hvis1
            rwa [Function.update_noteq hui] at h1
          have hra : RAvoid n heads u i a := by
            have h1 := reach_tree_ravoid n heads a p hp1 pre.hcyc u j d pre.hd1
              (by have := pre.hdp; omega) hjn (hjhead.trans pre.hi.symm) hur
            rw [pre.hi] at h1
            exact h1
          obtain ⟨hoff, hcl⟩ := pre.ra_closed u hra hvis
          constructor
          · show Function.update st.onstack i true u = false
            rw [Function.update_noteq hui]
            exact hoff
          · intro w hw
            show Function.update st.indices i ((st.counter : ℤ)) w ≠ -1
            by_cases hwi : w = i
            · subst hwi
              rw [Function.update_same]
              intro hc
              omega
            · rw [Function.update_noteq hwi]
              exact hcl w hw
        vis_i := by
          show Function.update st.indices i ((st.counter : ℤ)) i ≠ -1
          rw [Function.update_same]
          intro hc
          omega
        on_i := by
          show Function.update st.onstack i true i = true
          rw [Function.update_same]
        idx_lt_i := by
          show Function.update st.indices i ((st.counter : ℤ)) i <
            ((st.counter + 1 : ℕ) : ℤ)
          rw [Function.update_same]
          push_cast
          omega
        a_on := by
          show Function.update st.onstack i true a = true
          rw [Function.update_noteq (fun h => hia h.symm)]
          exact pre.a_on
        a_idx := by
          show Function.update st.indices i ((st.counter : ℤ)) a ≠ -1
          rw [Function.update_noteq (fun h => hia h.symm)]
          exact pre.a_idx
        a_lt := by
          show Function.update st.indices i ((st.counter : ℤ)) a <
            ((st.counter + 1 : ℕ) : ℤ)
          rw [Function.update_noteq (fun h => hia h.symm)]
          have := pre.a_lt
          push_cast
          omega
        a_le_i := by
          show Function.update st.indices i ((st.counter : ℤ)) a ≤
            Function.update st.indices i ((st.counter : ℤ)) i
          rw [Function.update_noteq (fun h => hia h.symm), Function.update_same]
          exact le_of_lt pre.a_lt
        global_off := by
          intro u hu
          have hui : u ≠ i := by
            intro h
            subst h
            have h1 : Function.update st.indices u ((st.counter : ℤ)) u = -1 := hu
            rw [Function.update_same] at h1
            omega
          have hust : st.indices u = -1 := by
            have h1 : Function.update st.indices i ((st.counter : ℤ)) u = -1 := hu
            rwa [Function.update_noteq hui] at h1
          show Function.update st.onstack i true u = false
          rw [Function.update_noteq hui]
          exact pre.global_off u hust
        phase := by
          left
          refine ⟨hs_in, ?_, ?_, ?_⟩
          · show Function.update st.lowlinks i ((st.counter : ℤ)) i =
              Function.update st.indices i ((st.counter : ℤ)) i
            rw [Function.update_same, Function.update_same]
          · intro t ht1 htd
            have htne : heads^[t] a ≠ i := by
              rw [← pre.hi]
              intro h
              have := orb_inj n heads a p pre.hcyc pre.hmin t d
                (by have := pre.hdp; omega) (by have := pre.hdp; omega) h
              omega
            show Function.update st.indices i ((st.counter : ℤ)) (heads^[t] a) = -1
            rw [Function.update_noteq htne]
            exact pre.arc_unvis t ht1 (by omega)
          · intro hd2 u hur hvis1
            have hui : u ≠ i := fun h => (hi_not_ra hd2) (h ▸ hur)
            have hvis : st.indices u ≠ -1 := by
              have h1 : Function.update st.indices i ((st.counter : ℤ)) u ≠ -1 := hvis1
              rwa [Function.update_noteq hui] at h1
            have hra : RAvoid n heads u i a := by
              have h1 := ravoid_step_orbit n heads a p pre.hcyc pre.hmin u d hd2
                (by have := pre.hdp; omega) hur
              rw [pre.hi] at h1
              exact h1
            obtain ⟨hoff, hcl⟩ := pre.ra_closed u hra hvis
            constructor
            · show Function.update st.onstack i true u = false
              rw [Function.update_noteq hui]
              exact hoff
            · intro w hw
              show Function.update st.indices i ((st.counter : ℤ)) w ≠ -1
              by_cases hwi : w = i
              · subst hwi
                rw [Function.update_same]
                intro hc
                omega
              · rw [Function.update_noteq hwi]
                exact hcl w hw }
    have post := ih a p d pre1
    have hidx2 : st2.indices i = (st.counter : ℤ) := by
      rw [post.idx_i_eq]
      exact Function.update_same i ((st.counter : ℤ)) st.indices
    have hlow2 : st2.lowlinks i = st.indices a := by
      rw [post.low_final]
      show Function.update st.indices i ((st.counter : ℤ)) a = st.indices a
      rw [Function.update_noteq (fun h => hia h.symm)]
    rw [hlow2, hidx2] at hlow
    have := pre.a_lt
    omega
  | noemit st i st2 hvis hscan hlow ih =>
    intro a p d pre
    have hp1 : 1 ≤ p := by have := pre.hp2; omega
    have hia : i ≠ a := by
      intro h
      have : heads^[d] a = a := by rw [pre.hi, h]
      exact pre.hmin d pre.hd1 (by have := pre.hdp; omega) this
    have hs_in : heads^[d - 1] a ∈ tjDeps n heads i := by
      unfold tjDeps
      refine List.mem_filter.mpr ⟨List.mem_finRange _, ?_⟩
      simp only [decide_eq_true_eq]
      rw [← Function.iterate_succ_apply' heads (d - 1) a,
        show (d - 1).succ = d from by have := pre.hd1; omega, pre.hi]
    have hi_not_ra : 2 ≤ d → ¬ RAvoid n heads i (heads^[d - 1] a) a := by
      intro hd2
      have h1 := arc_not_ravoid n heads a p d pre.hp2 pre.hcyc pre.hmin hd2
        (by have := pre.hdp; omega)
      rw [pre.hi] at h1
      exact h1
    have pre1 : OrbScanPre n heads a p d (tjPush n st i) i (tjDeps n heads i) :=
      { hp2 := pre.hp2, hcyc := pre.hcyc, hmin := pre.hmin, hi := pre.hi
        hd1 := pre.hd1
        hdp := by have := pre.hdp; omega
        nodup := tjDeps_nodup n heads i
        dep_head := fun j hj => tjDeps_head n heads i j hj
        tree_closed := by
          intro j hj hne u hur hvis1
          have hjhead : heads j = i := tjDeps_head n heads i j hj
          have hjn : ¬ MemOrbit n heads a p j := fun hv =>
            hne (orbit_dep_unique n heads a p d pre.hp2 pre.hcyc pre.hmin
              pre.hd1 (by have := pre.hdp; omega) j hv (hjhead.trans pre.hi.symm))
          have hnc : ¬ OnCycleF n heads j :=
            dep_not_oncycle n heads a p d pre.hp2 pre.hcyc pre.hd1 j hjn
              (hjhead.trans pre.hi.symm)
          have hnir : ¬ Reaches n heads i j := dep_not_reached n heads j i hjhead hnc
          have hui : u ≠ i := fun h => hnir (h ▸ hur)
          have hvis : st.indices u ≠ -1 := by
            have h1 : Function.update st.indices i ((st.counter : ℤ)) u ≠ -1 := hvis1
            rwa [Function.update_noteq hui] at h1
          have hra : RAvoid n heads u i a := by
            have h1 := reach_tree_ravoid n heads a p hp1 pre.hcyc u j d pre.hd1
              (by have := pre.hdp; omega) hjn (hjhead.trans pre.hi.symm) hur
            rw [pre.hi] at h1
            exact h1
          obtain ⟨hoff, hcl⟩ := pre.ra_closed u hra hvis
          constructor
          · show Function.update st.onstack i true u = false
            rw [Function.update_noteq hui]
            exact hoff
          · intro w hw
            show Function.update st.indices i ((st.counter : ℤ)) w ≠ -1
            by_cases hwi : w = i
            · subst hwi
              rw [Function.update_same]
              intro hc
              omega
            · rw [Function.update_noteq hwi]
              exact hcl w hw
        vis_i := by
          show Function.update st.indices i ((st.counter : ℤ)) i ≠ -1
          rw [Function.update_same]
          intro hc
          omega
        on_i := by
          show Function.update st.onstack i true i = true
          rw [Function.update_same]
        idx_lt_i := by
          show Function.update st.indices i ((st.counter : ℤ)) i <
            ((st.counter + 1 : ℕ) : ℤ)
          rw [Function.update_same]
          push_cast
          omega
        a_on := by
          show Function.update st.onstack i true a = true
          rw [Function.update_noteq (fun h => hia h.symm)]
          exact pre.a_on
        a_idx := by
          show Function.update st.indices i ((st.counter : ℤ)) a ≠ -1
          rw [Function.update_noteq (fun h => hia h.symm)]
          exact pre.a_idx
        a_lt := by
          show Function.update st.indices i ((st.counter : ℤ)) a <
            ((st.counter + 1 : ℕ) : ℤ)
          rw [Function.update_noteq (fun h => hia h.symm)]
          have := pre.a_lt
          push_cast
          omega
        a_le_i := by
          show Function.update st.indices i ((st.counter : ℤ)) a ≤
            Function.update st.indices i ((st.counter : ℤ)) i
          rw [Function.update_noteq (fun h => hia h.symm), Function.update_same]
          exact le_of_lt pre.a_lt
        global_off := by
          intro u hu
          have hui : u ≠ i := by
            intro h
            subst h
            have h1 : Function.update st.indices u ((st.counter : ℤ)) u = -1 := hu
            rw [Function.update_same] at h1
            omega
          have hust : st.indices u = -1 := by
            have h1 : Function.update st.indices i ((st.counter : ℤ)) u = -1 := hu
            rwa [Function.update_noteq hui] at h1
          show Function.update st.onstack i true u = false
          rw [Function.update_noteq hui]
          exact pre.global_off u hust
        phase := by
          left
          refine ⟨hs_in, ?_, ?_, ?_⟩
          · show Function.update st.lowlinks i ((st.counter : ℤ)) i =
              Function.update st.indices i ((st.counter : ℤ)) i
            rw [Function.update_same, Function.update_same]
          · intro t ht1 htd
            have htne : heads^[t] a ≠ i := by
              rw [← pre.hi]
              intro h
              have := orb_inj n heads a p pre.hcyc pre.hmin t d
                (by have := pre.hdp; omega) (by have := pre.hdp; omega) h
              omega
            show Function.update st.indices i ((st.counter : ℤ)) (heads^[t] a) = -1
            rw [Function.update_noteq htne]
            exact pre.arc_unvis t ht1 (by omega)
          · intro hd2 u hur hvis1
            have hui : u ≠ i := fun h => (hi_not_ra hd2) (h ▸ hur)
            have hvis : st.indices u ≠ -1 := by
              have h1 : Function.update st.indices i ((st.counter : ℤ)) u ≠ -1 := hvis1
              rwa [Function.update_noteq hui] at h1
            have hra : RAvoid n heads u i a := by
              have h1 := ravoid_step_orbit n heads a p pre.hcyc pre.hmin u d hd2
                (by have := pre.hdp; omega) hur
              rw [pre.hi] at h1
              exact h1
            obtain ⟨hoff, hcl⟩ := pre.ra_closed u hra hvis
            constructor
            · show Function.update st.onstack i true u = false
              rw [Function.update_noteq hui]
              exact hoff
            · intro w hw
              show Function.update st.indices i ((st.counter : ℤ)) w ≠ -1
              by_cases hwi : w = i
              · subst hwi
                rw [Function.update_same]
                intro hc
                omega
              · rw [Function.update_noteq hwi]
                exact hcl w hw }
    have post := ih a p d pre1
    have hidx2 : st2.indices i = (st.counter : ℤ) := by
      rw [post.idx_i_eq]
      exact Function.update_same i ((st.counter : ℤ)) st.indices
    have hlow2 : st2.lowlinks i = st.indices a := by
      rw [post.low_final]
      show Function.update st.indices i ((st.counter : ℤ)) a = st.indices a
      rw [Function.update_noteq (fun h => hia h.symm)]
    refine
      { stack_eq := ?_
        on_arc := ?_
        on_frame := ?_
        cycles_eq := post.cycles_eq
        low_i := hlow2
        frame := ?_
        growth := ?_
        counter_lt := ?_
        mono := ?_
        full := ?_ }
    · rw [post.stack1 hs_in]
      show arcList n heads a (d - 1) ++ i :: st.stack = _
      rw [arcList_succ n heads a d pre.hd1, pre.hi, List.append_assoc,
        List.singleton_append]
    · intro u hu
      rw [arcList_succ n heads a d pre.hd1, pre.hi] at hu
      rcases List.mem_append.mp hu with h | h
      · exact (post.on1 hs_in).1 u h
      · rcases List.mem_singleton.mp h with rfl
        have hine : u ∉ arcList n heads a (d - 1) := by
          have h1 := i_not_mem_arcList n heads a p d pre.hcyc pre.hmin pre.hd1
            (by have := pre.hdp; omega)
          rw [pre.hi] at h1
          exact h1
        rw [(post.on1 hs_in).2 u hine]
        exact Function.update_same u true st.onstack
    · intro u hu
      rw [arcList_succ n heads a d pre.hd1, pre.hi] at hu
      have hunl : u ∉ arcList n heads a (d - 1) :=
        fun h => hu (List.mem_append.mpr (Or.inl h))
      have hune : u ≠ i := fun h =>
        hu (List.mem_append.mpr (Or.inr (List.mem_singleton.mpr h)))
      rw [(post.on1 hs_in).2 u hunl]
      show Function.update st.onstack i true u = st.onstack u
      rw [Function.update_noteq hune]
    · intro u hu
      have hui : u ≠ i := fun h => hu (h ▸ ravoid_self n heads i a)
      have h2 := post.frame u hu
      constructor
      · rw [h2.1]
        show Function.update st.indices i ((st.counter : ℤ)) u = st.indices u
        rw [Function.update_noteq hui]
      · rw [h2.2]
        show Function.update st.lowlinks i ((st.counter : ℤ)) u = st.lowlinks u
        rw [Function.update_noteq hui]
    · intro u hu
      rcases post.growth u hu with h1 | h1
      · by_cases hui : u = i
        · exact Or.inr (hui ▸ ravoid_self n heads i a)
        · left
          have h3 : Function.update st.indices i ((st.counter : ℤ)) u ≠ -1 := h1
          rwa [Function.update_noteq hui] at h3
      · exact Or.inr h1
    · have h1 := post.counter_le
      have h2 : (tjPush n st i).counter = st.counter + 1 := rfl
      omega
    · intro u hu
      refine post.mono u ?_
      by_cases hui : u = i
      · subst hui
        show Function.update st.indices u ((st.counter : ℤ)) u ≠ -1
        rw [Function.update_same]
        intro hc
        omega
      · show Function.update st.indices i ((st.counter : ℤ)) u ≠ -1
        rw [Function.update_noteq hui]
        exact hu
    · intro u hur
      by_cases hui : u = i
      · subst hui
        rw [hidx2]
        intro hc
        omega
      · obtain ⟨k, hk, hav⟩ := hur
        have hkpos : k ≠ 0 := by
          intro h
          rw [h] at hk
          exact hui hk
        set jd := heads^[k - 1] u with hjd
        have hjdh : heads jd = i := by
          rw [hjd, ← Function.iterate_succ_apply' heads (k - 1) u,
            show (k - 1).succ = k by omega, hk]
        have hjdmem : jd ∈ tjDeps n heads i := by
          unfold tjDeps
          exact List.mem_filter.mpr ⟨List.mem_finRange jd, by simp [hjdh]⟩
        have hur2 : Reaches n heads u jd := ⟨k - 1, rfl⟩
        by_cases hjds : jd = heads^[d - 1] a
        · by_cases hd2 : 2 ≤ d
          · refine post.fullS hd2 hs_in u ⟨k - 1, ?_, ?_⟩
            · rw [← hjds]
            · intro k' hk'
              exact hav k' (by omega)
          · exfalso
            have hd1' : d = 1 := by have := pre.hd1; omega
            have hjda : jd = a := by rw [hjds, hd1']; simp
            exact hav (k - 1) (by omega) (hjd ▸ hjda)
        · exact post.fullT jd hjdmem hjds u hur2
  | nil st i =>
    intro a p d pre
    rcases pre.phase with ⟨hmem, _, _, _⟩ | ⟨hnmem, hlow2⟩
    · exact absurd hmem (List.not_mem_nil _)
    · exact
        { stack1 := fun h => absurd h (List.not_mem_nil _)
          stack2 := fun _ => rfl
          on1 := fun h => absurd h (List.not_mem_nil _)
          on2 := fun _ u => rfl
          cycles_eq := rfl
          low_final := hlow2
          idx_i_eq := rfl
          frame := fun u _ => ⟨rfl, rfl⟩
          growth := fun u hu => Or.inl hu
          counter_le := le_rfl
          mono := fun j hj => hj
          fullT := fun j hj => absurd hj (List.not_mem_nil _)
          fullS := fun _ h => absurd h (List.not_mem_nil _) }
  | visit st i j rest stJ st' hj hrec hrest ih1 ih2 =>
    intro a p d pre
    have hmem : j ∈ j :: rest := List.mem_cons_self j rest
    have hhead : heads j = i := pre.dep_head j hmem
    have hp1 : 1 ≤ p := by have := pre.hp2; omega
    by_cases hjs : j = heads^[d - 1] a
    · -- the on-cycle dependent: recurse one step down the arc
      rcases pre.phase with ⟨hsmem, hlow1, harc, hra⟩ | ⟨hnmem, _⟩
      swap
      · exact absurd (hjs ▸ hmem) hnmem
      have hd2 : 2 ≤ d := by
        by_contra h
        have hd1' : d = 1 := by have := pre.hd1; omega
        have hja : j = a := by rw [hjs, hd1']; simp
        rw [hja] at hj
        exact pre.a_idx hj
      have hjna : j ≠ a := by
        intro h
        rw [h] at hj
        exact pre.a_idx hj
      have post1 : OrbArcPost n heads a p (d - 1) st j stJ := ih1 a p (d - 1)
        { hp2 := pre.hp2, hcyc := pre.hcyc, hmin := pre.hmin
          hi := hjs.symm
          hd1 := by omega
          hdp := by have := pre.hdp; omega
          arc_unvis := harc
          ra_closed := fun u hu hv => hra hd2 u (hjs ▸ hu) hv
          a_on := pre.a_on, a_idx := pre.a_idx, a_lt := pre.a_lt
          global_off := pre.global_off }
      have hi_not : ¬ RAvoid n heads i j a := by
        have h1 := arc_not_ravoid n heads a p d pre.hp2 pre.hcyc pre.hmin hd2 pre.hdp
        rw [pre.hi, ← hjs] at h1
        exact h1
      have ha_not : ¬ RAvoid n heads a j a := anchor_not_ravoid n heads j a hjna
      have hframe_i := post1.frame i hi_not
      have hframe_a := post1.frame a ha_not
      have hine : i ∉ arcList n heads a (d - 1) := by
        have h1 := i_not_mem_arcList n heads a p d pre.hcyc pre.hmin pre.hd1 pre.hdp
        rw [pre.hi] at h1
        exact h1
      have hane : a ∉ arcList n heads a (d - 1) :=
        a_not_mem_arcList n heads a p (d - 1) pre.hcyc pre.hmin (by have := pre.hdp; omega)
      have hsnr : heads^[d - 1] a ∉ rest := by
        intro h
        rw [← hjs] at h
        exact (List.nodup_cons.mp pre.nodup).1 h
      have harc_vis : ∀ u ∈ arcList n heads a (d - 1), stJ.indices u ≠ -1 := by
        intro u hu
        rw [mem_arcList] at hu
        obtain ⟨t, ht1, htd, ht⟩ := hu
        refine post1.full u ?_
        rw [← ht, hjs]
        exact arc_mem_ravoid n heads a p d t pre.hcyc pre.hmin pre.hdp ht1 htd
      have hmin2 : min (stJ.lowlinks i) (stJ.lowlinks j) = st.indices a := by
        rw [hframe_i.2, post1.low_i, hlow1]
        exact min_eq_right pre.a_le_i
      have pre2 : OrbScanPre n heads a p d (tjMinLow n stJ i (stJ.lowlinks j)) i rest :=
        { hp2 := pre.hp2, hcyc := pre.hcyc, hmin := pre.hmin, hi := pre.hi
          hd1 := pre.hd1, hdp := pre.hdp
          nodup := (List.nodup_cons.mp pre.nodup).2
          dep_head := fun u hu => pre.dep_head u (List.mem_cons_of_mem j hu)
          tree_closed := by
            intro v hv hvne u hur hvisJ
            have hvhead : heads v = i := pre.dep_head v (List.mem_cons_of_mem j hv)
            have hvn : ¬ MemOrbit n heads a p v := fun hvo =>
              hvne (orbit_dep_unique n heads a p d pre.hp2 pre.hcyc pre.hmin
                pre.hd1 pre.hdp v hvo (hvhead.trans pre.hi.symm))
            have hvis2 : stJ.indices u ≠ -1 := hvisJ
            rcases post1.growth u hvis2 with hold | hreach
            · obtain ⟨hoff, hcl⟩ :=
                pre.tree_closed v (List.mem_cons_of_mem j hv) hvne u hur hold
              have hun : ¬ MemOrbit n heads a p u := fun huo =>
                hvn (orbit_reach_closed n heads a p hp1 pre.hcyc u v huo hur)
              have hunl : u ∉ arcList n heads a (d - 1) := by
                rw [mem_arcList]
                rintro ⟨t, ht1, htd, ht⟩
                exact hun ⟨t, by have := pre.hdp; omega, ht⟩
              refine ⟨?_, fun w hw => post1.mono w (hcl w hw)⟩
              show stJ.onstack u = false
              rw [post1.on_frame u hunl]
              exact hoff
            · exfalso
              have h1 := tree_basin_not_ravoid n heads a p pre.hp2 pre.hcyc pre.hmin
                u v d (d - 1) pre.hd1 pre.hdp (by omega) (by omega) hvn
                (hvhead.trans pre.hi.symm) hur
              rw [← hjs] at h1
              exact h1 hreach
          vis_i := by
            show stJ.indices i ≠ -1
            rw [hframe_i.1]
            exact pre.vis_i
          on_i := by
            show stJ.onstack i = true
            rw [post1.on_frame i hine]
            exact pre.on_i
          idx_lt_i := by
            show stJ.indices i < (stJ.counter : ℤ)
            rw [hframe_i.1]
            have h1 := pre.idx_lt_i
            have h2 : (st.counter : ℤ) < stJ.counter := by
              exact_mod_cast post1.counter_lt
            omega
          a_on := by
            show stJ.onstack a = true
            rw [post1.on_frame a hane]
            exact pre.a_on
          a_idx := post1.mono a pre.a_idx
          a_lt := by
            show stJ.indices a < (stJ.counter : ℤ)
            rw [hframe_a.1]
            have h1 := pre.a_lt
            have h2 : (st.counter : ℤ) < stJ.counter := by
              exact_mod_cast post1.counter_lt
            omega
          a_le_i := by
            show stJ.indices a ≤ stJ.indices i
            rw [hframe_a.1, hframe_i.1]
            exact pre.a_le_i
          global_off := by
            intro u hu
            have hu2 : stJ.indices u = -1 := hu
            have hust : st.indices u = -1 := by
              by_contra hc
              exact (post1.mono u hc) hu2
            have hunl : u ∉ arcList n heads a (d - 1) := by
              intro hmem2
              exact (harc_vis u hmem2) hu2
            show stJ.onstack u = false
            rw [post1.on_frame u hunl]
            exact pre.global_off u hust
          phase := by
            right
            refine ⟨hsnr, ?_⟩
            show Function.update stJ.lowlinks i
              (min (stJ.lowlinks i) (stJ.lowlinks j)) i = stJ.indices a
            rw [Function.update_same, hmin2, hframe_a.1] }
      have post2 := ih2 a p d pre2
      have hs_in : heads^[d - 1] a ∈ j :: rest := hjs ▸ hmem
      refine
        { stack1 := fun _ => ?_
          stack2 := fun h => absurd hs_in h
          on1 := fun _ => ?_
          on2 := fun h => absurd hs_in h
          cycles_eq := ?_
          low_final := ?_
          idx_i_eq := ?_
          frame := ?_
          growth := ?_
          counter_le := ?_
          mono := fun u hu => post2.mono u (post1.mono u hu)
          fullT := ?_
          fullS := fun _ _ u hur => post2.mono u (post1.full u (by rw [hjs]; exact hur)) }
      · rw [post2.stack2 hsnr]
        show stJ.stack = arcList n heads a (d - 1) ++ st.stack
        exact post1.stack_eq
      · constructor
        · intro u hu
          rw [post2.on2 hsnr u]
          show stJ.onstack u = true
          exact post1.on_arc u hu
        · intro u hu
          rw [post2.on2 hsnr u]
          show stJ.onstack u = st.onstack u
          exact post1.on_frame u hu
      · rw [post2.cycles_eq]
        exact post1.cycles_eq
      · rw [post2.low_final]
        show stJ.indices a = st.indices a
        exact hframe_a.1
      · rw [post2.idx_i_eq]
        show stJ.indices i = st.indices i
        exact hframe_i.1
      · intro u hu
        have hus : ¬ RAvoid n heads u j a := by
          intro hr
          have h1 := ravoid_step_orbit n heads a p pre.hcyc pre.hmin u d hd2
            pre.hdp (hjs ▸ hr)
          rw [pre.hi] at h1
          exact hu h1
        have hui : u ≠ i := fun h => hu (h ▸ ravoid_self n heads i a)
        have h1 := post1.frame u hus
        have h2 := post2.frame u hu
        constructor
        · rw [h2.1]
          exact h1.1
        · rw [h2.2]
          show Function.update stJ.lowlinks i
            (min (stJ.lowlinks i) (stJ.lowlinks j)) u = st.lowlinks u
          rw [Function.update_noteq hui]
          exact h1.2
      · intro u hu
        rcases post2.growth u hu with hJ | hR
        · have hJ2 : stJ.indices u ≠ -1 := hJ
          rcases post1.growth u hJ2 with hold | hreach
          · exact Or.inl hold
          · right
            have h1 := ravoid_step_orbit n heads a p pre.hcyc pre.hmin u d hd2
              pre.hdp (hjs ▸ hreach)
            rw [pre.hi] at h1
            exact h1
        · exact Or.inr hR
      · have h1 : st.counter < stJ.counter := post1.counter_lt
        have h2 := post2.counter_le
        have h3 : (tjMinLow n stJ i (stJ.lowlinks j)).counter = stJ.counter := rfl
        omega
      · intro v hv hvne u hur
        rcases List.mem_cons.mp hv with rfl | hmem2
        · exact absurd hjs hvne
        · exact post2.fullT v hmem2 hvne u hur
    · -- a tree dependent: handled by the tree lemma
      have hji_eq : heads j = heads^[d] a := hhead.trans pre.hi.symm
      have hjn : ¬ MemOrbit n heads a p j := fun hv =>
        hjs (orbit_dep_unique n heads a p d pre.hp2 pre.hcyc pre.hmin
          pre.hd1 pre.hdp j hv hji_eq)
      have hnc : ¬ OnCycleF n heads j :=
        dep_not_oncycle n heads a p d pre.hp2 pre.hcyc pre.hd1 j hjn hji_eq
      have hnotri : ¬ Reaches n heads i j := dep_not_reached n heads j i hhead hnc
      have hnotra : ¬ Reaches n heads a j := fun hr =>
        hjn (orbit_reach_closed n heads a p hp1 pre.hcyc a j ⟨0, by omega, rfl⟩ hr)
      have post1 : SCPost n heads st j stJ := trel_tree n heads (.sc j) st stJ hrec
        { unvis := hj
          closed_vis := fun u hr hvis => pre.tree_closed j hmem hjs u hr hvis
          basin_acyclic := fun u hr _ hc => hnc (oncycle_reach n heads u j hc hr)
          global_off := pre.global_off }
      have hframe_i := post1.frame i hnotri
      have hframe_a := post1.frame a hnotra
      have hlowlt : st.lowlinks i < (st.counter : ℤ) := by
        rcases pre.phase with ⟨_, hlow1, _, _⟩ | ⟨_, hlow2⟩
        · rw [hlow1]; exact pre.idx_lt_i
        · rw [hlow2]; exact pre.a_lt
      have hmin2 : min (stJ.lowlinks i) (stJ.lowlinks j) = stJ.lowlinks i := by
        rw [hframe_i.2, post1.at_x.2]
        exact min_eq_left (le_of_lt hlowlt)
      have hst2 : tjMinLow n stJ i (stJ.lowlinks j) = stJ := by
        unfold tjMinLow
        rw [hmin2, Function.update_eq_self]
      rw [hst2] at ih2
      have pre2 : OrbScanPre n heads a p d stJ i rest :=
        { hp2 := pre.hp2, hcyc := pre.hcyc, hmin := pre.hmin, hi := pre.hi
          hd1 := pre.hd1, hdp := pre.hdp
          nodup := (List.nodup_cons.mp pre.nodup).2
          dep_head := fun u hu => pre.dep_head u (List.mem_cons_of_mem j hu)
          tree_closed := by
            intro v hv hvne u hur hvisJ
            rcases post1.growth u hvisJ with hold | hreach
            · obtain ⟨hoff, hcl⟩ :=
                pre.tree_closed v (List.mem_cons_of_mem j hv) hvne u hur hold
              exact ⟨by rw [post1.onstack_eq u]; exact hoff,
                fun w hw => post1.mono w (hcl w hw)⟩
            · exfalso
              have hjv : j ≠ v := fun h => (List.nodup_cons.mp pre.nodup).1 (h ▸ hv)
              have hvhead : heads v = i := pre.dep_head v (List.mem_cons_of_mem j hv)
              rcases reach_both_cycle n heads i j v u hhead hvhead hjv hreach hur with hc | hc
              · exact hnc hc
              · exact dep_not_oncycle n heads a p d pre.hp2 pre.hcyc pre.hd1 v
                  (fun hvo => hvne (orbit_dep_unique n heads a p d pre.hp2 pre.hcyc
                    pre.hmin pre.hd1 pre.hdp v hvo (hvhead.trans pre.hi.symm)))
                  (hvhead.trans pre.hi.symm) hc
          vis_i := by rw [hframe_i.1]; exact pre.vis_i
          on_i := by rw [post1.onstack_eq i]; exact pre.on_i
          idx_lt_i := by
            rw [hframe_i.1]
            have h1 := pre.idx_lt_i
            have h2 : (st.counter : ℤ) < stJ.counter := by
              exact_mod_cast post1.counter_lt
            omega
          a_on := by rw [post1.onstack_eq a]; exact pre.a_on
          a_idx := post1.mono a pre.a_idx
          a_lt := by
            rw [hframe_a.1]
            have h1 := pre.a_lt
            have h2 : (st.counter : ℤ) < stJ.counter := by
              exact_mod_cast post1.counter_lt
            omega
          a_le_i := by rw [hframe_a.1, hframe_i.1]; exact pre.a_le_i
          global_off := by
            intro u hu
            have hust : st.indices u = -1 := by
              by_contra hc
              exact (post1.mono u hc) hu
            rw [post1.onstack_eq u]
            exact pre.global_off u hust
          phase := by
            rcases pre.phase with ⟨hsmem, hlow1, harc, hra⟩ | ⟨hnmem, hlow2⟩
            · left
              refine ⟨?_, ?_, ?_, ?_⟩
              · rcases List.mem_cons.mp hsmem with h | h
                · exact absurd h.symm hjs
                · exact h
              · rw [hframe_i.2, hframe_i.1]
                exact hlow1
              · intro t ht1 htd
                by_contra hvist
                have hv2 : stJ.indices (heads^[t] a) ≠ -1 := hvist
                rcases post1.growth _ hv2 with hold | hreach
                · exact hold (harc t ht1 htd)
                · exact hjn (orbit_reach_closed n heads a p hp1 pre.hcyc
                    (heads^[t] a) j
                    ⟨t % p, Nat.mod_lt _ (by omega),
                      (orb_mod n heads a p hp1 pre.hcyc t).symm⟩ hreach)
              · intro hd2 u hur hvisJ
                rcases post1.growth u hvisJ with hold | hreach
                · obtain ⟨hoff, hcl⟩ := hra hd2 u hur hold
                  exact ⟨by rw [post1.onstack_eq u]; exact hoff,
                    fun w hw => post1.mono w (hcl w hw)⟩
                · exact absurd hur (tree_basin_not_ravoid n heads a p pre.hp2
                    pre.hcyc pre.hmin u j d (d - 1) pre.hd1 pre.hdp (by omega)
                    (by omega) hjn hji_eq hreach)
            · right
              exact ⟨fun h => hnmem (List.mem_cons_of_mem j h),
                by rw [hframe_i.2, hframe_a.1]; exact hlow2⟩ }
      have post2 := ih2 a p d pre2
      refine
        { stack1 := fun h => ?_
          stack2 := fun h => ?_
          on1 := fun h => ?_
          on2 := fun h u => ?_
          cycles_eq := by rw [post2.cycles_eq, post1.cycles_eq]
          low_final := by rw [post2.low_final, hframe_a.1]
          idx_i_eq := by rw [post2.idx_i_eq, hframe_i.1]
          frame := ?_
          growth := ?_
          counter_le := le_trans (le_of_lt post1.counter_lt) post2.counter_le
          mono := fun u hu => post2.mono u (post1.mono u hu)
          fullT := ?_
          fullS := fun hd2 h => ?_ }
      · rcases List.mem_cons.mp h with h' | h'
        · exact absurd h'.symm hjs
        · rw [post2.stack1 h', post1.stack_eq]
      · rw [post2.stack2 (fun h' => h (List.mem_cons_of_mem j h')), post1.stack_eq]
      · rcases List.mem_cons.mp h with h' | h'
        · exact absurd h'.symm hjs
        · obtain ⟨hon1a, hon1b⟩ := post2.on1 h'
          exact ⟨hon1a, fun u hu => by rw [hon1b u hu, post1.onstack_eq u]⟩
      · rw [post2.on2 (fun h' => h (List.mem_cons_of_mem j h')) u, post1.onstack_eq u]
      · intro u hu
        have huj : ¬ Reaches n heads u j := fun hr =>
          hu (pre.hi ▸ reach_tree_ravoid n heads a p hp1 pre.hcyc u j d pre.hd1
            pre.hdp hjn hji_eq hr)
        have h1 := post1.frame u huj
        have h2 := post2.frame u hu
        exact ⟨by rw [h2.1, h1.1], by rw [h2.2, h1.2]⟩
      · intro u hu
        rcases post2.growth u hu with hJ | hR
        · rcases post1.growth u hJ with hold | hreach
          · exact Or.inl hold
          · exact Or.inr (pre.hi ▸ reach_tree_ravoid n heads a p hp1 pre.hcyc u j d
              pre.hd1 pre.hdp hjn hji_eq hreach)
        · exact Or.inr hR
      · intro v hv hvne u hur
        rcases List.mem_cons.mp hv with rfl | hmem2
        · exact post2.mono u (post1.full u hur)
        · exact post2.fullT v hmem2 hvne u hur
      · rcases List.mem_cons.mp h with h' | h'
        · exact absurd h'.symm hjs
        · exact post2.fullS hd2 h'
  | back st i j rest st' hj hon hrest ih =>
    intro a p d pre
    have hmem : j ∈ j :: rest := List.mem_cons_self j rest
    by_cases hjs : j = heads^[d - 1] a
    · rcases pre.phase with ⟨hsmem, hlow1, harc, hra⟩ | ⟨hnmem, hlow2⟩
      · by_cases hd2 : 2 ≤ d
        · exact absurd (hjs ▸ harc (d - 1) (by omega) (by omega)) hj
        · -- d = 1: the closing back edge at the anchor
          have hd1 : d = 1 := by have := pre.hd1; omega
          have hja : j = a := by rw [hjs, hd1]; simp
          have hsne : heads^[d - 1] a ∉ rest := by
            intro h
            rw [← hjs] at h
            exact (List.nodup_cons.mp pre.nodup).1 h
          have hmin2 : min (st.lowlinks i) (st.indices j) = st.indices a := by
            rw [hlow1, hja]
            exact min_eq_right pre.a_le_i
          have pre2 : OrbScanPre n heads a p d
              (tjMinLow n st i (st.indices j)) i rest :=
            { hp2 := pre.hp2, hcyc := pre.hcyc, hmin := pre.hmin, hi := pre.hi
              hd1 := pre.hd1, hdp := pre.hdp
              nodup := (List.nodup_cons.mp pre.nodup).2
              dep_head := fun u hu => pre.dep_head u (List.mem_cons_of_mem j hu)
              tree_closed := fun u hu hne' v hv hvis =>
                pre.tree_closed u (List.mem_cons_of_mem j hu) hne' v hv hvis
              vis_i := pre.vis_i, on_i := pre.on_i, idx_lt_i := pre.idx_lt_i
              a_on := pre.a_on, a_idx := pre.a_idx, a_lt := pre.a_lt
              a_le_i := pre.a_le_i, global_off := pre.global_off
              phase := by
                right
                refine ⟨hsne, ?_⟩
                show Function.update st.lowlinks i
                  (min (st.lowlinks i) (st.indices j)) i = st.indices a
                rw [Function.update_same, hmin2] }
          have post := ih a p d pre2
          refine
            { stack1 := ?_
              stack2 := fun h => absurd hmem (hjs ▸ h)
              on1 := ?_
              on2 := fun h => absurd hmem (hjs ▸ h)
              cycles_eq := post.cycles_eq
              low_final := post.low_final
              idx_i_eq := post.idx_i_eq
              frame := ?_
              growth := post.growth
              counter_le := post.counter_le
              mono := post.mono
              fullT := ?_
              fullS := fun h2d _ => absurd h2d (by omega) }
          · intro _
            rw [hd1]
            show st'.stack = arcList n heads a 0 ++ st.stack
            rw [show arcList n heads a 0 = [] from rfl, List.nil_append]
            exact post.stack2 hsne
          · intro _
            rw [hd1]
            constructor
            · intro u hu
              exact absurd hu (by rw [show arcList n heads a 0 = [] from rfl]; exact List.not_mem_nil u)
            · intro u _
              exact post.on2 hsne u
          · intro u hu
            have h2 := post.frame u hu
            have hui : u ≠ i := fun h => hu (h ▸ ravoid_self n heads i a)
            refine ⟨h2.1, ?_⟩
            rw [h2.2]
            show Function.update st.lowlinks i
              (min (st.lowlinks i) (st.indices j)) u = st.lowlinks u
            rw [Function.update_noteq hui]
          · intro v hv hvne u hur
            rcases List.mem_cons.mp hv with rfl | hmem'
            · exact absurd hjs hvne
            · exact post.fullT v hmem' hvne u hur
      · exact absurd (hjs ▸ hmem) hnmem
    · obtain ⟨hoffj, _⟩ := pre.tree_closed j hmem hjs j (reaches_refl n heads j) hj
      rw [hoffj] at hon
      exact absurd hon (by simp)
  | skip st i j rest st' hj hon hrest ih =>
    intro a p d pre
    have hmem : j ∈ j :: rest := List.mem_cons_self j rest
    by_cases hjs : j = heads^[d - 1] a
    · exfalso
      rcases pre.phase with ⟨hsmem, hlow1, harc, hra⟩ | ⟨hnmem, hlow2⟩
      · by_cases hd2 : 2 ≤ d
        · exact hj (hjs ▸ harc (d - 1) (by omega) (by omega))
        · have hd1 : d = 1 := by have := pre.hd1; omega
          have hja : j = a := by rw [hjs, hd1]; simp
          rw [hja] at hon
          exact hon pre.a_on
      · exact hnmem (hjs ▸ hmem)
    · obtain ⟨hoffj, hclj⟩ := pre.tree_closed j hmem hjs j (reaches_refl n heads j) hj
      have pre2 : OrbScanPre n heads a p d st i rest :=
        { hp2 := pre.hp2, hcyc := pre.hcyc, hmin := pre.hmin, hi := pre.hi
          hd1 := pre.hd1, hdp := pre.hdp
          nodup := (List.nodup_cons.mp pre.nodup).2
          dep_head := fun u hu => pre.dep_head u (List.mem_cons_of_mem j hu)
          tree_closed := fun u hu hne' v hv hvis =>
            pre.tree_closed u (List.mem_cons_of_mem j hu) hne' v hv hvis
          vis_i := pre.vis_i, on_i := pre.on_i, idx_lt_i := pre.idx_lt_i
          a_on := pre.a_on, a_idx := pre.a_idx, a_lt := pre.a_lt
          a_le_i := pre.a_le_i, global_off := pre.global_off
          phase := by
            rcases pre.phase with ⟨hsmem, hlow1, harc, hra⟩ | ⟨hnmem, hlow2⟩
            · left
              refine ⟨?_, hlow1, harc, hra⟩
              rcases List.mem_cons.mp hsmem with h | h
              · exact absurd h.symm hjs
              · exact h
            · right
              exact ⟨fun h => hnmem (List.mem_cons_of_mem j h), hlow2⟩ }
      have post := ih a p d pre2
      refine
        { stack1 := ?_
          stack2 := fun h => post.stack2 (fun h' => h (List.mem_cons_of_mem j h'))
          on1 := ?_
          on2 := fun h => post.on2 (fun h' => h (List.mem_cons_of_mem j h'))
          cycles_eq := post.cycles_eq
          low_final := post.low_final
          idx_i_eq := post.idx_i_eq
          frame := post.frame
          growth := post.growth
          counter_le := post.counter_le
          mono := post.mono
          fullT := ?_
          fullS := ?_ }
      · intro h
        rcases List.mem_cons.mp h with h' | h'
        · exact absurd h'.symm hjs
        · exact post.stack1 h'
      · intro h
        rcases List.mem_cons.mp h with h' | h'
        · exact absurd h'.symm hjs
        · exact post.on1 h'
      · intro v hv hvne u hur
        rcases List.mem_cons.mp hv with rfl | hmem'
        · exact post.mono u (hclj u hur)
        · exact post.fullT v hmem' hvne u hur
      · intro h2d h
        rcases List.mem_cons.mp h with h' | h'
        · exact absurd h'.symm hjs
        · exact post.fullS h2d h'

/-- A take/drop computation for the component pop: the popped prefix is the
arc, the anchor stops the scan. -/
theorem takeWhile_arc {α : Type} (q : α → Bool) :
    ∀ (l : List α) (x : α) (r : List α), (∀ y ∈ l, q y = true) → q x = false →
      (l ++ x :: r).takeWhile q = l ∧ (l ++ x :: r).dropWhile q = x :: r := by
  intro l
  induction l with
  | nil =>
    intro x r _ hx
    constructor
    · show (x :: r).takeWhile q = []
      rw [List.takeWhile_cons, hx]
      simp
    · show (x :: r).dropWhile q = x :: r
      rw [List.dropWhile_cons, hx]
      simp
  | cons y t ih =>
    intro x r hl hx
    obtain ⟨ih1, ih2⟩ := ih x r (fun z hz => hl z (List.mem_cons_of_mem y hz)) hx
    have hy : q y = true := hl y (List.mem_cons_self y t)
    constructor
    · show ((y :: t) ++ x :: r).takeWhile q = y :: t
      rw [List.cons_append, List.takeWhile_cons, hy]
      simp only [if_true]
      rw [ih1]
    · show ((y :: t) ++ x :: r).dropWhile q = x :: r
      rw [List.cons_append, List.dropWhile_cons, hy]
      simp only [if_true]
      exact ih2

/-- Two distinct members force a mask popcount of at least 2. -/
theorem countTrue_two_le (n : ℕ) (c : Fin n → Bool) (x y : Fin n) (hxy : x ≠ y)
    (hx : c x = true) (hy : c y = true) : 2 ≤ countTrue n c := by
  unfold countTrue
  have hxm : x ∈ (List.finRange n).filter (fun j => c j) :=
    List.mem_filter.mpr ⟨List.mem_finRange x, by simp [hx]⟩
  have hym : y ∈ (List.finRange n).filter (fun j => c j) :=
    List.mem_filter.mpr ⟨List.mem_finRange y, by simp [hy]⟩
  rcases List.mem_iff_append.mp hxm with ⟨l₁, l₂, hsplit⟩
  rw [hsplit]
  rw [hsplit] at hym
  rcases List.mem_append.mp hym with h | h
  · have := List.length_pos_of_mem h
    simp only [List.length_append, List.length_cons]
    omega
  · rcases List.mem_cons.mp h with h' | h'
    · exact absurd h'.symm hxy
    · have := List.length_pos_of_mem h'
      simp only [List.length_append, List.length_cons]
      omega

/-- A first arrival avoids the target en route. -/
theorem reaches_ravoid_self (n : ℕ) (heads : Fin n → Fin n) (u a : Fin n)
    (hr : Reaches n heads u a) : RAvoid n heads u a a := by
  have hex : ∃ k, heads^[k] u = a := hr
  refine ⟨Nat.find hex, Nat.find_spec hex, ?_⟩
  intro k' hk'
  exact Nat.find_min hex hk'

/-- A cycle node with a non-trivial step has a minimal period of at least 2. -/
theorem exists_min_period (n : ℕ) (heads : Fin n → Fin n) (u : Fin n)
    (hc : OnCycleF n heads u) (hne : heads u ≠ u) :
    ∃ p, 2 ≤ p ∧ heads^[p] u = u ∧ ∀ q, 1 ≤ q → q < p → heads^[q] u ≠ u := by
  obtain ⟨p₀, hp₀1, hp₀⟩ := hc
  have hex : ∃ p, 1 ≤ p ∧ heads^[p] u = u := ⟨p₀, hp₀1, hp₀⟩
  obtain ⟨hf1, hf2⟩ := Nat.find_spec hex
  refine ⟨Nat.find hex, ?_, hf2, ?_⟩
  · rcases Nat.lt_or_ge (Nat.find hex) 2 with h | h
    · exfalso
      have h1 : Nat.find hex = 1 := by omega
      rw [h1] at hf2
      exact hne (by simpa using hf2)
    · exact h
  · intro q hq1 hq2 hq
    exact Nat.find_min hex hq2 ⟨hq1, hq⟩

/-- Precondition of the first call on a node of a non-trivial cycle (minimal
period `p ≥ 2`): the node is unvisited and any visited part of its basin is
closed. -/
structure AnchorPre (n : ℕ) (heads : Fin n → Fin n) (a : Fin n) (p : ℕ)
    (st : TarjanState n) : Prop where
  hp2 : 2 ≤ p
  hcyc : heads^[p] a = a
  hmin : ∀ q, 1 ≤ q → q < p → heads^[q] a ≠ a
  unvis : st.indices a = -1
  closed_vis : ∀ u, Reaches n heads u a → st.indices u ≠ -1 →
    st.onstack u = false ∧ ∀ w, Reaches n heads w u → st.indices w ≠ -1
  global_off : ∀ j, st.indices j = -1 → st.onstack j = false

/-- Postcondition of the anchor call: the whole cycle is pushed, found again
by the closing back edge, and popped as one emitted component whose mask is
exactly the cycle. -/
structure AnchorPost (n : ℕ) (heads : Fin n → Fin n) (a : Fin n) (p : ℕ)
    (st : TarjanState n) (st' : TarjanState n) : Prop where
  stack_eq : st'.stack = st.stack
  onstack_eq : ∀ u, st'.onstack u = st.onstack u
  emitted : ∃ c, st'.cycles = st.cycles ++ [c] ∧
    ∀ u, c u = true ↔ MemOrbit n heads a p u
  frame : ∀ u, ¬ Reaches n heads u a →
    st'.indices u = st.indices u ∧ st'.lowlinks u = st.lowlinks u
  growth : ∀ u, st'.indices u ≠ -1 → st.indices u ≠ -1 ∨ Reaches n heads u a
  full : ∀ u, Reaches n heads u a → st'.indices u ≠ -1
  mono : ∀ j, st.indices j ≠ -1 → st'.indices j ≠ -1

/-- The anchor call theorem: inversion of the big-step derivation plus the
orbit scan lemma. -/
theorem anchor_call (n : ℕ) (heads : Fin n → Fin n) (a : Fin n) (p : ℕ)
    (st st' : TarjanState n) (h : TRel n heads (.sc a) st st')
    (pre : AnchorPre n heads a p st) : AnchorPost n heads a p st st' := by
  have hp1 : 1 ≤ p := by have := pre.hp2; omega
  have horb_unvis : ∀ t, 1 ≤ t → t ≤ p - 1 → st.indices (heads^[t] a) = -1 := by
    intro t ht1 htd
    by_contra hvis
    have hral : Reaches n heads (heads^[t] a) a :=
      ⟨p - t, by rw [← Function.iterate_add_apply, show p - t + t = p by omega, pre.hcyc]⟩
    obtain ⟨_, hcl⟩ := pre.closed_vis (heads^[t] a) hral hvis
    exact (hcl a ⟨t, rfl⟩) pre.unvis
  have hs_in : heads^[p - 1] a ∈ tjDeps n heads a := by
    unfold tjDeps
    refine List.mem_filter.mpr ⟨List.mem_finRange _, ?_⟩
    simp only [decide_eq_true_eq]
    rw [← Function.iterate_succ_apply' heads (p - 1) a,
      show (p - 1).succ = p from by omega, pre.hcyc]
  have hpre1 : ∀ st2, TRel n heads (.scan a (tjDeps n heads a)) (tjPush n st a) st2 →
      OrbScanPost n heads a p p (tjPush n st a) a (tjDeps n heads a) st2 := by
    intro st2 hscan
    refine trel_orbit n heads _ _ _ hscan a p p ?_
    refine
      { hp2 := pre.hp2, hcyc := pre.hcyc, hmin := pre.hmin, hi := pre.hcyc
        hd1 := by omega, hdp := le_rfl
        nodup := tjDeps_nodup n heads a
        dep_head := fun j hj => tjDeps_head n heads a j hj
        tree_closed := ?_
        vis_i := ?_
        on_i := by
          show Function.update st.onstack a true a = true
          rw [Function.update_same]
        idx_lt_i := ?_
        a_on := by
          show Function.update st.onstack a true a = true
          rw [Function.update_same]
        a_idx := ?_
        a_lt := ?_
        a_le_i := le_rfl
        global_off := ?_
        phase := ?_ }
    · intro j hj hne u hur hvis1
      have hjhead : heads j = a := tjDeps_head n heads a j hj
      have hjn : ¬ MemOrbit n heads a p j := fun hv =>
        hne (orbit_dep_unique n heads a p p pre.hp2 pre.hcyc pre.hmin
          (by omega) le_rfl j hv (hjhead.trans pre.hcyc.symm))
      have hnc : ¬ OnCycleF n heads j :=
        dep_not_oncycle n heads a p p pre.hp2 pre.hcyc (by omega) j hjn
          (hjhead.trans pre.hcyc.symm)
      have hnir : ¬ Reaches n heads a j := dep_not_reached n heads j a hjhead hnc
      have hui : u ≠ a := fun h => hnir (h ▸ hur)
      have hvis : st.indices u ≠ -1 := by
        have h1 : Function.update st.indices a ((st.counter : ℤ)) u ≠ -1 := hvis1
        rwa [Function.update_noteq hui] at h1
      obtain ⟨hoff, hcl⟩ := pre.closed_vis u
        (reaches_step n heads u j a hur hjhead) hvis
      constructor
      · show Function.update st.onstack a true u = false
        rw [Function.update_noteq hui]
        exact hoff
      · intro w hw
        show Function.update st.indices a ((st.counter : ℤ)) w ≠ -1
        by_cases hwa : w = a
        · subst hwa
          rw [Function.update_same]
          intro hc
          omega
        · rw [Function.update_noteq hwa]
          exact hcl w hw
    · show Function.update st.indices a ((st.counter : ℤ)) a ≠ -1
      rw [Function.update_same]
      intro hc
      omega
    · show Function.update st.indices a ((st.counter : ℤ)) a <
        ((st.counter + 1 : ℕ) : ℤ)
      rw [Function.update_same]
      push_cast
      omega
    · show Function.update st.indices a ((st.counter : ℤ)) a ≠ -1
      rw [Function.update_same]
      intro hc
      omega
    · show Function.update st.indices a ((st.counter : ℤ)) a <
        ((st.counter + 1 : ℕ) : ℤ)
      rw [Function.update_same]
      push_cast
      omega
    · intro u hu
      have hua : u ≠ a := by
        intro h
        subst h
        have h1 : Function.update st.indices u ((st.counter : ℤ)) u = -1 := hu
        rw [Function.update_same] at h1
        omega
      have hust : st.indices u = -1 := by
        have h1 : Function.update st.indices a ((st.counter : ℤ)) u = -1 := hu
        rwa [Function.update_noteq hua] at h1
      show Function.update st.onstack a true u = false
      rw [Function.update_noteq hua]
      exact pre.global_off u hust
    · left
      refine ⟨hs_in, ?_, ?_, ?_⟩
      · show Function.update st.lowlinks a ((st.counter : ℤ)) a =
          Function.update st.indices a ((st.counter : ℤ)) a
        rw [Function.update_same, Function.update_same]
      · intro t ht1 htd
        have htne : heads^[t] a ≠ a := pre.hmin t ht1 (by omega)
        show Function.update st.indices a ((st.counter : ℤ)) (heads^[t] a) = -1
        rw [Function.update_noteq htne]
        exact horb_unvis t ht1 htd
      · intro hd2 u hur hvis1
        have hua : u ≠ a := by
          intro h
          subst h
          have h1 := arc_not_ravoid n heads u p p pre.hp2 pre.hcyc pre.hmin
            pre.hp2 le_rfl
          rw [pre.hcyc] at h1
          exact h1 hur
        have hvis : st.indices u ≠ -1 := by
          have h1 : Function.update st.indices a ((st.counter : ℤ)) u ≠ -1 := hvis1
          rwa [Function.update_noteq hua] at h1
        obtain ⟨hoff, hcl⟩ := pre.closed_vis u
          (reaches_step n heads u (heads^[p - 1] a) a (ravoid_reaches n heads u _ a hur)
            (by rw [← Function.iterate_succ_apply' heads (p - 1) a,
              show (p - 1).succ = p from by omega, pre.hcyc])) hvis
        constructor
        · show Function.update st.onstack a true u = false
          rw [Function.update_noteq hua]
          exact hoff
        · intro w hw
          show Function.update st.indices a ((st.counter : ℤ)) w ≠ -1
          by_cases hwa : w = a
          · subst hwa
            rw [Function.update_same]
            intro hc
            omega
          · rw [Function.update_noteq hwa]
            exact hcl w hw
  have harc_ne : ∀ y ∈ arcList n heads a (p - 1), (fun j => decide (j ≠ a)) y = true := by
    intro y hy
    simp only [decide_eq_true_eq]
    intro hya
    exact a_not_mem_arcList n heads a p (p - 1) pre.hcyc pre.hmin le_rfl (hya ▸ hy)
  have harc_off : ∀ u ∈ arcList n heads a (p - 1), st.onstack u = false := by
    intro u hu
    obtain ⟨t, ht1, htd, ht⟩ := (mem_arcList n heads a (p - 1) u).mp hu
    exact pre.global_off u (ht ▸ horb_unvis t ht1 htd)
  have horbit : ∀ u, (u = a ∨ u ∈ arcList n heads a (p - 1)) ↔ MemOrbit n heads a p u := by
    intro u
    constructor
    · rintro (rfl | hm)
      · exact ⟨0, by omega, rfl⟩
      · obtain ⟨t, ht1, htd, ht⟩ := (mem_arcList n heads a (p - 1) u).mp hm
        exact ⟨t, by omega, ht⟩
    · rintro ⟨t, htp, ht⟩
      by_cases ht0 : t = 0
      · subst ht0
        exact Or.inl ht.symm
      · exact Or.inr ((mem_arcList n heads a (p - 1) u).mpr ⟨t, by omega, by omega, ht⟩)
  cases h with
  | emit st i st2 hvis hscan hlow =>
    have post := hpre1 st2 hscan
    have hstk : st2.stack = arcList n heads a (p - 1) ++ a :: st.stack := by
      rw [post.stack1 hs_in]
      rfl
    obtain ⟨htake, hdrop⟩ := takeWhile_arc (fun j => decide (j ≠ a))
      (arcList n heads a (p - 1)) a st.stack harc_ne (by simp)
    have htake2 : tjPopped n st2 a = arcList n heads a (p - 1) := by
      unfold tjPopped
      rw [hstk]
      exact htake
    have hmask_iff : ∀ u, tjMask n st2 a u = true ↔
        (u = a ∨ u ∈ arcList n heads a (p - 1)) := by
      intro u
      unfold tjMask
      rw [htake2]
      simp
    have hcount : 1 < countTrue n (tjMask n st2 a) := by
      have hne1 : a ≠ heads a := by
        intro he
        exact pre.hmin 1 le_rfl (by have := pre.hp2; omega) (by simpa using he.symm)
      refine countTrue_two_le n (tjMask n st2 a) a (heads a) hne1 ?_ ?_
      · exact (hmask_iff a).mpr (Or.inl rfl)
      · refine (hmask_iff (heads a)).mpr (Or.inr ?_)
        exact (mem_arcList n heads a (p - 1) (heads a)).mpr
          ⟨1, le_rfl, by have := pre.hp2; omega, by simp⟩
    refine
      { stack_eq := ?_
        onstack_eq := ?_
        emitted := ⟨tjMask n st2 a, ?_, ?_⟩
        frame := ?_
        growth := ?_
        full := ?_
        mono := ?_ }
    · show (st2.stack.dropWhile (fun j => decide (j ≠ a))).tail = st.stack
      rw [hstk, hdrop]
      rfl
    · intro u
      show (if tjMask n st2 a u then false else st2.onstack u) = st.onstack u
      by_cases hm : tjMask n st2 a u = true
      · rw [if_pos hm]
        rcases (hmask_iff u).mp hm with rfl | hmem
        · exact (pre.global_off u pre.unvis).symm
        · exact (harc_off u hmem).symm
      · rw [if_neg hm]
        have hnm := (hmask_iff u).not.mp hm
        push_neg at hnm
        rw [(post.on1 hs_in).2 u hnm.2]
        show Function.update st.onstack a true u = st.onstack u
        rw [Function.update_noteq hnm.1]
    · show (if 1 < countTrue n (tjMask n st2 a) then st2.cycles ++ [tjMask n st2 a]
        else st2.cycles) = st.cycles ++ [tjMask n st2 a]
      rw [if_pos hcount, post.cycles_eq]
      rfl
    · intro u
      rw [hmask_iff u]
      exact horbit u
    · intro u hu
      have hua : u ≠ a := fun h => hu (h ▸ reaches_refl n heads a)
      have hnra : ¬ RAvoid n heads u a a := fun h => hu (ravoid_reaches n heads u a a h)
      have h2 := post.frame u hnra
      constructor
      · show st2.indices u = st.indices u
        rw [h2.1]
        show Function.update st.indices a ((st.counter : ℤ)) u = st.indices u
        rw [Function.update_noteq hua]
      · show st2.lowlinks u = st.lowlinks u
        rw [h2.2]
        show Function.update st.lowlinks a ((st.counter : ℤ)) u = st.lowlinks u
        rw [Function.update_noteq hua]
    · intro u hu
      have hu2 : st2.indices u ≠ -1 := hu
      rcases post.growth u hu2 with h1 | h1
      · by_cases hua : u = a
        · exact Or.inr (hua ▸ reaches_refl n heads a)
        · left
          have h3 : Function.update st.indices a ((st.counter : ℤ)) u ≠ -1 := h1
          rwa [Function.update_noteq hua] at h3
      · exact Or.inr (ravoid_reaches n heads u a a h1)
    · intro u hur
      show st2.indices u ≠ -1
      by_cases hua : u = a
      · subst hua
        refine post.mono u ?_
        show Function.update st.indices u ((st.counter : ℤ)) u ≠ -1
        rw [Function.update_same]
        intro hc
        omega
      · obtain ⟨k, hk, hav⟩ := reaches_ravoid_self n heads u a hur
        have hkpos : k ≠ 0 := by
          intro h
          rw [h] at hk
          exact hua hk
        set jd := heads^[k - 1] u with hjd
        have hjdh : heads jd = a := by
          rw [hjd, ← Function.iterate_succ_apply' heads (k - 1) u,
            show (k - 1).succ = k by omega, hk]
        have hjdmem : jd ∈ tjDeps n heads a := by
          unfold tjDeps
          exact List.mem_filter.mpr ⟨List.mem_finRange jd, by simp [hjdh]⟩
        by_cases hjds : jd = heads^[p - 1] a
        · refine post.fullS pre.hp2 hs_in u ⟨k - 1, ?_, ?_⟩
          · rw [← hjds]
          · intro k' hk'
            exact hav k' (by omega)
        · exact post.fullT jd hjdmem hjds u ⟨k - 1, rfl⟩
    · intro j hj
      show st2.indices j ≠ -1
      refine post.mono j ?_
      by_cases hja : j = a
      · subst hja
        show Function.update st.indices j ((st.counter : ℤ)) j ≠ -1
        rw [Function.update_same]
        intro hc
        omega
      · show Function.update st.indices a ((st.counter : ℤ)) j ≠ -1
        rw [Function.update_noteq hja]
        exact hj
  | noemit =>
    exfalso
    rename_i hvis hlow hscan
    have post := hpre1 st' hscan
    have hlow2 : st'.lowlinks a = st'.indices a := post.low_final.trans post.idx_i_eq.symm
    exact hlow hlow2

/-- A node on a cycle that reaches a node of period `p` lies on that node's
orbit. -/
theorem cycle_reach_mem_orbit (n : ℕ) (heads : Fin n → Fin n) (u i : Fin n)
    (p : ℕ) (hp : 1 ≤ p) (hcyc : heads^[p] i = i) (hc : OnCycleF n heads u)
    (hr : Reaches n heads u i) : MemOrbit n heads i p u := by
  obtain ⟨m, hm⟩ := oncycle_reach_symm n heads u i hc hr
  exact ⟨m % p, Nat.mod_lt m (by omega), by
    rw [← orb_mod n heads i p hp hcyc m, hm]⟩

/-- A cycle node reaching a self-loop node is the self-loop node itself. -/
theorem selfloop_reach_eq (n : ℕ) (heads : Fin n → Fin n) (u i : Fin n)
    (hi : heads i = i) (hc : OnCycleF n heads u) (hr : Reaches n heads u i) :
    u = i := by
  obtain ⟨m, hm⟩ := oncycle_reach_symm n heads u i hc hr
  have hfix : heads^[m] i = i := by
    rw [show m = 1 * m by omega]
    exact orb_pow n heads i 1 (by simpa using hi) m
  rw [hfix] at hm
  exact hm.symm

/-- Invariant at the top of the `tarjan` loop: empty stack, all on-stack flags
off, the visited set closed under reachability, every emitted mask exactly a
non-trivial orbit, and every visited node of a non-trivial cycle already
covered by some emitted mask. -/
structure LoopInv (n : ℕ) (heads : Fin n → Fin n) (st : TarjanState n) : Prop where
  stack_nil : st.stack = []
  off : ∀ j, st.onstack j = false
  closed : ∀ u, st.indices u ≠ -1 → ∀ w, Reaches n heads w u → st.indices w ≠ -1
  sound : ∀ c ∈ st.cycles, ∃ a p, 2 ≤ p ∧ heads^[p] a = a ∧
    (∀ q, 1 ≤ q → q < p → heads^[q] a ≠ a) ∧
    ∀ u, c u = true ↔ MemOrbit n heads a p u
  comp : ∀ u, st.indices u ≠ -1 → OnCycleF n heads u → heads u ≠ u →
    ∃ c ∈ st.cycles, c u = true

/-- One top-level `strong_connect` call preserves the loop invariant and marks
its start node visited. -/
theorem sc_preserves_inv (n : ℕ) (heads : Fin n → Fin n) (i : Fin n)
    (st st' : TarjanState n) (h : TRel n heads (.sc i) st st')
    (inv : LoopInv n heads st) (hvis : st.indices i = -1) :
    LoopInv n heads st' ∧ st'.indices i ≠ -1 ∧
    (∀ j, st.indices j ≠ -1 → st'.indices j ≠ -1) := by
  by_cases hcase : OnCycleF n heads i ∧ heads i ≠ i
  · obtain ⟨p, hp2, hcyc, hmin⟩ := exists_min_period n heads i hcase.1 hcase.2
    have post : AnchorPost n heads i p st st' :=
      anchor_call n heads i p st st' h
        { hp2 := hp2, hcyc := hcyc, hmin := hmin, unvis := hvis
          closed_vis := fun u _ hv => ⟨inv.off u, inv.closed u hv⟩
          global_off := fun j _ => inv.off j }
    obtain ⟨c, hcycles, hcmask⟩ := post.emitted
    refine ⟨?_, post.full i (reaches_refl n heads i), post.mono⟩
    refine
      { stack_nil := post.stack_eq ▸ inv.stack_nil
        off := fun j => (post.onstack_eq j).trans (inv.off j)
        closed := ?_
        sound := ?_
        comp := ?_ }
    · intro u hu w hw
      rcases post.growth u hu with hold | hreach
      · exact post.mono w (inv.closed u hold w hw)
      · exact post.full w (reaches_trans n heads w u i hw hreach)
    · intro c' hc'
      rw [hcycles] at hc'
      rcases List.mem_append.mp hc' with hm | hm
      · exact inv.sound c' hm
      · rcases List.mem_singleton.mp hm with rfl
        exact ⟨i, p, hp2, hcyc, hmin, hcmask⟩
    · intro u hu hcu hneu
      rcases post.growth u hu with hold | hreach
      · obtain ⟨c', hc'm, hc'u⟩ := inv.comp u hold hcu hneu
        exact ⟨c', by rw [hcycles]; exact List.mem_append.mpr (Or.inl hc'm), hc'u⟩
      · refine ⟨c, by rw [hcycles]; exact List.mem_append.mpr (Or.inr (List.mem_singleton.mpr rfl)), ?_⟩
        exact (hcmask u).mpr (cycle_reach_mem_orbit n heads u i p (by omega) hcyc hcu hreach)
  · have post : SCPost n heads st i st' :=
      trel_tree n heads (.sc i) st st' h
        { unvis := hvis
          closed_vis := fun u _ hv => ⟨inv.off u, inv.closed u hv⟩
          basin_acyclic := by
            intro j hr hne hcj
            have hci : OnCycleF n heads i := oncycle_reach n heads j i hcj hr
            by_cases hii : heads i = i
            · exact hne (selfloop_reach_eq n heads j i hii hcj hr)
            · exact hcase ⟨hci, hii⟩
          global_off := fun j _ => inv.off j }
    refine ⟨?_, post.full i (reaches_refl n heads i), post.mono⟩
    refine
      { stack_nil := post.stack_eq ▸ inv.stack_nil
        off := fun j => (post.onstack_eq j).trans (inv.off j)
        closed := ?_
        sound := ?_
        comp := ?_ }
    · intro u hu w hw
      rcases post.growth u hu with hold | hreach
      · exact post.mono w (inv.closed u hold w hw)
      · exact post.full w (reaches_trans n heads w u i hw hreach)
    · intro c' hc'
      rw [post.cycles_eq] at hc'
      exact inv.sound c' hc'
    · intro u hu hcu hneu
      rcases post.growth u hu with hold | hreach
      · obtain ⟨c', hc'm, hc'u⟩ := inv.comp u hold hcu hneu
        exact ⟨c', by rw [post.cycles_eq]; exact hc'm, hc'u⟩
      · exfalso
        have hci : OnCycleF n heads i := oncycle_reach n heads u i hcu hreach
        by_cases hii : heads i = i
        · exact hneu (by rw [selfloop_reach_eq n heads u i hii hcu hreach, hii])
        · exact hcase ⟨hci, hii⟩

/-- The visiting loop preserves the invariant and visits every listed node. -/
theorem tarjanLoop_inv (n : ℕ) (heads : Fin n → Fin n) :
    ∀ (is : List (Fin n)) (st : TarjanState n), LoopInv n heads st →
      LoopInv n heads (tarjanLoop n heads st is) ∧
      (∀ j, st.indices j ≠ -1 → (tarjanLoop n heads st is).indices j ≠ -1) ∧
      (∀ i ∈ is, (tarjanLoop n heads st is).indices i ≠ -1) := by
  intro is
  induction is with
  | nil =>
    intro st inv
    exact ⟨inv, fun j hj => hj, fun i hi => absurd hi (List.not_mem_nil i)⟩
  | cons i rest ih =>
    intro st inv
    rw [tarjanLoop]
    by_cases hvis : st.indices i = -1
    · rw [dif_pos hvis]
      obtain ⟨inv', hi', hmono'⟩ := sc_preserves_inv n heads i st
        (strongConnect n heads n st i hvis (unvisitedCount_le_card n st)).val
        (strongConnect n heads n st i hvis (unvisitedCount_le_card n st)).property.2
        inv hvis
      obtain ⟨invL, hmonoL, hallL⟩ := ih _ inv'
      refine ⟨invL, fun j hj => hmonoL j (hmono' j hj), ?_⟩
      intro i' hi'mem
      rcases List.mem_cons.mp hi'mem with rfl | hrest
      · exact hmonoL i' hi'
      · exact hallL i' hrest
    · rw [dif_neg hvis]
      obtain ⟨invL, hmonoL, hallL⟩ := ih st inv
      refine ⟨invL, hmonoL, ?_⟩
      intro i' hi'mem
      rcases List.mem_cons.mp hi'mem with rfl | hrest
      · exact hmonoL i' hvis
      · exact hallL i' hrest

/-- Soundness and completeness of the embedded `tarjan`: the returned masks
are exactly the non-trivial cycles of the functional graph `heads`. -/
theorem tarjan_sound_complete (n : ℕ) (heads : Fin n → Fin n) :
    (∀ c ∈ tarjan n heads, ∃ a p, 2 ≤ p ∧ heads^[p] a = a ∧
      (∀ q, 1 ≤ q → q < p → heads^[q] a ≠ a) ∧
      ∀ u, c u = true ↔ MemOrbit n heads a p u) ∧
    (∀ u, OnCycleF n heads u → heads u ≠ u → ∃ c ∈ tarjan n heads, c u = true) := by
  have hinit : LoopInv n heads (tarjanInit n) :=
    { stack_nil := rfl
      off := fun _ => rfl
      closed := fun u hu => absurd rfl hu
      sound := fun c hc => absurd hc (List.not_mem_nil c)
      comp := fun u hu => absurd rfl hu }
  obtain ⟨invL, _, hallL⟩ := tarjanLoop_inv n heads (List.finRange n) (tarjanInit n) hinit
  constructor
  · exact invL.sound
  · intro u hcu hneu
    exact invL.comp u (hallL u (List.mem_finRange u)) hcu hneu

/-! ## Optimality of the contraction recursion (C1) -/

/-! ## Optimality of `chu_liu_edmonds`: generic helper lemmas -/

/-- `argmaxIdxAux` explored over a virtual prefix `pre`: the running best is a
maximum of the prefix, and the final answer is a position of the maximum of
`pre ++ ys`. -/
theorem argmaxIdxAux_spec {α : Type} [LinearOrder α] (d : α) :
    ∀ (ys pre : List α) (cur : ℕ), cur < pre.length →
      (∀ j, j < pre.length → pre.getD j d ≤ pre.getD cur d) →
      argmaxIdxAux cur (pre.getD cur d) pre.length ys < pre.length + ys.length ∧
      ∀ j, j < pre.length + ys.length →
        (pre ++ ys).getD j d ≤
          (pre ++ ys).getD (argmaxIdxAux cur (pre.getD cur d) pre.length ys) d := by
  intro ys
  induction ys with
  | nil =>
    intro pre cur hcur hmax
    refine ⟨by simpa using hcur, ?_⟩
    intro j hj
    simp only [List.length_nil, Nat.add_zero] at hj
    rw [List.append_nil]
    exact hmax j hj
  | cons y ys ih =>
    intro pre cur hcur hmax
    have hgety : (pre ++ [y]).getD pre.length d = y := by
      rw [List.getD_append_right pre [y] d pre.length le_rfl]
      simp
    have hstable : ∀ j, j < pre.length → (pre ++ [y]).getD j d = pre.getD j d := by
      intro j hj
      exact List.getD_append pre [y] d j hj
    show argmaxIdxAux cur (pre.getD cur d) pre.length (y :: ys) < _ ∧ _
    rw [argmaxIdxAux]
    by_cases hlt : pre.getD cur d < y
    · rw [if_pos hlt]
      have h1 := ih (pre ++ [y]) pre.length (by simp)
        (by
          intro j hj
          rw [hgety]
          simp only [List.length_append, List.length_singleton] at hj
          by_cases hjp : j < pre.length
          · rw [hstable j hjp]
            exact (lt_of_le_of_lt (hmax j hjp) hlt).le
          · have : j = pre.length := by omega
            rw [this, hgety])
      rw [hgety] at h1
      have hlen : (pre ++ [y]).length = pre.length + 1 := by simp
      rw [hlen] at h1
      have happ : pre ++ [y] ++ ys = pre ++ y :: ys := by simp
      rw [happ] at h1
      refine ⟨by have := h1.1; simp only [List.length_cons]; omega, ?_⟩
      intro j hj
      exact h1.2 j (by simp only [List.length_cons] at hj; omega)
    · rw [if_neg hlt]
      have h1 := ih (pre ++ [y]) cur (by simp; omega)
        (by
          intro j hj
          rw [hstable cur hcur]
          simp only [List.length_append, List.length_singleton] at hj
          by_cases hjp : j < pre.length
          · rw [hstable j hjp]
            exact hmax j hjp
          · have : j = pre.length := by omega
            rw [this, hgety]
            exact le_of_not_lt hlt)
      rw [hstable cur hcur] at h1
      have hlen : (pre ++ [y]).length = pre.length + 1 := by simp
      rw [hlen] at h1
      have happ : pre ++ [y] ++ ys = pre ++ y :: ys := by simp
      rw [happ] at h1
      refine ⟨by have := h1.1; simp only [List.length_cons]; omega, ?_⟩
      intro j hj
      exact h1.2 j (by simp only [List.length_cons] at hj; omega)

/-- The argmax of a nonempty list is a valid position. -/
theorem argmaxIdx_lt_length {α : Type} [LinearOrder α] (d : α) (x : α) (xs : List α) :
    argmaxIdx (x :: xs) < (x :: xs).length := by
  have h := argmaxIdxAux_spec d xs [x] 0 (by simp) (fun j hj => by
    have hj0 : j = 0 := by simpa using hj
    rw [hj0])
  show argmaxIdxAux 0 x 1 xs < (x :: xs).length
  exact lt_of_lt_of_le h.1 (by simp [Nat.add_comm])

/-- The value at the argmax dominates every element. -/
theorem argmaxIdx_is_max {α : Type} [LinearOrder α] (d : α) (x : α) (xs : List α) :
    ∀ j, j < (x :: xs).length →
      (x :: xs).getD j d ≤ (x :: xs).getD (argmaxIdx (x :: xs)) d := by
  have h := argmaxIdxAux_spec d xs [x] 0 (by simp) (fun j hj => by
    have hj0 : j = 0 := by simpa using hj
    rw [hj0])
  intro j hj
  exact h.2 j (by
    simp only [List.length_singleton]
    simp only [List.length_cons] at hj
    omega)

/-- Subtracting then re-adding a finite score is the identity. -/
theorem ssub_add_cancel (x y : S) (hy : y ≠ ⊥) : ssub x y + y = x := by
  rcases y with _ | b
  · exact absurd rfl hy
  rcases x with _ | a
  · rfl
  · show (((a - b : ℤ) : S)) + ((b : ℤ) : S) = ((a : ℤ) : S)
    rw [← WithBot.coe_add]
    norm_num

/-- Splitting a mapped sum along a boolean predicate. -/
theorem sum_map_filter_split {α : Type} (l : List α) (p : α → Bool) (f : α → S) :
    ((l.filter p).map f).sum + ((l.filter (fun a => ¬ p a)).map f).sum
      = (l.map f).sum := by
  induction l with
  | nil => simp
  | cons a l ih =>
    by_cases h : p a = true
    · rw [List.filter_cons_of_pos h, List.filter_cons_of_neg (by simp [h])]
      simp only [List.map_cons, List.sum_cons]
      rw [add_assoc, ih]
    · rw [List.filter_cons_of_neg (by simp [h]), List.filter_cons_of_pos (by simp [h])]
      simp only [List.map_cons, List.sum_cons]
      rw [add_left_comm, ih]

/-- Enumerating a list by positions with a default recovers the list. -/
theorem map_getD_range {α : Type} (l : List α) (d : α) :
    (List.range l.length).map (fun k => l.getD k d) = l := by
  apply List.ext_getElem
  · simp
  · intro i h1 h2
    simp only [List.getElem_map, List.getElem_range]
    exact List.getD_eq_getElem l d h2

/-- Every node of a functional graph reaches a cycle node. -/
theorem reaches_cycle (n : ℕ) (f : Fin n → Fin n) (m : Fin n) :
    ∃ c, Reaches n f m c ∧ OnCycleF n f c := by
  have hcard : Fintype.card (Fin n) < Fintype.card (Fin (n + 1)) := by simp
  obtain ⟨a, b, hab, heq⟩ :=
    Fintype.exists_ne_map_eq_of_card_lt (fun k : Fin (n + 1) => f^[k.val] m) hcard
  rcases Nat.lt_or_ge a.val b.val with h | h
  · exact ⟨f^[a.val] m, ⟨a.val, rfl⟩, ⟨b.val - a.val, by omega, by
      rw [← Function.iterate_add_apply, show b.val - a.val + a.val = b.val by omega, heq]⟩⟩
  · have h' : b.val < a.val := by
      rcases Nat.lt_or_ge b.val a.val with h2 | h2
      · exact h2
      · exact absurd (Fin.ext (by omega)) hab
    exact ⟨f^[b.val] m, ⟨b.val, rfl⟩, ⟨a.val - b.val, by omega, by
      rw [← Function.iterate_add_apply, show a.val - b.val + b.val = a.val by omega, heq.symm]⟩⟩

/-! ## Arborescences and scores -/

/-- A spanning arborescence rooted at token 0: the root is a fixed point and
every token's head chain reaches the root. -/
def IsArbor (n : ℕ) (t : Fin n → Fin n) : Prop :=
  (∀ m : Fin n, m.val = 0 → t m = m) ∧ ∀ m : Fin n, ∃ k, (t^[k] m).val = 0

/-- Total score of a head assignment over a (prepared) matrix. -/
def pscore (n : ℕ) (P : Fin n → Fin n → S) (t : Fin n → Fin n) : S :=
  ((List.finRange n).map (fun m => P m (t m))).sum

/-- The spec's objective: the total arc score of the per-token heads over the
raw matrix (the root's self-arc is not an arc). -/
def treeScore (n : ℕ) (M : Fin n → Fin n → S) (t : Fin n → Fin n) : S :=
  (((List.finRange n).filter (fun m => m.val ≠ 0)).map (fun m => M m (t m))).sum

theorem arbor_no_self (n : ℕ) (t : Fin n → Fin n) (h : IsArbor n t) (m : Fin n)
    (hm : m.val ≠ 0) : t m ≠ m := by
  intro he
  obtain ⟨k, hk⟩ := h.2 m
  rw [Function.iterate_fixed he k] at hk
  exact hm hk

/-- Prepared entries outside the diagonal and row 0 are the raw scores. -/
theorem clePrep_entry (n : ℕ) (M : Fin n → Fin n → S) (m h : Fin n)
    (hm : m.val ≠ 0) (hne : h ≠ m) : clePrep n M m h = M m h := by
  unfold clePrep setCell00 setRow0 fill_diagonal
  rw [if_neg (by simp [hm]), if_neg hm, if_neg (fun hc : m = h => hne hc.symm)]

/-- The prepared diagonal is `-inf` off the root. -/
theorem clePrep_diag (n : ℕ) (M : Fin n → Fin n → S) (m : Fin n)
    (hm : m.val ≠ 0) : clePrep n M m m = ⊥ := by
  unfold clePrep setCell00 setRow0 fill_diagonal
  simp [hm]

/-- For an arborescence, the prepared total score is the root-stripped raw
total: the root's self-cell contributes the prepared `0`. -/
theorem pscore_eq_treeScore (N : ℕ) (M : Fin (N + 1) → Fin (N + 1) → S)
    (t : Fin (N + 1) → Fin (N + 1)) (h : IsArbor (N + 1) t) :
    pscore (N + 1) (clePrep (N + 1) M) t = treeScore (N + 1) M t := by
  unfold pscore treeScore
  rw [List.finRange_succ]
  rw [List.filter_cons_of_neg (by simp)]
  rw [List.map_cons, List.sum_cons]
  have ht0 : t 0 = 0 := h.1 0 rfl
  have hp00 : clePrep (N + 1) M 0 (t 0) = ((0 : ℤ) : S) := by
    rw [ht0]
    rw [clePrep_row0 N M 0 0 rfl]
    simp
  rw [hp00]
  have hfs : (List.filter (fun m => decide ¬m.val = 0) ((List.finRange N).map Fin.succ))
      = (List.finRange N).map Fin.succ := by
    apply List.filter_eq_self.mpr
    intro a ha
    obtain ⟨b, _, rfl⟩ := List.mem_map.mp ha
    simp [Fin.val_succ]
  rw [hfs]
  have hentry : ∀ a ∈ (List.finRange N).map Fin.succ,
      clePrep (N + 1) M a (t a) = M a (t a) := by
    intro a ha
    obtain ⟨b, _, rfl⟩ := List.mem_map.mp ha
    have hane : (Fin.succ b).val ≠ 0 := by simp [Fin.val_succ]
    exact clePrep_entry (N + 1) M (Fin.succ b) (t (Fin.succ b)) hane
      (arbor_no_self (N + 1) t h (Fin.succ b) hane)
  rw [List.map_congr_left hentry]
  simp

/-! ## The greedy (no-cycle) case -/

/-- A fold that never takes its branch is the identity. -/
theorem npArgmax_all_flat {α : Type} [LinearOrder α] (n : ℕ) (f : Fin n → α)
    (h : 0 < n) (hflat : ∀ i j : Fin n, ¬ f i < f j) :
    npArgmax n f h = ⟨0, h⟩ := by
  unfold npArgmax
  have haux : ∀ (l : List (Fin n)) (b : Fin n),
      l.foldl (fun best i => if f best < f i then i else best) b = b := by
    intro l
    induction l with
    | nil => intro b; rfl
    | cons a l ih =>
      intro b
      rw [List.foldl_cons, if_neg (hflat b a)]
      exact ih b
  exact haux _ _

/-- A fixed point of the greedy head choice is the root. -/
theorem cleGreedy_fixed_val (N : ℕ) (M : Fin (N + 1) → Fin (N + 1) → S)
    (c : Fin (N + 1)) (hc : cleGreedy (N + 1) M (Nat.succ_pos N) c = c) :
    c.val = 0 := by
  by_contra hne
  have hdiag : clePrep (N + 1) M c c = ⊥ := clePrep_diag (N + 1) M c hne
  have hbot : ∀ j, clePrep (N + 1) M c j = ⊥ := by
    intro j
    have := npArgmax_is_max (N + 1) (clePrep (N + 1) M c) (Nat.succ_pos N) j
    rw [show npArgmax (N + 1) (clePrep (N + 1) M c) (Nat.succ_pos N)
      = cleGreedy (N + 1) M (Nat.succ_pos N) c from rfl, hc, hdiag] at this
    simpa using this
  have hzero : cleGreedy (N + 1) M (Nat.succ_pos N) c = ⟨0, Nat.succ_pos N⟩ :=
    npArgmax_all_flat (N + 1) (clePrep (N + 1) M c) (Nat.succ_pos N)
      (by intro i j; rw [hbot i, hbot j]; simp)
  rw [hc] at hzero
  exact hne (by rw [hzero])

/-- A greedy row whose chosen score is `-inf` chose column 0. -/
theorem cleGreedy_bot_head (N : ℕ) (M : Fin (N + 1) → Fin (N + 1) → S)
    (c : Fin (N + 1))
    (hb : clePrep (N + 1) M c (cleGreedy (N + 1) M (Nat.succ_pos N) c) = ⊥) :
    cleGreedy (N + 1) M (Nat.succ_pos N) c = ⟨0, Nat.succ_pos N⟩ := by
  have hbot : ∀ j, clePrep (N + 1) M c j = ⊥ := by
    intro j
    have := npArgmax_is_max (N + 1) (clePrep (N + 1) M c) (Nat.succ_pos N) j
    rw [show npArgmax (N + 1) (clePrep (N + 1) M c) (Nat.succ_pos N)
      = cleGreedy (N + 1) M (Nat.succ_pos N) c from rfl, hb] at this
    simpa using this
  exact npArgmax_all_flat (N + 1) (clePrep (N + 1) M c) (Nat.succ_pos N)
    (by intro i j; rw [hbot i, hbot j]; simp)

/-- Without a non-trivial cycle among the greedy heads, the greedy assignment
is an arborescence. -/
theorem cleGreedy_arbor (N : ℕ) (M : Fin (N + 1) → Fin (N + 1) → S)
    (hnc : tarjan (N + 1) (cleGreedy (N + 1) M (Nat.succ_pos N)) = []) :
    IsArbor (N + 1) (cleGreedy (N + 1) M (Nat.succ_pos N)) := by
  constructor
  · intro m hm
    have hm0 : m = 0 := Fin.ext (by simpa using hm)
    subst hm0
    exact cleGreedy_zero N M 0 rfl
  · intro m
    obtain ⟨c, ⟨k, hk⟩, hcyc⟩ :=
      reaches_cycle (N + 1) (cleGreedy (N + 1) M (Nat.succ_pos N)) m
    have hfix : cleGreedy (N + 1) M (Nat.succ_pos N) c = c := by
      by_contra hne
      obtain ⟨c', hc', _⟩ :=
        (tarjan_sound_complete (N + 1) (cleGreedy (N + 1) M (Nat.succ_pos N))).2
          c hcyc hne
      rw [hnc] at hc'
      exact absurd hc' (List.not_mem_nil c')
    exact ⟨k, by rw [hk]; exact cleGreedy_fixed_val N M c hfix⟩

/-- The greedy assignment maximizes the prepared score over all head
assignments (each row independently attains its maximum). -/
theorem cleGreedy_opt (N : ℕ) (M : Fin (N + 1) → Fin (N + 1) → S)
    (t : Fin (N + 1) → Fin (N + 1)) :
    pscore (N + 1) (clePrep (N + 1) M) t ≤
      pscore (N + 1) (clePrep (N + 1) M) (cleGreedy (N + 1) M (Nat.succ_pos N)) := by
  unfold pscore
  apply List.sum_le_sum
  intro m _
  exact npArgmax_is_max (N + 1) (clePrep (N + 1) M m) (Nat.succ_pos N) (t m)

/-! ## The cycle-contraction step, named -/

/-- The greedy head map of the current level (line 607). -/
def cleHeads (N : ℕ) (M : Fin (N + 1) → Fin (N + 1) → S) : Fin (N + 1) → Fin (N + 1) :=
  fun m => npArgmax (N + 1) (clePrep (N + 1) M m) (Nat.succ_pos N)

/-- `np.where(cycle)[0]` (line 615). -/
def cycLocs (N : ℕ) (cycle : Fin (N + 1) → Bool) : List (Fin (N + 1)) :=
  (List.finRange (N + 1)).filter (fun j => cycle j)

/-- `np.where(~cycle)[0]` (line 624). -/
def ncycLocs (N : ℕ) (cycle : Fin (N + 1) → Bool) : List (Fin (N + 1)) :=
  (List.finRange (N + 1)).filter (fun j => ¬ cycle j)

/-- Indexing into the cycle-location list. -/
def cycD (N : ℕ) (cycle : Fin (N + 1) → Bool) (k : ℕ) : Fin (N + 1) :=
  (cycLocs N cycle).getD k ⟨0, Nat.succ_pos N⟩

/-- Indexing into the non-cycle-location list. -/
def ncycD (N : ℕ) (cycle : Fin (N + 1) → Bool) (k : ℕ) : Fin (N + 1) :=
  (ncycLocs N cycle).getD k ⟨0, Nat.succ_pos N⟩

/-- `cycle_score` (line 621): the total of the cycle's greedy arcs. -/
def cycScore (N : ℕ) (M : Fin (N + 1) → Fin (N + 1) → S)
    (cycle : Fin (N + 1) → Bool) : S :=
  ((cycLocs N cycle).map (fun c => clePrep (N + 1) M c (cleHeads N M c))).sum

/-- `metanode_head_scores` (lines 629-630). -/
def mnhs (N : ℕ) (M : Fin (N + 1) → Fin (N + 1) → S) (cycle : Fin (N + 1) → Bool)
    (ci mi : ℕ) : S :=
  ssub (clePrep (N + 1) M (cycD N cycle ci) (ncycD N cycle mi))
    (clePrep (N + 1) M (cycD N cycle ci) (cleHeads N M (cycD N cycle ci)))
    + cycScore N M cycle

/-- `metanode_heads` (line 634). -/
def mnHeads (N : ℕ) (M : Fin (N + 1) → Fin (N + 1) → S) (cycle : Fin (N + 1) → Bool)
    (mi : ℕ) : ℕ :=
  argmaxIdx ((List.range (cycLocs N cycle).length).map (fun ci => mnhs N M cycle ci mi))

/-- `metanode_deps` (lines 632/636). -/
def mnDeps (N : ℕ) (M : Fin (N + 1) → Fin (N + 1) → S) (cycle : Fin (N + 1) → Bool)
    (mi : ℕ) : ℕ :=
  argmaxIdx ((cycLocs N cycle).map (fun c => clePrep (N + 1) M (ncycD N cycle mi) c))

/-- The contracted matrix (lines 639-649). -/
def subScores (N : ℕ) (M : Fin (N + 1) → Fin (N + 1) → S) (cycle : Fin (N + 1) → Bool) :
    Fin ((ncycLocs N cycle).length + 1) → Fin ((ncycLocs N cycle).length + 1) → S :=
  fun i j =>
    if i.val < (ncycLocs N cycle).length then
      if j.val < (ncycLocs N cycle).length then
        clePrep (N + 1) M (ncycD N cycle i.val) (ncycD N cycle j.val)
      else clePrep (N + 1) M (ncycD N cycle i.val) (cycD N cycle (mnDeps N M cycle i.val))
    else
      if j.val < (ncycLocs N cycle).length then mnhs N M cycle (mnHeads N M cycle j.val) j.val
      else ((0 : ℤ) : S)

/-- Re-inflating a contracted tree to the full node set (lines 654-681). -/
def cleExpand (N : ℕ) (M : Fin (N + 1) → Fin (N + 1) → S) (cycle : Fin (N + 1) → Bool)
    (ct : Fin ((ncycLocs N cycle).length + 1) → Fin ((ncycLocs N cycle).length + 1)) :
    Fin (N + 1) → Fin (N + 1) :=
  fun t =>
    if hct : cycle t then
      if t = cycD N cycle (mnHeads N M cycle
          (ct ⟨(ncycLocs N cycle).length, Nat.lt_succ_self _⟩).val) then
        ncycD N cycle (ct ⟨(ncycLocs N cycle).length, Nat.lt_succ_self _⟩).val
      else cleHeads N M t
    else
      have htm : t ∈ ncycLocs N cycle :=
        List.mem_filter.mpr ⟨List.mem_finRange t, by simp [hct]⟩
      if (ct ⟨(ncycLocs N cycle).indexOf t,
          Nat.lt_succ_of_lt (List.indexOf_lt_length.mpr htm)⟩).val <
          (ncycLocs N cycle).length then
        ncycD N cycle (ct ⟨(ncycLocs N cycle).indexOf t,
          Nat.lt_succ_of_lt (List.indexOf_lt_length.mpr htm)⟩).val
      else cycD N cycle (mnDeps N M cycle ((ncycLocs N cycle).indexOf t))

/-- In the no-cycle case a fueled step returns the greedy heads unchanged. -/
theorem cleAux_succ_nocycle (fuel N : ℕ) (hle : N + 1 ≤ fuel + 1)
    (M : Fin (N + 1) → Fin (N + 1) → S)
    (h : tarjan (N + 1) (cleHeads N M) = []) :
    cleAux (fuel + 1) (N + 1) hle M = cleHeads N M := by
  rw [cleAux]
  split
  · rfl
  · rename_i cycle heq
    rw [show (fun m => npArgmax (N + 1) (clePrep (N + 1) M m) (Nat.succ_pos N)) =
      cleHeads N M from rfl, h] at heq
    simp at heq

/-- In the cycle case a fueled step contracts the last emitted cycle, recurses
and expands. -/
theorem cleAux_succ_cycle (fuel N : ℕ) (hle : N + 1 ≤ fuel + 1)
    (M : Fin (N + 1) → Fin (N + 1) → S) (cycle : Fin (N + 1) → Bool)
    (hcy : (tarjan (N + 1) (cleHeads N M)).getLast? = some cycle)
    (hf : (ncycLocs N cycle).length + 1 ≤ fuel) :
    cleAux (fuel + 1) (N + 1) hle M =
      cleExpand N M cycle
        (cleAux fuel ((ncycLocs N cycle).length + 1) hf (subScores N M cycle)) := by
  suffices h : ∀ g, cleAux (fuel + 1) (N + 1) hle M = g →
      g = cleExpand N M cycle
        (cleAux fuel ((ncycLocs N cycle).length + 1) hf (subScores N M cycle)) from
    h _ rfl
  intro g hg
  rw [cleAux] at hg
  split at hg
  · rename_i heq
    rw [show (fun m => npArgmax (N + 1) (clePrep (N + 1) M m) (Nat.succ_pos N)) =
      cleHeads N M from rfl, hcy] at heq
    simp at heq
  · rename_i cycle' heq
    have hcc : cycle' = cycle := by
      rw [show (fun m => npArgmax (N + 1) (clePrep (N + 1) M m) (Nat.succ_pos N)) =
        cleHeads N M from rfl, hcy] at heq
      exact (Option.some_inj.mp heq).symm
    subst hcc
    rw [← hg]
    rfl

/-! ## Facts about the emitted cycle mask -/

theorem cleHeads_zero (N : ℕ) (M : Fin (N + 1) → Fin (N + 1) → S) :
    cleHeads N M 0 = 0 := cleGreedy_zero N M 0 rfl

theorem mem_cycLocs (N : ℕ) (cycle : Fin (N + 1) → Bool) (v : Fin (N + 1)) :
    v ∈ cycLocs N cycle ↔ cycle v = true := by
  unfold cycLocs
  rw [List.mem_filter]
  simp

theorem mem_ncycLocs (N : ℕ) (cycle : Fin (N + 1) → Bool) (v : Fin (N + 1)) :
    v ∈ ncycLocs N cycle ↔ cycle v = false := by
  unfold ncycLocs
  rw [List.mem_filter]
  simp

theorem cycLocs_nodup (N : ℕ) (cycle : Fin (N + 1) → Bool) : (cycLocs N cycle).Nodup :=
  (List.nodup_finRange (N + 1)).filter _

theorem ncycLocs_nodup (N : ℕ) (cycle : Fin (N + 1) → Bool) : (ncycLocs N cycle).Nodup :=
  (List.nodup_finRange (N + 1)).filter _

section CycleCase

variable (N : ℕ) (M : Fin (N + 1) → Fin (N + 1) → S) (cycle : Fin (N + 1) → Bool)
variable (a : Fin (N + 1)) (p : ℕ)
variable (hp2 : 2 ≤ p) (hcyc : (cleHeads N M)^[p] a = a)
variable (hmin : ∀ q, 1 ≤ q → q < p → (cleHeads N M)^[q] a ≠ a)
variable (hmask : ∀ u, cycle u = true ↔ MemOrbit (N + 1) (cleHeads N M) a p u)

include hp2 hcyc hmin hmask

theorem cycle_zero_false : cycle 0 = false := by
  by_contra hc
  have hc2 : cycle 0 = true := by simpa using hc
  obtain ⟨t, htp, ht⟩ := (hmask 0).mp hc2
  have ha0 : a = 0 := by
    have h1 : (cleHeads N M)^[p - t] ((cleHeads N M)^[t] a) = a := by
      rw [← Function.iterate_add_apply, show p - t + t = p by omega, hcyc]
    rw [ht] at h1
    rw [← h1, Function.iterate_fixed (cleHeads_zero N M)]
  have : (cleHeads N M)^[1] a = a := by
    rw [ha0]
    simpa using cleHeads_zero N M
  exact hmin 1 le_rfl (by omega) this

theorem cycle_mem_val_ne (c : Fin (N + 1)) (hc : cycle c = true) : c.val ≠ 0 := by
  intro h0
  have hc0 : c = 0 := Fin.ext (by simpa using h0)
  rw [hc0] at hc
  rw [cycle_zero_false N M cycle a p hp2 hcyc hmin hmask] at hc
  exact absurd hc (by simp)

theorem cycle_step_mem (c : Fin (N + 1)) (hc : cycle c = true) :
    cycle (cleHeads N M c) = true := by
  obtain ⟨t, htp, ht⟩ := (hmask c).mp hc
  refine (hmask (cleHeads N M c)).mpr ?_
  refine ⟨(t + 1) % p, Nat.mod_lt _ (by omega), ?_⟩
  rw [← orb_mod (N + 1) (cleHeads N M) a p (by omega) hcyc (t + 1),
    Function.iterate_succ_apply', ht]

theorem cycle_iterate_mem (c : Fin (N + 1)) (hc : cycle c = true) :
    ∀ j, cycle ((cleHeads N M)^[j] c) = true := by
  intro j
  induction j with
  | zero => simpa using hc
  | succ j ih =>
    rw [Function.iterate_succ_apply']
    exact cycle_step_mem N M cycle a p hp2 hcyc hmin hmask _ ih

theorem cycle_greedy_finite (c : Fin (N + 1)) (hc : cycle c = true) :
    clePrep (N + 1) M c (cleHeads N M c) ≠ ⊥ := by
  intro hb
  have hz : cleHeads N M c = ⟨0, Nat.succ_pos N⟩ := cleGreedy_bot_head N M c hb
  have hne := cycle_mem_val_ne N M cycle a p hp2 hcyc hmin hmask (cleHeads N M c)
    (cycle_step_mem N M cycle a p hp2 hcyc hmin hmask c hc)
  rw [hz] at hne
  exact hne rfl

theorem ncycLocs_head_zero : ∃ tl, ncycLocs N cycle = (0 : Fin (N + 1)) :: tl := by
  apply filter_finRange_head_zero
  simp [cycle_zero_false N M cycle a p hp2 hcyc hmin hmask]

theorem ncycLocs_length_pos : 0 < (ncycLocs N cycle).length := by
  obtain ⟨tl, htl⟩ := ncycLocs_head_zero N M cycle a p hp2 hcyc hmin hmask
  rw [htl]
  simp

theorem ncycD_zero : ncycD N cycle 0 = 0 := by
  obtain ⟨tl, htl⟩ := ncycLocs_head_zero N M cycle a p hp2 hcyc hmin hmask
  unfold ncycD
  rw [htl]
  rfl

theorem ncyc_indexOf_zero : (ncycLocs N cycle).indexOf (0 : Fin (N + 1)) = 0 := by
  obtain ⟨tl, htl⟩ := ncycLocs_head_zero N M cycle a p hp2 hcyc hmin hmask
  rw [htl]
  exact List.indexOf_cons_self _ _

theorem cycLocs_length_pos : 0 < (cycLocs N cycle).length := by
  have ha : a ∈ cycLocs N cycle :=
    (mem_cycLocs N cycle a).mpr ((hmask a).mpr ⟨0, by omega, rfl⟩)
  exact List.length_pos_of_mem ha

end CycleCase

/-! ## List index bookkeeping -/

theorem argmaxIdx_lt_length' {α : Type} [LinearOrder α] (l : List α) (hl : l ≠ []) :
    argmaxIdx l < l.length := by
  obtain ⟨x, xs, rfl⟩ := List.exists_cons_of_ne_nil hl
  exact argmaxIdx_lt_length x x xs

theorem argmaxIdx_is_max' {α : Type} [LinearOrder α] (d : α) (l : List α) (hl : l ≠ []) :
    ∀ j, j < l.length → l.getD j d ≤ l.getD (argmaxIdx l) d := by
  obtain ⟨x, xs, rfl⟩ := List.exists_cons_of_ne_nil hl
  exact argmaxIdx_is_max d x xs

theorem sum_map_split_at {α : Type} (l : List α) (k : ℕ) (hk : k < l.length) (f : α → S) :
    (l.map f).sum =
      ((l.take k).map f).sum + (f l[k] + ((l.drop (k + 1)).map f).sum) := by
  have h1 : l = l.take k ++ l[k] :: l.drop (k + 1) := by
    conv_lhs => rw [← List.take_append_drop k l]
    rw [List.drop_eq_getElem_cons hk]
  calc (l.map f).sum = ((l.take k ++ l[k] :: l.drop (k + 1)).map f).sum := by rw [← h1]
  _ = _ := by rw [List.map_append, List.sum_append, List.map_cons, List.sum_cons]

theorem take_ne_getElem {α : Type} (l : List α) (h : l.Nodup) (k : ℕ)
    (hk : k < l.length) : ∀ c ∈ l.take k, c ≠ l[k] := by
  intro c hc
  obtain ⟨j, hj, hjc⟩ := List.mem_iff_getElem.mp hc
  have hjk : j < k := by
    have := hj
    simp only [List.length_take] at this
    omega
  have hjl : j < l.length := by omega
  rw [List.getElem_take] at hjc
  intro hce
  rw [← hjc] at hce
  exact absurd (List.Nodup.getElem_inj_iff h |>.mp hce) (by omega)

theorem drop_ne_getElem {α : Type} (l : List α) (h : l.Nodup) (k : ℕ)
    (hk : k < l.length) : ∀ c ∈ l.drop (k + 1), c ≠ l[k] := by
  intro c hc
  obtain ⟨j, hj, hjc⟩ := List.mem_iff_getElem.mp hc
  have hjl : k + 1 + j < l.length := by
    have := hj
    simp only [List.length_drop] at this
    omega
  rw [List.getElem_drop] at hjc
  intro hce
  rw [← hjc] at hce
  exact absurd (List.Nodup.getElem_inj_iff h |>.mp hce) (by omega)

theorem ncycD_eq_getElem (N : ℕ) (cycle : Fin (N + 1) → Bool) (k : ℕ)
    (hk : k < (ncycLocs N cycle).length) : ncycD N cycle k = (ncycLocs N cycle)[k] :=
  List.getD_eq_getElem (ncycLocs N cycle) ⟨0, Nat.succ_pos N⟩ hk

theorem cycD_eq_getElem (N : ℕ) (cycle : Fin (N + 1) → Bool) (k : ℕ)
    (hk : k < (cycLocs N cycle).length) : cycD N cycle k = (cycLocs N cycle)[k] :=
  List.getD_eq_getElem (cycLocs N cycle) ⟨0, Nat.succ_pos N⟩ hk

theorem ncycD_mem (N : ℕ) (cycle : Fin (N + 1) → Bool) (k : ℕ)
    (hk : k < (ncycLocs N cycle).length) : cycle (ncycD N cycle k) = false := by
  rw [ncycD_eq_getElem N cycle k hk]
  exact (mem_ncycLocs N cycle _).mp (List.getElem_mem hk)

theorem cycD_mem (N : ℕ) (cycle : Fin (N + 1) → Bool) (k : ℕ)
    (hk : k < (cycLocs N cycle).length) : cycle (cycD N cycle k) = true := by
  rw [cycD_eq_getElem N cycle k hk]
  exact (mem_cycLocs N cycle _).mp (List.getElem_mem hk)

theorem indexOf_ncycD (N : ℕ) (cycle : Fin (N + 1) → Bool) (k : ℕ)
    (hk : k < (ncycLocs N cycle).length) :
    (ncycLocs N cycle).indexOf (ncycD N cycle k) = k := by
  rw [ncycD_eq_getElem N cycle k hk]
  exact List.indexOf_getElem (ncycLocs_nodup N cycle) k hk

theorem indexOf_cycD (N : ℕ) (cycle : Fin (N + 1) → Bool) (k : ℕ)
    (hk : k < (cycLocs N cycle).length) :
    (cycLocs N cycle).indexOf (cycD N cycle k) = k := by
  rw [cycD_eq_getElem N cycle k hk]
  exact List.indexOf_getElem (cycLocs_nodup N cycle) k hk

theorem ncyc_indexOf_lt (N : ℕ) (cycle : Fin (N + 1) → Bool) (v : Fin (N + 1))
    (hv : cycle v = false) :
    (ncycLocs N cycle).indexOf v < (ncycLocs N cycle).length :=
  List.indexOf_lt_length.mpr ((mem_ncycLocs N cycle v).mpr hv)

theorem cyc_indexOf_lt (N : ℕ) (cycle : Fin (N + 1) → Bool) (v : Fin (N + 1))
    (hv : cycle v = true) :
    (cycLocs N cycle).indexOf v < (cycLocs N cycle).length :=
  List.indexOf_lt_length.mpr ((mem_cycLocs N cycle v).mpr hv)

theorem ncycD_indexOf (N : ℕ) (cycle : Fin (N + 1) → Bool) (v : Fin (N + 1))
    (hv : cycle v = false) : ncycD N cycle ((ncycLocs N cycle).indexOf v) = v := by
  rw [ncycD_eq_getElem N cycle _ (ncyc_indexOf_lt N cycle v hv)]
  exact List.getElem_indexOf _

theorem cycD_indexOf (N : ℕ) (cycle : Fin (N + 1) → Bool) (v : Fin (N + 1))
    (hv : cycle v = true) : cycD N cycle ((cycLocs N cycle).indexOf v) = v := by
  rw [cycD_eq_getElem N cycle _ (cyc_indexOf_lt N cycle v hv)]
  exact List.getElem_indexOf _

/-! ## Entries of the contracted matrix -/

theorem subScores_lo_lo (N : ℕ) (M : Fin (N + 1) → Fin (N + 1) → S)
    (cycle : Fin (N + 1) → Bool) (i j : Fin ((ncycLocs N cycle).length + 1))
    (hi : i.val < (ncycLocs N cycle).length) (hj : j.val < (ncycLocs N cycle).length) :
    subScores N M cycle i j = clePrep (N + 1) M (ncycD N cycle i.val) (ncycD N cycle j.val) := by
  unfold subScores
  rw [if_pos hi, if_pos hj]

theorem subScores_lo_hi (N : ℕ) (M : Fin (N + 1) → Fin (N + 1) → S)
    (cycle : Fin (N + 1) → Bool) (i j : Fin ((ncycLocs N cycle).length + 1))
    (hi : i.val < (ncycLocs N cycle).length) (hj : ¬ j.val < (ncycLocs N cycle).length) :
    subScores N M cycle i j =
      clePrep (N + 1) M (ncycD N cycle i.val) (cycD N cycle (mnDeps N M cycle i.val)) := by
  unfold subScores
  rw [if_pos hi, if_neg hj]

theorem subScores_hi_lo (N : ℕ) (M : Fin (N + 1) → Fin (N + 1) → S)
    (cycle : Fin (N + 1) → Bool) (i j : Fin ((ncycLocs N cycle).length + 1))
    (hi : ¬ i.val < (ncycLocs N cycle).length) (hj : j.val < (ncycLocs N cycle).length) :
    subScores N M cycle i j = mnhs N M cycle (mnHeads N M cycle j.val) j.val := by
  unfold subScores
  rw [if_neg hi, if_pos hj]

/-- The cycle's greedy total without member `k`'s own arc. -/
def cycRest (N : ℕ) (M : Fin (N + 1) → Fin (N + 1) → S) (cycle : Fin (N + 1) → Bool)
    (k : ℕ) : S :=
  (((cycLocs N cycle).take k).map (fun c => clePrep (N + 1) M c (cleHeads N M c))).sum +
    (((cycLocs N cycle).drop (k + 1)).map (fun c => clePrep (N + 1) M c (cleHeads N M c))).sum

section CycleCase2

variable (N : ℕ) (M : Fin (N + 1) → Fin (N + 1) → S) (cycle : Fin (N + 1) → Bool)
variable (a : Fin (N + 1)) (p : ℕ)
variable (hp2 : 2 ≤ p) (hcyc : (cleHeads N M)^[p] a = a)
variable (hmin : ∀ q, 1 ≤ q → q < p → (cleHeads N M)^[q] a ≠ a)
variable (hmask : ∀ u, cycle u = true ↔ MemOrbit (N + 1) (cleHeads N M) a p u)

include hp2 hcyc hmin hmask

theorem cycScore_split (k : ℕ) (hk : k < (cycLocs N cycle).length) :
    cycScore N M cycle =
      clePrep (N + 1) M (cycD N cycle k) (cleHeads N M (cycD N cycle k)) +
        cycRest N M cycle k := by
  unfold cycScore cycRest
  rw [sum_map_split_at (cycLocs N cycle) k hk]
  rw [cycD_eq_getElem N cycle k hk]
  have hcomm : ∀ x y z : S, x + (y + z) = y + (x + z) := by
    intro x y z
    rw [add_left_comm]
  rw [hcomm]

theorem mnhs_eq (ci mi : ℕ) (hci : ci < (cycLocs N cycle).length) :
    mnhs N M cycle ci mi =
      clePrep (N + 1) M (cycD N cycle ci) (ncycD N cycle mi) + cycRest N M cycle ci := by
  unfold mnhs
  rw [cycScore_split N M cycle a p hp2 hcyc hmin hmask ci hci]
  rw [← add_assoc, ssub_add_cancel]
  exact cycle_greedy_finite N M cycle a p hp2 hcyc hmin hmask (cycD N cycle ci)
    (cycD_mem N cycle ci hci)

theorem mnHeads_lt (mi : ℕ) : mnHeads N M cycle mi < (cycLocs N cycle).length := by
  have hpos := cycLocs_length_pos N M cycle a p hp2 hcyc hmin hmask
  have hne : (List.range (cycLocs N cycle).length).map (fun ci => mnhs N M cycle ci mi)
      ≠ [] := by
    simp only [ne_eq, List.map_eq_nil_iff, List.range_eq_nil]
    omega
  have h := argmaxIdx_lt_length' _ hne
  simpa using h

theorem mnHeads_is_max (mi ci : ℕ) (hci : ci < (cycLocs N cycle).length) :
    mnhs N M cycle ci mi ≤ mnhs N M cycle (mnHeads N M cycle mi) mi := by
  have hpos := cycLocs_length_pos N M cycle a p hp2 hcyc hmin hmask
  set l := (List.range (cycLocs N cycle).length).map (fun ci => mnhs N M cycle ci mi)
    with hl
  have hne : l ≠ [] := by
    rw [hl]
    simp only [ne_eq, List.map_eq_nil_iff, List.range_eq_nil]
    omega
  have hlen : l.length = (cycLocs N cycle).length := by rw [hl]; simp
  have hget : ∀ k, k < (cycLocs N cycle).length → l.getD k ⊥ = mnhs N M cycle k mi := by
    intro k hk
    rw [hl, List.getD_eq_getElem _ _ (by simpa using hk)]
    simp
  have h := argmaxIdx_is_max' ⊥ l hne ci (by omega)
  rw [hget ci hci] at h
  rw [hget (argmaxIdx l) (by
    have := argmaxIdx_lt_length' l hne
    omega)] at h
  exact h

theorem mnDeps_lt (mi : ℕ) : mnDeps N M cycle mi < (cycLocs N cycle).length := by
  have hpos := cycLocs_length_pos N M cycle a p hp2 hcyc hmin hmask
  have hne : (cycLocs N cycle).map (fun c => clePrep (N + 1) M (ncycD N cycle mi) c)
      ≠ [] := by
    simp only [ne_eq, List.map_eq_nil_iff]
    intro h
    rw [h] at hpos
    simp at hpos
  have h := argmaxIdx_lt_length' _ hne
  simpa using h

theorem mnDeps_is_max (mi : ℕ) (c : Fin (N + 1)) (hc : cycle c = true) :
    clePrep (N + 1) M (ncycD N cycle mi) c ≤
      clePrep (N + 1) M (ncycD N cycle mi) (cycD N cycle (mnDeps N M cycle mi)) := by
  set l := (cycLocs N cycle).map (fun c => clePrep (N + 1) M (ncycD N cycle mi) c) with hl
  have hpos := cycLocs_length_pos N M cycle a p hp2 hcyc hmin hmask
  have hne : l ≠ [] := by
    rw [hl]
    simp only [ne_eq, List.map_eq_nil_iff]
    intro h
    rw [h] at hpos
    simp at hpos
  have hget : ∀ k, k < (cycLocs N cycle).length →
      l.getD k ⊥ = clePrep (N + 1) M (ncycD N cycle mi) (cycD N cycle k) := by
    intro k hk
    rw [hl, List.getD_eq_getElem _ _ (by simpa using hk), cycD_eq_getElem N cycle k hk]
    simp
  have hk := cyc_indexOf_lt N cycle c hc
  have h := argmaxIdx_is_max' ⊥ l hne ((cycLocs N cycle).indexOf c)
    (by rw [hl, List.length_map]; exact hk)
  rw [hget _ hk, cycD_indexOf N cycle c hc] at h
  rw [hget (argmaxIdx l) (by
    have h5 := argmaxIdx_lt_length' l hne
    rw [hl, List.length_map] at h5
    exact h5)] at h
  exact h

theorem prep_subScores_le (i j : Fin ((ncycLocs N cycle).length + 1)) :
    clePrep ((ncycLocs N cycle).length + 1) (subScores N M cycle) i j ≤
      subScores N M cycle i j := by
  have hnn := ncycLocs_length_pos N M cycle a p hp2 hcyc hmin hmask
  by_cases hi : i.val = 0
  · by_cases hj : j.val = 0
    · have h1 : clePrep ((ncycLocs N cycle).length + 1) (subScores N M cycle) i j
          = ((0 : ℤ) : S) := by
        unfold clePrep setCell00
        rw [if_pos ⟨hi, hj⟩]
      have h2 : subScores N M cycle i j = ((0 : ℤ) : S) := by
        rw [subScores_lo_lo N M cycle i j (by omega) (by omega), hi, hj,
          ncycD_zero N M cycle a p hp2 hcyc hmin hmask]
        rw [clePrep_row0 N M 0 0 rfl]
        simp
      rw [h1, h2]
    · have h1 : clePrep ((ncycLocs N cycle).length + 1) (subScores N M cycle) i j = ⊥ := by
        unfold clePrep setCell00 setRow0
        rw [if_neg (by intro hc; exact hj hc.2), if_pos hi]
      rw [h1]
      exact bot_le
  · by_cases hij : j = i
    · subst hij
      rw [clePrep_diag ((ncycLocs N cycle).length + 1) (subScores N M cycle) j hi]
      exact bot_le
    · rw [clePrep_entry ((ncycLocs N cycle).length + 1) (subScores N M cycle) i j hi hij]

end CycleCase2

section CycleCase3

variable (N : ℕ) (M : Fin (N + 1) → Fin (N + 1) → S) (cycle : Fin (N + 1) → Bool)
variable (a : Fin (N + 1)) (p : ℕ)
variable (hp2 : 2 ≤ p) (hcyc : (cleHeads N M)^[p] a = a)
variable (hmin : ∀ q, 1 ≤ q → q < p → (cleHeads N M)^[q] a ≠ a)
variable (hmask : ∀ u, cycle u = true ↔ MemOrbit (N + 1) (cleHeads N M) a p u)

include hp2 hcyc hmin hmask

theorem cycle_reach_cycle (c c' : Fin (N + 1)) (hc : cycle c = true)
    (hc' : cycle c' = true) : ∃ m, (cleHeads N M)^[m] c = c' := by
  obtain ⟨s, hsp, hs⟩ := (hmask c).mp hc
  obtain ⟨s', _, hs'⟩ := (hmask c').mp hc'
  refine ⟨(p - s) + s', ?_⟩
  rw [← hs, ← Function.iterate_add_apply,
    show p - s + s' + s = s' + p by omega, Function.iterate_add_apply, hcyc, hs']

theorem expand_cycle_exit (ct : Fin ((ncycLocs N cycle).length + 1) →
      Fin ((ncycLocs N cycle).length + 1)) (c : Fin (N + 1)) (hc : cycle c = true) :
    ∃ m, (cleExpand N M cycle ct)^[m] c =
      ncycD N cycle (ct ⟨(ncycLocs N cycle).length, Nat.lt_succ_self _⟩).val := by
  have hcrlt : mnHeads N M cycle
      (ct ⟨(ncycLocs N cycle).length, Nat.lt_succ_self _⟩).val < (cycLocs N cycle).length :=
    mnHeads_lt N M cycle a p hp2 hcyc hmin hmask _
  have htgt : cycle (cycD N cycle (mnHeads N M cycle
      (ct ⟨(ncycLocs N cycle).length, Nat.lt_succ_self _⟩).val)) = true :=
    cycD_mem N cycle _ hcrlt
  have hex : ∃ m, (cleHeads N M)^[m] c = cycD N cycle (mnHeads N M cycle
      (ct ⟨(ncycLocs N cycle).length, Nat.lt_succ_self _⟩).val) :=
    cycle_reach_cycle N M cycle a p hp2 hcyc hmin hmask c _ hc htgt
  have hiter : ∀ j, j ≤ Nat.find hex →
      (cleExpand N M cycle ct)^[j] c = (cleHeads N M)^[j] c := by
    intro j
    induction j with
    | zero => intro _; rfl
    | succ j ih =>
      intro hj
      rw [Function.iterate_succ_apply', Function.iterate_succ_apply', ih (by omega)]
      have hcj : cycle ((cleHeads N M)^[j] c) = true :=
        cycle_iterate_mem N M cycle a p hp2 hcyc hmin hmask c hc j
      have hne : (cleHeads N M)^[j] c ≠ cycD N cycle (mnHeads N M cycle
          (ct ⟨(ncycLocs N cycle).length, Nat.lt_succ_self _⟩).val) :=
        Nat.find_min hex (by omega)
      unfold cleExpand
      rw [dif_pos hcj, if_neg hne]
  refine ⟨Nat.find hex + 1, ?_⟩
  rw [Function.iterate_succ_apply', hiter (Nat.find hex) le_rfl, Nat.find_spec hex]
  unfold cleExpand
  rw [dif_pos htgt, if_pos rfl]

theorem expand_off_cycle (ct : Fin ((ncycLocs N cycle).length + 1) →
      Fin ((ncycLocs N cycle).length + 1)) (i : Fin ((ncycLocs N cycle).length + 1))
    (hi : i.val < (ncycLocs N cycle).length) :
    cleExpand N M cycle ct (ncycD N cycle i.val) =
      if (ct i).val < (ncycLocs N cycle).length then ncycD N cycle (ct i).val
      else cycD N cycle (mnDeps N M cycle i.val) := by
  have hnc : cycle (ncycD N cycle i.val) = false := ncycD_mem N cycle i.val hi
  unfold cleExpand
  rw [dif_neg (by simp [hnc])]
  simp only [indexOf_ncycD N cycle i.val hi, Fin.eta]

theorem expand_reach_aux (ct : Fin ((ncycLocs N cycle).length + 1) →
      Fin ((ncycLocs N cycle).length + 1)) (hct : IsArbor ((ncycLocs N cycle).length + 1) ct) :
    ∀ d : ℕ, ∀ i : Fin ((ncycLocs N cycle).length + 1), i.val < (ncycLocs N cycle).length →
      ((ct^[d]) i).val = 0 →
      ∃ k, ((cleExpand N M cycle ct)^[k] (ncycD N cycle i.val)).val = 0 := by
  intro d
  induction d using Nat.strong_induction_on with
  | _ d ih =>
    intro i hi hd
    by_cases hi0 : i.val = 0
    · refine ⟨0, ?_⟩
      simp only [Function.iterate_zero, id_eq]
      rw [hi0, ncycD_zero N M cycle a p hp2 hcyc hmin hmask]
      rfl
    · have hd0 : d ≠ 0 := by
        intro h
        rw [h] at hd
        exact hi0 hd
      have hstep : ((ct^[d - 1]) (ct i)).val = 0 := by
        rw [← Function.iterate_succ_apply ct (d - 1) i, show (d - 1).succ = d by omega]
        exact hd
      by_cases hj : (ct i).val < (ncycLocs N cycle).length
      · obtain ⟨k, hk⟩ := ih (d - 1) (by omega) (ct i) hj hstep
        refine ⟨k + 1, ?_⟩
        rw [Function.iterate_succ_apply,
          expand_off_cycle N M cycle a p hp2 hcyc hmin hmask ct i hi, if_pos hj]
        exact hk
      · have hlast : ct i = ⟨(ncycLocs N cycle).length, Nat.lt_succ_self _⟩ := by
          apply Fin.ext
          have := (ct i).isLt
          simp only []
          omega
        have hnn0 : (ncycLocs N cycle).length ≠ 0 := by
          have := ncycLocs_length_pos N M cycle a p hp2 hcyc hmin hmask
          omega
        have hd1 : d - 1 ≠ 0 := by
          intro h
          rw [hlast, h] at hstep
          exact hnn0 hstep
        have hw : ((ct^[d - 1 - 1]) (ct ⟨(ncycLocs N cycle).length,
            Nat.lt_succ_self _⟩)).val = 0 := by
          rw [← Function.iterate_succ_apply ct, show (d - 1 - 1).succ = d - 1 by omega,
            ← hlast]
          exact hstep
        have hwlt : (ct ⟨(ncycLocs N cycle).length, Nat.lt_succ_self _⟩).val <
            (ncycLocs N cycle).length := by
          rcases Nat.lt_or_ge (ct ⟨(ncycLocs N cycle).length, Nat.lt_succ_self _⟩).val
            ((ncycLocs N cycle).length) with h | h
          · exact h
          · exfalso
            have hfix : ct ⟨(ncycLocs N cycle).length, Nat.lt_succ_self _⟩ =
                ⟨(ncycLocs N cycle).length, Nat.lt_succ_self _⟩ := by
              apply Fin.ext
              have := (ct ⟨(ncycLocs N cycle).length, Nat.lt_succ_self _⟩).isLt
              simp only []
              omega
            rw [hfix, Function.iterate_fixed hfix] at hw
            exact hnn0 hw
        obtain ⟨k2, hk2⟩ := ih (d - 1 - 1) (by omega)
          (ct ⟨(ncycLocs N cycle).length, Nat.lt_succ_self _⟩) hwlt hw
        have hcycdep : cycle (cycD N cycle (mnDeps N M cycle i.val)) = true :=
          cycD_mem N cycle _ (mnDeps_lt N M cycle a p hp2 hcyc hmin hmask i.val)
        obtain ⟨m, hm⟩ := expand_cycle_exit N M cycle a p hp2 hcyc hmin hmask ct
          (cycD N cycle (mnDeps N M cycle i.val)) hcycdep
        refine ⟨k2 + (m + 1), ?_⟩
        rw [Function.iterate_add_apply, Function.iterate_add_apply,
          Function.iterate_one,
          expand_off_cycle N M cycle a p hp2 hcyc hmin hmask ct i hi, if_neg hj,
          hm]
        exact hk2

theorem cleExpand_arbor (ct : Fin ((ncycLocs N cycle).length + 1) →
      Fin ((ncycLocs N cycle).length + 1))
    (hct : IsArbor ((ncycLocs N cycle).length + 1) ct) :
    IsArbor (N + 1) (cleExpand N M cycle ct) := by
  constructor
  · intro m hm
    have hm0 : m = 0 := Fin.ext (by simpa using hm)
    subst hm0
    have hct0 : ct 0 = 0 := hct.1 0 rfl
    have hpos := ncycLocs_length_pos N M cycle a p hp2 hcyc hmin hmask
    have h1 := expand_off_cycle N M cycle a p hp2 hcyc hmin hmask ct 0
      (by simpa using hpos)
    simp only [Fin.val_zero] at h1
    rw [ncycD_zero N M cycle a p hp2 hcyc hmin hmask] at h1
    rw [h1, hct0]
    simp only [Fin.val_zero]
    rw [if_pos hpos]
    exact ncycD_zero N M cycle a p hp2 hcyc hmin hmask
  · intro m
    by_cases hm : cycle m = true
    · obtain ⟨k, hk⟩ := expand_cycle_exit N M cycle a p hp2 hcyc hmin hmask ct m hm
      have hwlt : (ct ⟨(ncycLocs N cycle).length, Nat.lt_succ_self _⟩).val <
          (ncycLocs N cycle).length := by
        rcases Nat.lt_or_ge (ct ⟨(ncycLocs N cycle).length, Nat.lt_succ_self _⟩).val
          ((ncycLocs N cycle).length) with h | h
        · exact h
        · exfalso
          have hnn0 : (ncycLocs N cycle).length ≠ 0 := by
            have := ncycLocs_length_pos N M cycle a p hp2 hcyc hmin hmask
            omega
          have hfix : ct ⟨(ncycLocs N cycle).length, Nat.lt_succ_self _⟩ =
              ⟨(ncycLocs N cycle).length, Nat.lt_succ_self _⟩ := by
            apply Fin.ext
            have := (ct ⟨(ncycLocs N cycle).length, Nat.lt_succ_self _⟩).isLt
            simp only []
            omega
          obtain ⟨dd, hdd⟩ := hct.2 ⟨(ncycLocs N cycle).length, Nat.lt_succ_self _⟩
          rw [Function.iterate_fixed hfix] at hdd
          exact hnn0 hdd
      obtain ⟨d2, hd2⟩ := hct.2 (ct ⟨(ncycLocs N cycle).length, Nat.lt_succ_self _⟩)
      obtain ⟨k2, hk2⟩ := expand_reach_aux N M cycle a p hp2 hcyc hmin hmask ct hct d2
        (ct ⟨(ncycLocs N cycle).length, Nat.lt_succ_self _⟩) hwlt hd2
      refine ⟨k2 + k, ?_⟩
      rw [Function.iterate_add_apply, hk]
      exact hk2
    · have hmf : cycle m = false := by simpa using hm
      have hidx := ncyc_indexOf_lt N cycle m hmf
      obtain ⟨d, hd⟩ := hct.2 ⟨(ncycLocs N cycle).indexOf m, Nat.lt_succ_of_lt hidx⟩
      obtain ⟨k, hk⟩ := expand_reach_aux N M cycle a p hp2 hcyc hmin hmask ct hct d
        ⟨(ncycLocs N cycle).indexOf m, Nat.lt_succ_of_lt hidx⟩ hidx hd
      refine ⟨k, ?_⟩
      have hmm : ncycD N cycle ((ncycLocs N cycle).indexOf m) = m :=
        ncycD_indexOf N cycle m hmf
      rw [← hmm]
      exact hk

end CycleCase3

section CycleCase4

variable (N : ℕ) (M : Fin (N + 1) → Fin (N + 1) → S) (cycle : Fin (N + 1) → Bool)
variable (a : Fin (N + 1)) (p : ℕ)
variable (hp2 : 2 ≤ p) (hcyc : (cleHeads N M)^[p] a = a)
variable (hmin : ∀ q, 1 ≤ q → q < p → (cleHeads N M)^[q] a ≠ a)
variable (hmask : ∀ u, cycle u = true ↔ MemOrbit (N + 1) (cleHeads N M) a p u)

include hp2 hcyc hmin hmask

theorem expand_at_root (ct : Fin ((ncycLocs N cycle).length + 1) →
      Fin ((ncycLocs N cycle).length + 1)) :
    cleExpand N M cycle ct (cycD N cycle (mnHeads N M cycle
      (ct ⟨(ncycLocs N cycle).length, Nat.lt_succ_self _⟩).val)) =
    ncycD N cycle (ct ⟨(ncycLocs N cycle).length, Nat.lt_succ_self _⟩).val := by
  have htgt : cycle (cycD N cycle (mnHeads N M cycle
      (ct ⟨(ncycLocs N cycle).length, Nat.lt_succ_self _⟩).val)) = true :=
    cycD_mem N cycle _ (mnHeads_lt N M cycle a p hp2 hcyc hmin hmask _)
  unfold cleExpand
  rw [dif_pos htgt, if_pos rfl]

theorem ct_last_lt (ct : Fin ((ncycLocs N cycle).length + 1) →
      Fin ((ncycLocs N cycle).length + 1))
    (hct : IsArbor ((ncycLocs N cycle).length + 1) ct) :
    (ct ⟨(ncycLocs N cycle).length, Nat.lt_succ_self _⟩).val <
      (ncycLocs N cycle).length := by
  have hnn0 : (ncycLocs N cycle).length ≠ 0 := by
    have := ncycLocs_length_pos N M cycle a p hp2 hcyc hmin hmask
    omega
  rcases Nat.lt_or_ge (ct ⟨(ncycLocs N cycle).length, Nat.lt_succ_self _⟩).val
    ((ncycLocs N cycle).length) with h | h
  · exact h
  · exfalso
    have hfix : ct ⟨(ncycLocs N cycle).length, Nat.lt_succ_self _⟩ =
        ⟨(ncycLocs N cycle).length, Nat.lt_succ_self _⟩ := by
      apply Fin.ext
      have := (ct ⟨(ncycLocs N cycle).length, Nat.lt_succ_self _⟩).isLt
      simp only []
      omega
    obtain ⟨dd, hdd⟩ := hct.2 ⟨(ncycLocs N cycle).length, Nat.lt_succ_self _⟩
    rw [Function.iterate_fixed hfix] at hdd
    exact hnn0 hdd

theorem expand_cycle_sum (ct : Fin ((ncycLocs N cycle).length + 1) →
      Fin ((ncycLocs N cycle).length + 1)) :
    ((cycLocs N cycle).map
        (fun c => clePrep (N + 1) M c (cleExpand N M cycle ct c))).sum =
      mnhs N M cycle
        (mnHeads N M cycle (ct ⟨(ncycLocs N cycle).length, Nat.lt_succ_self _⟩).val)
        (ct ⟨(ncycLocs N cycle).length, Nat.lt_succ_self _⟩).val := by
  have hcr := mnHeads_lt N M cycle a p hp2 hcyc hmin hmask
    (ct ⟨(ncycLocs N cycle).length, Nat.lt_succ_self _⟩).val
  rw [sum_map_split_at (cycLocs N cycle) _ hcr]
  rw [mnhs_eq N M cycle a p hp2 hcyc hmin hmask _ _ hcr]
  have hgetcr : (cycLocs N cycle)[mnHeads N M cycle
      (ct ⟨(ncycLocs N cycle).length, Nat.lt_succ_self _⟩).val] =
      cycD N cycle (mnHeads N M cycle
        (ct ⟨(ncycLocs N cycle).length, Nat.lt_succ_self _⟩).val) :=
    (cycD_eq_getElem N cycle _ hcr).symm
  rw [hgetcr]
  rw [expand_at_root N M cycle a p hp2 hcyc hmin hmask ct]
  have htake : ∀ c ∈ (cycLocs N cycle).take (mnHeads N M cycle
      (ct ⟨(ncycLocs N cycle).length, Nat.lt_succ_self _⟩).val),
      clePrep (N + 1) M c (cleExpand N M cycle ct c) =
        clePrep (N + 1) M c (cleHeads N M c) := by
    intro c hcm
    have hcc : cycle c = true :=
      (mem_cycLocs N cycle c).mp (List.take_subset _ _ hcm)
    have hne : c ≠ cycD N cycle (mnHeads N M cycle
        (ct ⟨(ncycLocs N cycle).length, Nat.lt_succ_self _⟩).val) := by
      rw [cycD_eq_getElem N cycle _ hcr]
      exact take_ne_getElem (cycLocs N cycle) (cycLocs_nodup N cycle) _ hcr c hcm
    have hexp : cleExpand N M cycle ct c = cleHeads N M c := by
      unfold cleExpand
      rw [dif_pos hcc, if_neg hne]
    rw [hexp]
  have hdrop : ∀ c ∈ (cycLocs N cycle).drop (mnHeads N M cycle
      (ct ⟨(ncycLocs N cycle).length, Nat.lt_succ_self _⟩).val + 1),
      clePrep (N + 1) M c (cleExpand N M cycle ct c) =
        clePrep (N + 1) M c (cleHeads N M c) := by
    intro c hcm
    have hcc : cycle c = true :=
      (mem_cycLocs N cycle c).mp (List.drop_subset _ _ hcm)
    have hne : c ≠ cycD N cycle (mnHeads N M cycle
        (ct ⟨(ncycLocs N cycle).length, Nat.lt_succ_self _⟩).val) := by
      rw [cycD_eq_getElem N cycle _ hcr]
      exact drop_ne_getElem (cycLocs N cycle) (cycLocs_nodup N cycle) _ hcr c hcm
    have hexp : cleExpand N M cycle ct c = cleHeads N M c := by
      unfold cleExpand
      rw [dif_pos hcc, if_neg hne]
    rw [hexp]
  rw [List.map_congr_left htake, List.map_congr_left hdrop]
  unfold cycRest
  rw [add_left_comm]

end CycleCase4

section CycleCase5

variable (N : ℕ) (M : Fin (N + 1) → Fin (N + 1) → S) (cycle : Fin (N + 1) → Bool)
variable (a : Fin (N + 1)) (p : ℕ)
variable (hp2 : 2 ≤ p) (hcyc : (cleHeads N M)^[p] a = a)
variable (hmin : ∀ q, 1 ≤ q → q < p → (cleHeads N M)^[q] a ≠ a)
variable (hmask : ∀ u, cycle u = true ↔ MemOrbit (N + 1) (cleHeads N M) a p u)

include hp2 hcyc hmin hmask

theorem cleExpand_score (ct : Fin ((ncycLocs N cycle).length + 1) →
      Fin ((ncycLocs N cycle).length + 1))
    (hct : IsArbor ((ncycLocs N cycle).length + 1) ct) :
    pscore ((ncycLocs N cycle).length + 1)
        (clePrep ((ncycLocs N cycle).length + 1) (subScores N M cycle)) ct ≤
      pscore (N + 1) (clePrep (N + 1) M) (cleExpand N M cycle ct) := by
  have h1 : pscore ((ncycLocs N cycle).length + 1)
      (clePrep ((ncycLocs N cycle).length + 1) (subScores N M cycle)) ct ≤
      ((List.finRange ((ncycLocs N cycle).length + 1)).map
        (fun i => subScores N M cycle i (ct i))).sum := by
    unfold pscore
    exact List.sum_le_sum
      (fun i _ => prep_subScores_le N M cycle a p hp2 hcyc hmin hmask i (ct i))
  refine le_trans h1 (le_of_eq ?_)
  rw [List.finRange_succ_last, List.map_append, List.sum_append, List.map_map]
  have hlast : (Fin.last (ncycLocs N cycle).length) =
      (⟨(ncycLocs N cycle).length, Nat.lt_succ_self _⟩ :
        Fin ((ncycLocs N cycle).length + 1)) := rfl
  have hsingle : (List.map (fun i => subScores N M cycle i (ct i))
      [Fin.last (ncycLocs N cycle).length]).sum =
      subScores N M cycle
        (⟨(ncycLocs N cycle).length, Nat.lt_succ_self _⟩ :
          Fin ((ncycLocs N cycle).length + 1))
        (ct ⟨(ncycLocs N cycle).length, Nat.lt_succ_self _⟩) := by
    rw [hlast]
    simp
  rw [hsingle]
  have hmeta : subScores N M cycle
      (⟨(ncycLocs N cycle).length, Nat.lt_succ_self _⟩ :
        Fin ((ncycLocs N cycle).length + 1))
      (ct ⟨(ncycLocs N cycle).length, Nat.lt_succ_self _⟩) =
      ((cycLocs N cycle).map
        (fun c => clePrep (N + 1) M c (cleExpand N M cycle ct c))).sum := by
    rw [subScores_hi_lo N M cycle _ _ (Nat.lt_irrefl _)
      (ct_last_lt N M cycle a p hp2 hcyc hmin hmask ct hct)]
    exact (expand_cycle_sum N M cycle a p hp2 hcyc hmin hmask ct).symm
  rw [hmeta]
  have hnon : ((List.finRange (ncycLocs N cycle).length).map
      ((fun i => subScores N M cycle i (ct i)) ∘ Fin.castSucc)).sum =
      ((ncycLocs N cycle).map
        (fun v => clePrep (N + 1) M v (cleExpand N M cycle ct v))).sum := by
    conv_rhs => rw [← List.finRange_map_get (ncycLocs N cycle), List.map_map]
    apply congrArg
    apply List.map_congr_left
    intro i _
    simp only [Function.comp]
    have hi : (Fin.castSucc i).val < (ncycLocs N cycle).length := i.isLt
    have hget : (ncycLocs N cycle).get i = ncycD N cycle (Fin.castSucc i).val := by
      rw [ncycD_eq_getElem N cycle _ (by exact i.isLt)]
      rfl
    rw [hget]
    rw [expand_off_cycle N M cycle a p hp2 hcyc hmin hmask ct (Fin.castSucc i) hi]
    by_cases hj : (ct (Fin.castSucc i)).val < (ncycLocs N cycle).length
    · rw [if_pos hj, subScores_lo_lo N M cycle _ _ hi hj]
    · rw [if_neg hj, subScores_lo_hi N M cycle _ _ hi hj]
  rw [hnon]
  unfold pscore
  rw [← sum_map_filter_split (List.finRange (N + 1)) (fun j => cycle j)
    (fun m => clePrep (N + 1) M m (cleExpand N M cycle ct m))]
  rw [add_comm]
  rfl

end CycleCase5

/-! ## Contracting an arbitrary arborescence -/

/-- Position of a node among the non-cycle nodes; cycle members (absent from
the list) land on the metanode index. -/
def ncycIdxF (N : ℕ) (cycle : Fin (N + 1) → Bool) (v : Fin (N + 1)) :
    Fin ((ncycLocs N cycle).length + 1) :=
  ⟨(ncycLocs N cycle).indexOf v, Nat.lt_succ_of_le (List.indexOf_le_length)⟩

/-- The image of an arborescence in the contracted node set: non-cycle nodes
keep their (reindexed) heads, heads inside the cycle become the metanode, and
the metanode takes the class of the chosen exit arc's head. -/
def contractOf (N : ℕ) (cycle : Fin (N + 1) → Bool) (t : Fin (N + 1) → Fin (N + 1))
    (e : Fin (N + 1)) :
    Fin ((ncycLocs N cycle).length + 1) → Fin ((ncycLocs N cycle).length + 1) :=
  fun i =>
    if i.val < (ncycLocs N cycle).length then
      ncycIdxF N cycle (t (ncycD N cycle i.val))
    else ncycIdxF N cycle (t e)

theorem ncycIdxF_cycle (N : ℕ) (cycle : Fin (N + 1) → Bool) (v : Fin (N + 1))
    (hv : cycle v = true) :
    ncycIdxF N cycle v = ⟨(ncycLocs N cycle).length, Nat.lt_succ_self _⟩ := by
  apply Fin.ext
  show (ncycLocs N cycle).indexOf v = (ncycLocs N cycle).length
  rw [List.indexOf_eq_length]
  rw [mem_ncycLocs N cycle v]
  simp [hv]

theorem ncycIdxF_val_lt (N : ℕ) (cycle : Fin (N + 1) → Bool) (v : Fin (N + 1))
    (hv : cycle v = false) :
    (ncycIdxF N cycle v).val < (ncycLocs N cycle).length :=
  ncyc_indexOf_lt N cycle v hv

theorem contractOf_lo (N : ℕ) (cycle : Fin (N + 1) → Bool)
    (t : Fin (N + 1) → Fin (N + 1)) (e : Fin (N + 1))
    (i : Fin ((ncycLocs N cycle).length + 1)) (hi : i.val < (ncycLocs N cycle).length) :
    contractOf N cycle t e i = ncycIdxF N cycle (t (ncycD N cycle i.val)) := by
  unfold contractOf
  rw [if_pos hi]

theorem contractOf_hi (N : ℕ) (cycle : Fin (N + 1) → Bool)
    (t : Fin (N + 1) → Fin (N + 1)) (e : Fin (N + 1))
    (i : Fin ((ncycLocs N cycle).length + 1)) (hi : ¬ i.val < (ncycLocs N cycle).length) :
    contractOf N cycle t e i = ncycIdxF N cycle (t e) := by
  unfold contractOf
  rw [if_neg hi]

theorem contractOf_at (N : ℕ) (cycle : Fin (N + 1) → Bool)
    (t : Fin (N + 1) → Fin (N + 1)) (e : Fin (N + 1)) (v : Fin (N + 1))
    (hv : cycle v = false) :
    contractOf N cycle t e (ncycIdxF N cycle v) = ncycIdxF N cycle (t v) := by
  rw [contractOf_lo N cycle t e _ (ncycIdxF_val_lt N cycle v hv)]
  have h1 : ncycD N cycle (ncycIdxF N cycle v).val = v := ncycD_indexOf N cycle v hv
  rw [h1]

/-- Specialization of `Nat.findGreatest` to boolean predicates. -/
theorem findGreatest_bool_spec (q : ℕ → Bool) (n m : ℕ) (hmn : m ≤ n) (hm : q m = true) :
    q (Nat.findGreatest (fun j => q j = true) n) = true := by
  exact @Nat.findGreatest_spec m (fun j => q j = true) (fun j => by infer_instance) n hmn hm

theorem findGreatest_bool_le (q : ℕ → Bool) (n : ℕ) :
    Nat.findGreatest (fun j => q j = true) n ≤ n :=
  Nat.findGreatest_le n

theorem findGreatest_bool_greatest (q : ℕ → Bool) (n k : ℕ)
    (hk : Nat.findGreatest (fun j => q j = true) n < k) (hkn : k ≤ n) : q k = false := by
  have := Nat.findGreatest_is_greatest hk hkn
  simpa using this

section CycleCase6

variable (N : ℕ) (M : Fin (N + 1) → Fin (N + 1) → S) (cycle : Fin (N + 1) → Bool)
variable (a : Fin (N + 1)) (p : ℕ)
variable (hp2 : 2 ≤ p) (hcyc : (cleHeads N M)^[p] a = a)
variable (hmin : ∀ q, 1 ≤ q → q < p → (cleHeads N M)^[q] a ≠ a)
variable (hmask : ∀ u, cycle u = true ↔ MemOrbit (N + 1) (cleHeads N M) a p u)

include hp2 hcyc hmin hmask

theorem contract_exists_exit (t : Fin (N + 1) → Fin (N + 1)) (ht : IsArbor (N + 1) t) :
    ∃ e, cycle e = true ∧ cycle (t e) = false ∧ ∀ j, cycle ((t^[j]) (t e)) = false := by
  have hex0 : ∃ k, ((t^[k]) a).val = 0 := ht.2 a
  set k0 := Nat.find hex0 with hk0
  set jm := Nat.findGreatest (fun j => cycle ((t^[j]) a) = true) k0 with hjm
  have hca : cycle ((t^[0]) a) = true := by
    simpa using (hmask a).mpr ⟨0, by omega, rfl⟩
  have he1 : cycle ((t^[jm]) a) = true := by
    rw [hjm]
    exact findGreatest_bool_spec (fun j => cycle ((t^[j]) a)) k0 0 (Nat.zero_le k0) hca
  have hjmle : jm ≤ k0 := by
    rw [hjm]
    exact findGreatest_bool_le (fun j => cycle ((t^[j]) a)) k0
  have he2 : ∀ j, jm < j → cycle ((t^[j]) a) = false := by
    intro j hj
    rcases le_or_lt j k0 with hjk | hjk
    · rw [hjm] at hj
      exact findGreatest_bool_greatest (fun j => cycle ((t^[j]) a)) k0 j hj hjk
    · have hz : ((t^[k0]) a).val = 0 := by
        rw [hk0]
        exact Nat.find_spec hex0
      have hfix : t ((t^[k0]) a) = (t^[k0]) a := ht.1 _ hz
      have hjz : (t^[j]) a = (t^[k0]) a := by
        rw [show j = (j - k0) + k0 by omega, Function.iterate_add_apply]
        exact Function.iterate_fixed hfix (j - k0)
      rw [hjz]
      by_contra hc
      have hc' : cycle ((t^[k0]) a) = true := by simpa using hc
      exact absurd hz (cycle_mem_val_ne N M cycle a p hp2 hcyc hmin hmask _ hc')
  refine ⟨(t^[jm]) a, he1, ?_, ?_⟩
  · have : t ((t^[jm]) a) = (t^[jm + 1]) a := (Function.iterate_succ_apply' t jm a).symm
    rw [this]
    exact he2 (jm + 1) (by omega)
  · intro j
    have h1 : (t^[j]) (t ((t^[jm]) a)) = (t^[j + (jm + 1)]) a := by
      rw [Function.iterate_add_apply]
      congr 1
      exact (Function.iterate_succ_apply' t jm a).symm
    rw [h1]
    exact he2 (j + (jm + 1)) (by omega)

end CycleCase6

section CycleCase7

variable (N : ℕ) (M : Fin (N + 1) → Fin (N + 1) → S) (cycle : Fin (N + 1) → Bool)
variable (a : Fin (N + 1)) (p : ℕ)
variable (hp2 : 2 ≤ p) (hcyc : (cleHeads N M)^[p] a = a)
variable (hmin : ∀ q, 1 ≤ q → q < p → (cleHeads N M)^[q] a ≠ a)
variable (hmask : ∀ u, cycle u = true ↔ MemOrbit (N + 1) (cleHeads N M) a p u)

include hp2 hcyc hmin hmask

theorem contract_reach_chain (t : Fin (N + 1) → Fin (N + 1)) (e : Fin (N + 1)) :
    ∀ d : ℕ, ∀ v : Fin (N + 1), cycle v = false →
      (∀ j, cycle ((t^[j]) v) = false) → ((t^[d]) v).val = 0 →
      ∃ k, (((contractOf N cycle t e)^[k]) (ncycIdxF N cycle v)).val = 0 := by
  intro d
  induction d with
  | zero =>
    intro v hv _ hd
    refine ⟨0, ?_⟩
    simp only [Function.iterate_zero, id_eq] at hd ⊢
    show (ncycLocs N cycle).indexOf v = 0
    have hv0 : v = 0 := Fin.ext (by simpa using hd)
    rw [hv0]
    exact ncyc_indexOf_zero N M cycle a p hp2 hcyc hmin hmask
  | succ d ih =>
    intro v hv hchain hd
    by_cases hv0 : v.val = 0
    · refine ⟨0, ?_⟩
      simp only [Function.iterate_zero, id_eq]
      show (ncycLocs N cycle).indexOf v = 0
      have hveq : v = 0 := Fin.ext (by simpa using hv0)
      rw [hveq]
      exact ncyc_indexOf_zero N M cycle a p hp2 hcyc hmin hmask
    · have htv : cycle (t v) = false := by
        have := hchain 1
        simpa using this
      have hchain2 : ∀ j, cycle ((t^[j]) (t v)) = false := by
        intro j
        have := hchain (j + 1)
        rwa [Function.iterate_add_apply, Function.iterate_one] at this
      have hd2 : ((t^[d]) (t v)).val = 0 := by
        rwa [Function.iterate_succ_apply] at hd
      obtain ⟨k, hk⟩ := ih (t v) htv hchain2 hd2
      refine ⟨k + 1, ?_⟩
      rw [Function.iterate_add_apply, Function.iterate_one,
        contractOf_at N cycle t e v hv]
      exact hk

theorem contract_meta_reach (t : Fin (N + 1) → Fin (N + 1)) (e : Fin (N + 1))
    (ht : IsArbor (N + 1) t) (hte : cycle (t e) = false)
    (hchain : ∀ j, cycle ((t^[j]) (t e)) = false) :
    ∃ k, (((contractOf N cycle t e)^[k])
      (⟨(ncycLocs N cycle).length, Nat.lt_succ_self _⟩ :
        Fin ((ncycLocs N cycle).length + 1))).val = 0 := by
  obtain ⟨d, hd⟩ := ht.2 (t e)
  obtain ⟨k, hk⟩ := contract_reach_chain N M cycle a p hp2 hcyc hmin hmask t e d (t e)
    hte hchain hd
  refine ⟨k + 1, ?_⟩
  rw [Function.iterate_add_apply, Function.iterate_one,
    contractOf_hi N cycle t e _ (Nat.lt_irrefl _)]
  exact hk

theorem contract_reach_all (t : Fin (N + 1) → Fin (N + 1)) (e : Fin (N + 1))
    (ht : IsArbor (N + 1) t) (hte : cycle (t e) = false)
    (hchain : ∀ j, cycle ((t^[j]) (t e)) = false) :
    ∀ d : ℕ, ∀ v : Fin (N + 1), cycle v = false → ((t^[d]) v).val = 0 →
      ∃ k, (((contractOf N cycle t e)^[k]) (ncycIdxF N cycle v)).val = 0 := by
  intro d
  induction d with
  | zero =>
    intro v hv hd
    refine ⟨0, ?_⟩
    simp only [Function.iterate_zero, id_eq] at hd ⊢
    show (ncycLocs N cycle).indexOf v = 0
    have hv0 : v = 0 := Fin.ext (by simpa using hd)
    rw [hv0]
    exact ncyc_indexOf_zero N M cycle a p hp2 hcyc hmin hmask
  | succ d ih =>
    intro v hv hd
    by_cases hv0 : v.val = 0
    · refine ⟨0, ?_⟩
      simp only [Function.iterate_zero, id_eq]
      show (ncycLocs N cycle).indexOf v = 0
      have hveq : v = 0 := Fin.ext (by simpa using hv0)
      rw [hveq]
      exact ncyc_indexOf_zero N M cycle a p hp2 hcyc hmin hmask
    · have hd2 : ((t^[d]) (t v)).val = 0 := by
        rwa [Function.iterate_succ_apply] at hd
      by_cases htv : cycle (t v) = true
      · obtain ⟨k, hk⟩ := contract_meta_reach N M cycle a p hp2 hcyc hmin hmask t e
          ht hte hchain
        refine ⟨k + 1, ?_⟩
        rw [Function.iterate_add_apply, Function.iterate_one,
          contractOf_at N cycle t e v hv, ncycIdxF_cycle N cycle (t v) htv]
        exact hk
      · have htv2 : cycle (t v) = false := by simpa using htv
        obtain ⟨k, hk⟩ := ih (t v) htv2 hd2
        refine ⟨k + 1, ?_⟩
        rw [Function.iterate_add_apply, Function.iterate_one,
          contractOf_at N cycle t e v hv]
        exact hk

theorem contractOf_arbor (t : Fin (N + 1) → Fin (N + 1)) (e : Fin (N + 1))
    (ht : IsArbor (N + 1) t) (hte : cycle (t e) = false)
    (hchain : ∀ j, cycle ((t^[j]) (t e)) = false) :
    IsArbor ((ncycLocs N cycle).length + 1) (contractOf N cycle t e) := by
  constructor
  · intro i hi
    have hilt : i.val < (ncycLocs N cycle).length := by
      have := ncycLocs_length_pos N M cycle a p hp2 hcyc hmin hmask
      omega
    rw [contractOf_lo N cycle t e i hilt]
    have h1 : ncycD N cycle i.val = 0 := by
      rw [hi]
      exact ncycD_zero N M cycle a p hp2 hcyc hmin hmask
    rw [h1, ht.1 0 rfl]
    apply Fin.ext
    show (ncycLocs N cycle).indexOf (0 : Fin (N + 1)) = i.val
    rw [ncyc_indexOf_zero N M cycle a p hp2 hcyc hmin hmask, hi]
  · intro i
    by_cases hi : i.val < (ncycLocs N cycle).length
    · have hnc : cycle (ncycD N cycle i.val) = false := ncycD_mem N cycle i.val hi
      obtain ⟨d, hd⟩ := ht.2 (ncycD N cycle i.val)
      obtain ⟨k, hk⟩ := contract_reach_all N M cycle a p hp2 hcyc hmin hmask t e ht
        hte hchain d (ncycD N cycle i.val) hnc hd
      refine ⟨k, ?_⟩
      have hidx : ncycIdxF N cycle (ncycD N cycle i.val) = i := by
        apply Fin.ext
        show (ncycLocs N cycle).indexOf (ncycD N cycle i.val) = i.val
        exact indexOf_ncycD N cycle i.val hi
      rw [← hidx]
      exact hk
    · have hieq : i = ⟨(ncycLocs N cycle).length, Nat.lt_succ_self _⟩ := by
        apply Fin.ext
        have := i.isLt
        simp only []
        omega
      rw [hieq]
      exact contract_meta_reach N M cycle a p hp2 hcyc hmin hmask t e ht hte hchain

end CycleCase7

section CycleCase8

variable (N : ℕ) (M : Fin (N + 1) → Fin (N + 1) → S) (cycle : Fin (N + 1) → Bool)
variable (a : Fin (N + 1)) (p : ℕ)
variable (hp2 : 2 ≤ p) (hcyc : (cleHeads N M)^[p] a = a)
variable (hmin : ∀ q, 1 ≤ q → q < p → (cleHeads N M)^[q] a ≠ a)
variable (hmask : ∀ u, cycle u = true ↔ MemOrbit (N + 1) (cleHeads N M) a p u)

include hp2 hcyc hmin hmask

theorem contract_cycle_sum_le (t : Fin (N + 1) → Fin (N + 1)) (e : Fin (N + 1))
    (he1 : cycle e = true) (hte : cycle (t e) = false) :
    ((cycLocs N cycle).map (fun c => clePrep (N + 1) M c (t c))).sum ≤
      mnhs N M cycle (mnHeads N M cycle ((ncycLocs N cycle).indexOf (t e)))
        ((ncycLocs N cycle).indexOf (t e)) := by
  have hciE := cyc_indexOf_lt N cycle e he1
  have hidxE := ncyc_indexOf_lt N cycle (t e) hte
  have hstep1 : ((cycLocs N cycle).map (fun c => clePrep (N + 1) M c (t c))).sum ≤
      clePrep (N + 1) M e (t e) + cycRest N M cycle ((cycLocs N cycle).indexOf e) := by
    rw [sum_map_split_at (cycLocs N cycle) _ hciE]
    have hgete : (cycLocs N cycle)[(cycLocs N cycle).indexOf e] = e := by
      rw [← cycD_eq_getElem N cycle _ hciE]
      exact cycD_indexOf N cycle e he1
    rw [hgete]
    have htake : (((cycLocs N cycle).take ((cycLocs N cycle).indexOf e)).map
        (fun c => clePrep (N + 1) M c (t c))).sum ≤
        (((cycLocs N cycle).take ((cycLocs N cycle).indexOf e)).map
          (fun c => clePrep (N + 1) M c (cleHeads N M c))).sum :=
      List.sum_le_sum (fun c _ =>
        npArgmax_is_max (N + 1) (clePrep (N + 1) M c) (Nat.succ_pos N) (t c))
    have hdrop : (((cycLocs N cycle).drop ((cycLocs N cycle).indexOf e + 1)).map
        (fun c => clePrep (N + 1) M c (t c))).sum ≤
        (((cycLocs N cycle).drop ((cycLocs N cycle).indexOf e + 1)).map
          (fun c => clePrep (N + 1) M c (cleHeads N M c))).sum :=
      List.sum_le_sum (fun c _ =>
        npArgmax_is_max (N + 1) (clePrep (N + 1) M c) (Nat.succ_pos N) (t c))
    calc (((cycLocs N cycle).take ((cycLocs N cycle).indexOf e)).map
          (fun c => clePrep (N + 1) M c (t c))).sum +
        (clePrep (N + 1) M e (t e) +
          (((cycLocs N cycle).drop ((cycLocs N cycle).indexOf e + 1)).map
            (fun c => clePrep (N + 1) M c (t c))).sum) ≤
        (((cycLocs N cycle).take ((cycLocs N cycle).indexOf e)).map
          (fun c => clePrep (N + 1) M c (cleHeads N M c))).sum +
        (clePrep (N + 1) M e (t e) +
          (((cycLocs N cycle).drop ((cycLocs N cycle).indexOf e + 1)).map
            (fun c => clePrep (N + 1) M c (cleHeads N M c))).sum) := by
          exact add_le_add htake (add_le_add le_rfl hdrop)
    _ = clePrep (N + 1) M e (t e) + cycRest N M cycle ((cycLocs N cycle).indexOf e) := by
          unfold cycRest
          rw [add_left_comm]
  refine le_trans hstep1 (le_trans (le_of_eq ?_)
    (mnHeads_is_max N M cycle a p hp2 hcyc hmin hmask _ _ hciE))
  rw [mnhs_eq N M cycle a p hp2 hcyc hmin hmask _ _ hciE]
  rw [cycD_indexOf N cycle e he1]
  rw [ncycD_indexOf N cycle (t e) hte]

theorem contractOf_score (t : Fin (N + 1) → Fin (N + 1)) (e : Fin (N + 1))
    (ht : IsArbor (N + 1) t) (he1 : cycle e = true) (hte : cycle (t e) = false) :
    pscore (N + 1) (clePrep (N + 1) M) t ≤
      pscore ((ncycLocs N cycle).length + 1)
        (clePrep ((ncycLocs N cycle).length + 1) (subScores N M cycle))
        (contractOf N cycle t e) := by
  have hnn := ncycLocs_length_pos N M cycle a p hp2 hcyc hmin hmask
  have hsplitL : pscore (N + 1) (clePrep (N + 1) M) t =
      ((cycLocs N cycle).map (fun c => clePrep (N + 1) M c (t c))).sum +
        ((ncycLocs N cycle).map (fun v => clePrep (N + 1) M v (t v))).sum := by
    unfold pscore
    rw [← sum_map_filter_split (List.finRange (N + 1)) (fun j => cycle j)
      (fun m => clePrep (N + 1) M m (t m))]
    rfl
  have hsplitR : pscore ((ncycLocs N cycle).length + 1)
      (clePrep ((ncycLocs N cycle).length + 1) (subScores N M cycle))
      (contractOf N cycle t e) =
      ((List.finRange (ncycLocs N cycle).length).map
        (fun i => clePrep ((ncycLocs N cycle).length + 1) (subScores N M cycle)
          i.castSucc (contractOf N cycle t e i.castSucc))).sum +
      clePrep ((ncycLocs N cycle).length + 1) (subScores N M cycle)
        ⟨(ncycLocs N cycle).length, Nat.lt_succ_self _⟩
        (contractOf N cycle t e ⟨(ncycLocs N cycle).length, Nat.lt_succ_self _⟩) := by
    unfold pscore
    rw [List.finRange_succ_last, List.map_append, List.sum_append, List.map_map]
    have hsingle : (List.map (fun i => clePrep ((ncycLocs N cycle).length + 1)
        (subScores N M cycle) i (contractOf N cycle t e i))
        [Fin.last (ncycLocs N cycle).length]).sum =
        clePrep ((ncycLocs N cycle).length + 1) (subScores N M cycle)
          ⟨(ncycLocs N cycle).length, Nat.lt_succ_self _⟩
          (contractOf N cycle t e ⟨(ncycLocs N cycle).length, Nat.lt_succ_self _⟩) := by
      simp only [List.map_cons, List.map_nil, List.sum_cons, List.sum_nil, add_zero]
      rfl
    rw [hsingle]
    rfl
  rw [hsplitL, hsplitR, add_comm]
  apply add_le_add
  · have hreidx : ((ncycLocs N cycle).map (fun v => clePrep (N + 1) M v (t v))).sum =
        ((List.finRange (ncycLocs N cycle).length).map
          (fun i => clePrep (N + 1) M (ncycD N cycle i.val) (t (ncycD N cycle i.val)))).sum := by
      conv_lhs => rw [← List.finRange_map_get (ncycLocs N cycle), List.map_map]
      apply congrArg
      apply List.map_congr_left
      intro i _
      simp only [Function.comp]
      have hget : (ncycLocs N cycle).get i = ncycD N cycle i.val := by
        rw [ncycD_eq_getElem N cycle _ i.isLt]
        rfl
      rw [hget]
    rw [hreidx]
    apply List.sum_le_sum
    intro i _
    have hcast : (Fin.castSucc i).val = i.val := rfl
    have hlo := contractOf_lo N cycle t e (Fin.castSucc i) (by rw [hcast]; exact i.isLt)
    by_cases hi0 : i.val = 0
    · have hv0 : ncycD N cycle i.val = 0 := by
        rw [hi0]
        exact ncycD_zero N M cycle a p hp2 hcyc hmin hmask
      rw [hv0, ht.1 0 rfl]
      have hL : clePrep (N + 1) M 0 0 = ((0 : ℤ) : S) := by
        rw [clePrep_row0 N M 0 0 rfl]
        simp
      rw [hL]
      have hR : contractOf N cycle t e (Fin.castSucc i) =
          ncycIdxF N cycle (0 : Fin (N + 1)) := by
        rw [hlo, hcast, hv0, ht.1 0 rfl]
      rw [hR]
      have hidx0 : ncycIdxF N cycle (0 : Fin (N + 1)) =
          ⟨0, Nat.succ_pos _⟩ := by
        apply Fin.ext
        show (ncycLocs N cycle).indexOf (0 : Fin (N + 1)) = 0
        exact ncyc_indexOf_zero N M cycle a p hp2 hcyc hmin hmask
      rw [hidx0]
      have hcs0 : (Fin.castSucc i) = (⟨0, Nat.succ_pos _⟩ :
          Fin ((ncycLocs N cycle).length + 1)) := by
        apply Fin.ext
        rw [hcast, hi0]
      rw [hcs0]
      rw [clePrep_row0 (ncycLocs N cycle).length (subScores N M cycle)
        ⟨0, Nat.succ_pos _⟩ ⟨0, Nat.succ_pos _⟩ rfl]
      simp
    · have hvne : (ncycD N cycle i.val).val ≠ 0 := by
        intro hz
        have hveq : ncycD N cycle i.val = 0 := Fin.ext (by simpa using hz)
        have := indexOf_ncycD N cycle i.val i.isLt
        rw [hveq, ncyc_indexOf_zero N M cycle a p hp2 hcyc hmin hmask] at this
        exact hi0 this.symm
      by_cases htv : cycle (t (ncycD N cycle i.val)) = true
      · have hR : contractOf N cycle t e (Fin.castSucc i) =
            ⟨(ncycLocs N cycle).length, Nat.lt_succ_self _⟩ := by
          rw [hlo, hcast, ncycIdxF_cycle N cycle _ htv]
        rw [hR]
        have hentry : clePrep ((ncycLocs N cycle).length + 1) (subScores N M cycle)
            (Fin.castSucc i) ⟨(ncycLocs N cycle).length, Nat.lt_succ_self _⟩ =
            subScores N M cycle (Fin.castSucc i)
              ⟨(ncycLocs N cycle).length, Nat.lt_succ_self _⟩ := by
          apply clePrep_entry
          · rw [hcast]; exact hi0
          · intro hc
            have h1 := congrArg Fin.val hc
            have h2 : ((⟨(ncycLocs N cycle).length, Nat.lt_succ_self _⟩ :
                Fin ((ncycLocs N cycle).length + 1))).val =
                (ncycLocs N cycle).length := rfl
            rw [h2, hcast] at h1
            have h3 := i.isLt
            omega
        rw [hentry, subScores_lo_hi N M cycle _ _ (by rw [hcast]; exact i.isLt)
          (Nat.lt_irrefl _)]
        try rw [hcast]
        exact mnDeps_is_max N M cycle a p hp2 hcyc hmin hmask i.val _ htv
      · have htv2 : cycle (t (ncycD N cycle i.val)) = false := by simpa using htv
        have hR : contractOf N cycle t e (Fin.castSucc i) =
            ncycIdxF N cycle (t (ncycD N cycle i.val)) := by
          rw [hlo, hcast]
        rw [hR]
        have hidxlt := ncyc_indexOf_lt N cycle _ htv2
        have hentry : clePrep ((ncycLocs N cycle).length + 1) (subScores N M cycle)
            (Fin.castSucc i) (ncycIdxF N cycle (t (ncycD N cycle i.val))) =
            subScores N M cycle (Fin.castSucc i)
              (ncycIdxF N cycle (t (ncycD N cycle i.val))) := by
          apply clePrep_entry
          · rw [hcast]; exact hi0
          · intro hc
            have hval := congrArg Fin.val hc
            have hval2 : (ncycLocs N cycle).indexOf (t (ncycD N cycle i.val)) = i.val := by
              have h4 : (ncycIdxF N cycle (t (ncycD N cycle i.val))).val =
                  (ncycLocs N cycle).indexOf (t (ncycD N cycle i.val)) := rfl
              have h5 : (Fin.castSucc i).val = i.val := rfl
              omega
            have := ncycD_indexOf N cycle (t (ncycD N cycle i.val)) htv2
            rw [hval2] at this
            exact arbor_no_self (N + 1) t ht (ncycD N cycle i.val) hvne this.symm
        rw [hentry, subScores_lo_lo N M cycle _ _ (by rw [hcast]; exact i.isLt)
          (by exact hidxlt)]
        try rw [hcast]
        have hrt : ncycD N cycle (ncycIdxF N cycle (t (ncycD N cycle i.val))).val =
            t (ncycD N cycle i.val) :=
          ncycD_indexOf N cycle _ htv2
        rw [hrt]
  · have hhi := contractOf_hi N cycle t e
      ⟨(ncycLocs N cycle).length, Nat.lt_succ_self _⟩ (Nat.lt_irrefl _)
    rw [hhi]
    have hidxE := ncyc_indexOf_lt N cycle (t e) hte
    have hentry : clePrep ((ncycLocs N cycle).length + 1) (subScores N M cycle)
        ⟨(ncycLocs N cycle).length, Nat.lt_succ_self _⟩ (ncycIdxF N cycle (t e)) =
        subScores N M cycle ⟨(ncycLocs N cycle).length, Nat.lt_succ_self _⟩
          (ncycIdxF N cycle (t e)) := by
      apply clePrep_entry
      · show (ncycLocs N cycle).length ≠ 0
        omega
      · intro hc
        have hval := congrArg Fin.val hc
        show False
        have hval2 : (ncycLocs N cycle).indexOf (t e) = (ncycLocs N cycle).length := hval
        omega
    rw [hentry, subScores_hi_lo N M cycle _ _ (Nat.lt_irrefl _) (by exact hidxE)]
    exact contract_cycle_sum_le N M cycle a p hp2 hcyc hmin hmask t e he1 hte

end CycleCase8

section CycleCase9

variable (N : ℕ) (M : Fin (N + 1) → Fin (N + 1) → S) (cycle : Fin (N + 1) → Bool)
variable (a : Fin (N + 1)) (p : ℕ)
variable (hp2 : 2 ≤ p) (hcyc : (cleHeads N M)^[p] a = a)
variable (hmin : ∀ q, 1 ≤ q → q < p → (cleHeads N M)^[q] a ≠ a)
variable (hmask : ∀ u, cycle u = true ↔ MemOrbit (N + 1) (cleHeads N M) a p u)

include hp2 hcyc hmin hmask

theorem cle_psi (t : Fin (N + 1) → Fin (N + 1)) (ht : IsArbor (N + 1) t) :
    ∃ tc, IsArbor ((ncycLocs N cycle).length + 1) tc ∧
      pscore (N + 1) (clePrep (N + 1) M) t ≤
        pscore ((ncycLocs N cycle).length + 1)
          (clePrep ((ncycLocs N cycle).length + 1) (subScores N M cycle)) tc := by
  obtain ⟨e, he1, hte, hchain⟩ :=
    contract_exists_exit N M cycle a p hp2 hcyc hmin hmask t ht
  exact ⟨contractOf N cycle t e,
    contractOf_arbor N M cycle a p hp2 hcyc hmin hmask t e ht hte hchain,
    contractOf_score N M cycle a p hp2 hcyc hmin hmask t e ht he1 hte⟩

end CycleCase9

/-- Full specification of the fueled solver: it returns an arborescence of
maximum total prepared score. -/
theorem cleAux_spec : ∀ (fuel N : ℕ) (hle : N + 1 ≤ fuel)
    (M : Fin (N + 1) → Fin (N + 1) → S),
    IsArbor (N + 1) (cleAux fuel (N + 1) hle M) ∧
    ∀ t, IsArbor (N + 1) t →
      pscore (N + 1) (clePrep (N + 1) M) t ≤
        pscore (N + 1) (clePrep (N + 1) M) (cleAux fuel (N + 1) hle M) := by
  intro fuel
  induction fuel with
  | zero => intro N hle M; omega
  | succ fuel ih =>
    intro N hle M
    cases hcy : (tarjan (N + 1) (cleHeads N M)).getLast? with
    | none =>
      have hnil : tarjan (N + 1) (cleHeads N M) = [] := by
        cases h : tarjan (N + 1) (cleHeads N M) with
        | nil => rfl
        | cons x xs =>
          rw [h] at hcy
          simp [List.getLast?] at hcy
      rw [cleAux_succ_nocycle fuel N hle M hnil]
      exact ⟨cleGreedy_arbor N M hnil, fun t _ => cleGreedy_opt N M t⟩
    | some cycle =>
      have hmem : cycle ∈ tarjan (N + 1) (cleHeads N M) := List.mem_of_mem_getLast? hcy
      obtain ⟨a, p, hp2, hcycp, hminp, hmaskp⟩ :=
        (tarjan_sound_complete (N + 1) (cleHeads N M)).1 cycle hmem
      have h2 : 2 ≤ countTrue (N + 1) cycle :=
        tarjan_popcount (N + 1) (cleHeads N M) cycle hmem
      have hlen : (ncycLocs N cycle).length + 1 ≤ fuel := by
        have hshrink := contraction_shrinks (N + 1) cycle h2
        have heq : (ncycLocs N cycle).length =
            ((List.finRange (N + 1)).filter (fun j => ¬ cycle j)).length := rfl
        omega
      rw [cleAux_succ_cycle fuel N hle M cycle hcy hlen]
      have hin := ih (ncycLocs N cycle).length hlen (subScores N M cycle)
      constructor
      · exact cleExpand_arbor N M cycle a p hp2 hcycp hminp hmaskp _ hin.1
      · intro t ht
        obtain ⟨tc, htc, hle2⟩ := cle_psi N M cycle a p hp2 hcycp hminp hmaskp t ht
        refine le_trans hle2 (le_trans (hin.2 tc htc) ?_)
        exact cleExpand_score N M cycle a p hp2 hcycp hminp hmaskp _ hin.1

/-- **C1.** For every score matrix, `chu_liu_edmonds` returns a maximum-scoring
arborescence rooted at token 0: the result is a spanning arborescence, its
total arc score dominates that of every arborescence, and when Tarjan's scan
of the greedy head choices reports no non-trivial cycle the greedy assignment
itself is returned. -/
theorem C1_cle_max_arborescence (N : ℕ) (M : Fin (N + 1) → Fin (N + 1) → S) :
    IsArbor (N + 1) (chu_liu_edmonds (N + 1) M) ∧
    (∀ t, IsArbor (N + 1) t →
      treeScore (N + 1) M t ≤ treeScore (N + 1) M (chu_liu_edmonds (N + 1) M)) ∧
    (tarjan (N + 1) (cleGreedy (N + 1) M (Nat.succ_pos N)) = [] →
      chu_liu_edmonds (N + 1) M = cleGreedy (N + 1) M (Nat.succ_pos N)) := by
  obtain ⟨harb, hopt⟩ := cleAux_spec (N + 1) N le_rfl M
  refine ⟨harb, ?_, chu_liu_edmonds_no_cycle N M⟩
  intro t ht
  have h1 := hopt t ht
  rwa [pscore_eq_treeScore N M t ht, pscore_eq_treeScore N M _ harb] at h1

def W1M : Fin 4 → Fin 4 → S :=
  ![![0, 0, 0, 0],
    ![1, 0, 10, 0],
    ![0, 0, 0, 10],
    ![3, 10, 0, 0]]

def W1T : Fin 4 → Fin 4 := ![0, 2, 3, 0]

theorem C1_cle_max_arborescence_witness :
    IsArbor 4 (chu_liu_edmonds 4 W1M) ∧
    treeScore 4 W1M W1T ≤ treeScore 4 W1M (chu_liu_edmonds 4 W1M) :=
  ⟨(C1_cle_max_arborescence 3 W1M).1,
   (C1_cle_max_arborescence 3 W1M).2.1 W1T
     ⟨by decide, fun m => ⟨3, by revert m; decide⟩⟩⟩
